import Mathlib

/-!
# JsonParser: tokenizer, parser state machine and node tree

A shallow embedding of `src/src/tokenizer.cpp`, `src/JsonParser/parser.cpp` and
`src/JsonParser/node.cpp`.

* The file read by the tokenizer is a list of `char`s. A `char` is modelled by the `Char`
  whose code is the byte read as an unsigned number, so `(char)-1`, which is also what
  `file.get()` yields at the end of the file, is the `Char` with code 255 (`char` is signed,
  as on x86; with an unsigned `char` the test `c == -1` of `getToken` never holds).
* `std::shared_ptr<Node>` is an index into a store of nodes (`Heap`); a node of the store
  (`Cell`) holds pointers to its children, a `Node` is a node together with all its
  descendants, as `Node::toString` and the accessors see it.
* Exceptions are values of `Failure`, one constructor per exception class and one value of
  `LexError`, `SyntaxError` or `NodeError` per `throw` of the source.
* `std::stod` and `std::to_string(double)` are parameters (`StdLib`); `refLib` is an instance
  used to evaluate the program on concrete files.
* The accessors of `Node` (`at`, `operator[]`, the conversions) are functions on a node with
  its descendants; those that are not `const` return the node as they leave it as well.
-/

namespace Json

/-- The type `std::string`. -/
abbrev Str := List Char

/-! ## Numbers -/

/-- A C++ `double`: a finite value, held exactly, an infinity or a NaN. -/
inductive Double
  | finite (q : ℚ)
  | infinite (negative : Bool)
  | nan
deriving DecidableEq

/-- The least value of `int` (32 bits). -/
def INT_MIN : Int := -2147483648

/-- The greatest value of `int` (32 bits). -/
def INT_MAX : Int := 2147483647

namespace Double

/-- The test `std::modf(number, &intPart) == 0.0`: the fractional part of a finite value is
zero exactly when the value is integral, that of an infinity is a zero, that of a NaN is a
NaN. -/
def modfIsZero : Double → Bool
  | finite q => decide (q.den = 1)
  | infinite _ => true
  | nan => false

/-- The conversion `(int)number`: the value truncated toward zero; the conversion is
undefined (`none`) when the truncated value is not a value of `int`. -/
def toInt : Double → Option Int
  | finite q =>
    if INT_MIN ≤ Int.tdiv q.num q.den ∧ Int.tdiv q.num q.den ≤ INT_MAX then
      some (Int.tdiv q.num q.den)
    else none
  | infinite _ => none
  | nan => none

end Double

/-- The functions of the C++ standard library that the program calls on `double`s. -/
structure StdLib where
  /-- The call `std::stod(s)`; `none` when it throws `std::invalid_argument` or
  `std::out_of_range`. -/
  stod : Str → Option Double
  /-- The call `std::to_string(d)` on a `double`. -/
  to_string : Double → Str

/-- The call `std::to_string(i)` on an `int`. -/
def intToString (i : Int) : Str :=
  if i < 0 then '-' :: Nat.toDigits 10 i.natAbs else Nat.toDigits 10 i.natAbs

/-! ## Failures -/

/-- The states of the parser (`Parser::State`). -/
inductive State
  | Start | ObjectOpen | ObjectClose | ListOpen | ListClose | Key | Value | Colon | Comma
  | End | Undefined
deriving DecidableEq, Repr

/-- The `Tokenizer::Exception`s, by the `throw` that raises them. -/
inductive LexError
  /-- "Function readUntil() could not find closing character(s) while reading the json file" -/
  | noClosingCharacter
  /-- "Could not convert ... to a number" -/
  | notANumber (value : Str)
  /-- "Misspelled Boolean Token value: found ... instead of ..." -/
  | misspelledBoolean (found expected : Str)
  /-- "Misspelled Null Token value: found ... instead of "null"" -/
  | misspelledNull (found : Str)
  /-- "Could not parse token starting with ..." -/
  | unknownStart (c : Char)
deriving DecidableEq

/-- The `Parser::Exception`s, by the `throw` that raises them. -/
inductive SyntaxError
  /-- "Entered an illegal state. Parser's state: ..." with what `getFullStateAsString` prints:
  the last state, the state, and the types of the nodes of `hierarchy` (the last one is the
  parent). -/
  | illegalState (last now : State) (tree : List Str)
  /-- "Found wrong closing bracket (object instead of list)" -/
  | objectInsteadOfList
  /-- "Found wrong closing bracket (list instead of object)" -/
  | listInsteadOfObject
  /-- "Wrong order of tokens" -/
  | wrongOrderOfTokens
  /-- "Hierarchy contains illegal node type (...)" -/
  | illegalNodeType (parent : Str)
deriving DecidableEq

/-- The `Node::Exception`s, by the `throw` that raises them. -/
inductive NodeError
  /-- "List type JSON node indexed out of range (index: ..., size: ...)" -/
  | indexOutOfRange (index size : Nat)
  /-- "Requested vector-like indexing on ... type JSON node" -/
  | vectorIndexingOn (type : Str)
  /-- "Key ... does not exists in indexed JSON object" -/
  | keyDoesNotExist (key : Str)
  /-- "Requested map-like indexing on ... type JSON node" -/
  | mapIndexingOn (type : Str)
  /-- "Cannot convert ... node to ..." -/
  | cannotConvert (type target : Str)
  /-- "Requested map-like insert on ... type node" -/
  | mapInsertOn (type : Str)
  /-- "Requested list-like insert on ... type node" -/
  | listInsertOn (type : Str)
deriving DecidableEq

/-- How a call ends when it does not return. -/
inductive Failure
  /-- A `Tokenizer::Exception` (the spec's LexError). -/
  | lexError (e : LexError)
  /-- A `Parser::Exception` (the spec's SyntaxError). -/
  | syntaxError (e : SyntaxError)
  /-- A `Node::Exception` (the spec's TypeMismatchError, IndexError and KeyError). -/
  | nodeError (e : NodeError)
  /-- An exception of `std::stod` that nothing catches. -/
  | stdException
  /-- The call has undefined behaviour: `pop_back` on an empty vector, a null pointer
  dereferenced, a `double` converted to `int` out of range. -/
  | undefinedBehaviour
  /-- The bound on the iterations of a loop of this model was reached (never, see
  `Tokenizer.tokenize_fuel`). -/
  | outOfFuel
deriving DecidableEq

/-! ## Tokenizer (`src/src/tokenizer.cpp`) -/

/-- The kinds of token (`Token::Type`). -/
inductive TokenType
  | Null | Boolean | Number | String | ListOpen | ListClose | ObjectOpen | ObjectClose
  | Comma | Colon | End
deriving DecidableEq, Repr

/-- A `Token`. -/
structure Token where
  value : Str
  type : TokenType
deriving DecidableEq

namespace Tokenizer

/-- The `char` with value `-1`: what `file.get()` returns, narrowed to `char`, at the end of
the file, and also the byte 255 read from the file. -/
def EOFchar : Char := Char.ofNat 255

/-- `readUntil(characters, inclusive)` on the unread part of the file: the characters before
the first one that occurs in `characters`, and the part of the file left unread, which starts
at that character when `inclusive` is false (`rollBackCharacter`) and after it otherwise.
At the end of the file `get()` returns `-1` and sets `eofbit` and `failbit`; `-1` is not in
`characters` (which is `,]}` or `"` in every call), so the loop is entered and throws. -/
def readUntil (characters : Str) (inclusive : Bool) : List Char → Except Failure (Str × List Char)
  | [] => .error (.lexError .noClosingCharacter)
  | c :: file =>
    if c ∈ characters then .ok ([], if inclusive then file else c :: file)
    else
      match readUntil characters inclusive file with
      | .error e => .error e
      | .ok (result, unread) => .ok (c :: result, unread)

/-- `getNextNonWhiteSpaceCharacter()` on the unread part of the file, the stream being good:
the character returned, the part left unread, and whether `eofbit` is set on return. A
`get()` that reads a character leaves the stream good, so the second check of the loop does
not throw; at the end of the file `get()` sets `eofbit` and the function returns `-1`. -/
def getNextNonWhiteSpaceCharacter : List Char → Char × List Char × Bool
  | [] => (EOFchar, [], true)
  | c :: file =>
    if c = ' ' ∨ c = '\n' ∨ c = '\t' then getNextNonWhiteSpaceCharacter file
    else (c, file, false)

/-- `getToken()` on the unread part of the file, the stream being good (so the first check,
"Ran out of tokens!", does not throw): the token, the part left unread, and whether `eofbit`
is set on return. `moveReader(-1)` gives back the character `c` just read. The branches
test `c` alone, so the byte 255 and the end of the file both give an End token. -/
def getToken (lib : StdLib) (file : List Char) : Except Failure (Token × List Char × Bool) :=
  match getNextNonWhiteSpaceCharacter file with
  | (c, unread, eof) =>
    if ('0' ≤ c ∧ c ≤ '9') ∨ c = '-' ∨ c = '.' then
      match readUntil [',', ']', '}'] false (c :: unread) with
      | .error e => .error e
      | .ok (value, unread) =>
        match lib.stod value with
        | none => .error (.lexError (.notANumber value))
        | some _ => .ok (⟨value, .Number⟩, unread, eof)
    else if c = '"' then
      match readUntil ['"'] true unread with
      | .error e => .error e
      | .ok (value, unread) => .ok (⟨value, .String⟩, unread, eof)
    else if c = 't' then
      match readUntil [',', ']', '}'] false (c :: unread) with
      | .error e => .error e
      | .ok (value, unread) =>
        if value ≠ ['t', 'r', 'u', 'e'] then
          .error (.lexError (.misspelledBoolean value ['t', 'r', 'u', 'e']))
        else .ok (⟨value, .Boolean⟩, unread, eof)
    else if c = 'f' then
      match readUntil [',', ']', '}'] false (c :: unread) with
      | .error e => .error e
      | .ok (value, unread) =>
        if value ≠ ['f', 'a', 'l', 's', 'e'] then
          .error (.lexError (.misspelledBoolean value ['f', 'a', 'l', 's', 'e']))
        else .ok (⟨value, .Boolean⟩, unread, eof)
    else if c = 'n' then
      match readUntil [',', ']', '}'] false (c :: unread) with
      | .error e => .error e
      | .ok (value, unread) =>
        if value ≠ ['n', 'u', 'l', 'l'] then .error (.lexError (.misspelledNull value))
        else .ok (⟨value, .Null⟩, unread, eof)
    else if c = '{' then .ok (⟨[], .ObjectOpen⟩, unread, eof)
    else if c = '}' then .ok (⟨[], .ObjectClose⟩, unread, eof)
    else if c = '[' then .ok (⟨[], .ListOpen⟩, unread, eof)
    else if c = ']' then .ok (⟨[], .ListClose⟩, unread, eof)
    else if c = ',' then .ok (⟨[], .Comma⟩, unread, eof)
    else if c = ':' then .ok (⟨[], .Colon⟩, unread, eof)
    else if c = EOFchar then .ok (⟨[], .End⟩, unread, eof)
    else .error (.lexError (.unknownStart c))

/-- The loop `while (hasMoreTokens()) tokens.push_back(getToken())` of `tokenize`, entered
with a good stream: it ends when `getToken` has set `eofbit`. `fuel` bounds the number of
iterations. -/
def tokenizeLoop (lib : StdLib) : Nat → List Char → Except Failure (List Token)
  | 0, _ => .error .outOfFuel
  | fuel + 1, file =>
    match getToken lib file with
    | .error e => .error e
    | .ok (token, unread, eof) =>
      if eof then .ok [token]
      else
        match tokenizeLoop lib fuel unread with
        | .error e => .error e
        | .ok tokens => .ok (token :: tokens)

/-- `tokenize()` on a file just opened: `file.seekg(0)` leaves the stream good at the start
of the file. Every iteration but the last reads a character, so one iteration more than the
file has characters is enough. -/
def tokenize (lib : StdLib) (file : List Char) : Except Failure (List Token) :=
  tokenizeLoop lib (file.length + 1) file

end Tokenizer

/-! ## Nodes (`src/JsonParser/headers/node.h`, `src/JsonParser/node.cpp`) -/

/-- The kinds of node (`Node::Type`). -/
inductive NodeType
  | Null | Boolean | Number | String | List | Object | Root
deriving DecidableEq, Repr

/-- The variant `Value`; `ptr` stands for `std::shared_ptr<Node>`. A `List` is a vector of
children, an `Object` a `std::map`: its entries in ascending order of their keys. -/
inductive Value (ptr : Type)
  | bool (b : Bool)
  | int (i : Int)
  | double (d : Double)
  | null
  | string (s : Str)
  | list (children : List ptr)
  | object (members : List (Str × ptr))
deriving DecidableEq

namespace Value

/-- The type that the constructor `Node::Node(Value value)` gives the node. -/
def typeOf {ptr : Type} : Value ptr → NodeType
  | bool _ => .Boolean
  | int _ => .Number
  | double _ => .Number
  | null => .Null
  | string _ => .String
  | list _ => .List
  | object _ => .Object

/-- What `getTypeAsString` returns for a node that holds this value and is not of type
`Root`. -/
def typeName {ptr : Type} : Value ptr → Str
  | bool _ => "Boolean".toList
  | int _ => "Number (int)".toList
  | double _ => "Number (double)".toList
  | null => "Null".toList
  | string _ => "String".toList
  | list _ => "List".toList
  | object _ => "Object".toList

end Value

/-- The call `map.insert({key, child})` on a `std::map`: the entry is put at its place in
the order of the keys, and nothing changes when the key is already there. -/
def mapInsert {ptr : Type} (key : Str) (child : ptr) : List (Str × ptr) → List (Str × ptr)
  | [] => [(key, child)]
  | (k, p) :: members =>
    if key < k then (key, child) :: (k, p) :: members
    else if key = k then (k, p) :: members
    else (k, p) :: mapInsert key child members

/-- A `std::shared_ptr<Node>` that is not null: the index of the node in the store. -/
abbrev Ptr := Nat

/-- A node of the store, as one of the two constructors of `Node` makes it; `name` is never
assigned and left out. The children of a container are pointers. -/
inductive Cell
  /-- `Node()`: the type is `Root`, the variant holds its first alternative, `false`. -/
  | root
  /-- `Node(Value value)`: the type follows from the alternative that `value` holds. -/
  | of (value : Value Ptr)
deriving DecidableEq

namespace Cell

/-- The member `type`. -/
def type : Cell → NodeType
  | root => .Root
  | of value => value.typeOf

/-- The member `value`. -/
def value : Cell → Value Ptr
  | root => .bool false
  | of value => value

/-- `Node::getTypeAsString()`. -/
def getTypeAsString : Cell → Str
  | root => "Root".toList
  | of value => value.typeName

/-- `Node::addChild(std::pair<std::string, std::shared_ptr<Node>> child)`. -/
def addChildPair (self : Cell) (key : Str) (child : Ptr) : Except Failure Cell :=
  match self with
  | of (.object members) => .ok (of (.object (mapInsert key child members)))
  | _ => .error (.nodeError (.mapInsertOn self.getTypeAsString))

/-- `Node::addChild(std::shared_ptr<Node> child)`. -/
def addChild (self : Cell) (child : Ptr) : Except Failure Cell :=
  match self with
  | of (.list children) => .ok (of (.list (children ++ [child])))
  | _ => .error (.nodeError (.listInsertOn self.getTypeAsString))

end Cell

/-- A node with its descendants: what a `std::shared_ptr<Node>` gives access to. -/
inductive Node
  /-- A node made by `Node()`. -/
  | root
  /-- A node made by `Node(Value value)`. -/
  | of (value : Value Node)

/-- The store of the nodes that a call of `parse` has made, in the order of their making. -/
abbrev Heap := List Cell

/-- The node at `p` with its descendants; `fuel` bounds the depth. A child is made after its
parent, so a bound as large as the store reaches every descendant (`result_fuel`). -/
def Heap.readback (heap : Heap) : Nat → Ptr → Node
  | 0, _ => .root
  | fuel + 1, p =>
    match heap[p]? with
    | none => .root
    | some .root => .root
    | some (.of (.bool b)) => .of (.bool b)
    | some (.of (.int i)) => .of (.int i)
    | some (.of (.double d)) => .of (.double d)
    | some (.of .null) => .of .null
    | some (.of (.string s)) => .of (.string s)
    | some (.of (.list children)) => .of (.list (children.map (Heap.readback heap fuel)))
    | some (.of (.object members)) =>
      .of (.object (members.map (fun kp => (kp.1, Heap.readback heap fuel kp.2))))

namespace Node

/-- The member `type`. -/
def type : Node → NodeType
  | root => .Root
  | of value => value.typeOf

/-- The member `value`. -/
def value : Node → Value Node
  | root => .bool false
  | of value => value

/-- The string `tabs` of `toString`: `indentation` times two spaces. -/
def tabs : Nat → Str
  | 0 => []
  | indentation + 1 => tabs indentation ++ [' ', ' ']

mutual

/-- `Node::toString(indentation)`. A node of type `Root` meets no case of the `switch`. -/
def toString (lib : StdLib) : Node → Nat → Str
  | root, _ => []
  | of (.string s), _ => ['"'] ++ s ++ ['"']
  | of (.double d), _ => lib.to_string d
  | of (.int i), _ => intToString i
  | of (.bool b), _ => if b then "true".toList else "false".toList
  | of .null, _ => "null".toList
  | of (.list children), indentation =>
    ['[', '\n'] ++ listToString lib children indentation ++ ['\n'] ++ tabs indentation ++ [']']
  | of (.object members), indentation =>
    ['{', '\n'] ++ objectToString lib members indentation ++ tabs indentation ++ ['}']

/-- The loop of `toString` over the children of a `List`, from the child at hand on: after
every child but the last comes `",\n"`. -/
def listToString (lib : StdLib) : List Node → Nat → Str
  | [], _ => []
  | node :: rest, indentation =>
    tabs indentation ++ [' ', ' '] ++ toString lib node (indentation + 1) ++
      (if rest.isEmpty then [] else [',', '\n']) ++ listToString lib rest indentation

/-- The loop of `toString` over the entries of an `Object`, from the entry at hand on: after
every entry but the last comes `","`, after every entry a new line. -/
def objectToString (lib : StdLib) : List (Str × Node) → Nat → Str
  | [], _ => []
  | (key, node) :: rest, indentation =>
    tabs indentation ++ [' ', ' '] ++ ['"'] ++ key ++ ['"', ':', ' '] ++
      toString lib node (indentation + 1) ++
      (if rest.isEmpty then [] else [',']) ++ ['\n'] ++ objectToString lib rest indentation

end

/-- `Node::getTypeAsString()`. -/
def getTypeAsString : Node → Str
  | root => "Root".toList
  | of value => value.typeName

/-- `Node::operator[](const unsigned int index)`: what the call returns or throws, and the
node as the call leaves it (the method is not `const`). -/
def operatorIndex (self : Node) (index : Nat) : Except Failure Node × Node :=
  match self.value with
  | .list list =>
    if h : index < list.length then (.ok list[index], self)
    else (.error (.nodeError (.indexOutOfRange index list.length)), self)
  | _ => (.error (.nodeError (.vectorIndexingOn self.getTypeAsString)), self)

/-- `Node::at(unsigned index)`. -/
def atIndex (self : Node) (index : Nat) : Except Failure Node × Node :=
  self.operatorIndex index

/-- `Node::operator[](const char* key)`, `key` being the characters of the C string:
`map.find` looks for the `std::string` made of them. What the call returns or throws, and
the node as the call leaves it (the method is not `const`). -/
def operatorKey (self : Node) (key : Str) : Except Failure Node × Node :=
  match self.value with
  | .object map =>
    match map.lookup key with
    | some child => (.ok child, self)
    | none => (.error (.nodeError (.keyDoesNotExist key)), self)
  | _ => (.error (.nodeError (.mapIndexingOn self.getTypeAsString)), self)

/-- The characters of the C string `s.c_str()`: those before the first null character. -/
def c_str (s : Str) : Str :=
  s.takeWhile (fun c => c ≠ Char.ofNat 0)

/-- `Node::at(std::string key)`, which passes `key.c_str()` on. -/
def atKey (self : Node) (key : Str) : Except Failure Node × Node :=
  self.operatorKey (c_str key)

/-- `Node::operator bool()`. -/
def operatorBool (self : Node) : Except Failure Bool :=
  match self.value with
  | .bool b => .ok b
  | _ => .error (.nodeError (.cannotConvert self.getTypeAsString "bool".toList))

/-- `Node::operator int()`; the conversion `(int)` of a `double` is undefined when the
truncated value is not a value of `int`. -/
def operatorInt (self : Node) : Except Failure Int :=
  match self.value with
  | .int i => .ok i
  | .double d =>
    match d.toInt with
    | some i => .ok i
    | none => .error .undefinedBehaviour
  | _ => .error (.nodeError (.cannotConvert self.getTypeAsString "int".toList))

/-- `Node::operator double()`; every `int` is a `double`. -/
def operatorDouble (self : Node) : Except Failure Double :=
  match self.value with
  | .double d => .ok d
  | .int i => .ok (.finite i)
  | _ => .error (.nodeError (.cannotConvert self.getTypeAsString "double".toList))

/-- `Node::operator std::string()`. -/
def operatorString (self : Node) : Except Failure Str :=
  match self.value with
  | .string s => .ok s
  | _ => .error (.nodeError (.cannotConvert self.getTypeAsString "std::string".toList))

end Node

/-! ## Parser (`src/JsonParser/headers/parser.h`, `src/JsonParser/parser.cpp`) -/

/-- The members of a `Parser`. -/
structure Parser where
  hierarchy : List Ptr
  lastState : State
  state : State
  lastKey : Str
deriving DecidableEq

/-- A call of `Parser::parse` under way: the members of the parser, the store of the nodes
made so far and the local variable `root`. -/
structure Machine extends Parser where
  heap : Heap
  root : Ptr
deriving DecidableEq

namespace Parser

/-- The constructor `Parser()`. -/
def new : Parser := ⟨[], .Undefined, .Undefined, []⟩

/-- `std::make_shared<Node>(...)`: the node is put in the store, the pointer to it is
returned. -/
def makeShared (m : Machine) (node : Cell) : Machine × Ptr :=
  ({ m with heap := m.heap ++ [node] }, m.heap.length)

/-- `checkPreviousState(allowedStates)`. -/
def checkPreviousState (m : Machine) (allowedStates : List State) : Bool :=
  decide (m.lastState ∈ allowedStates)

/-- `getParentNode()`; `none` is the null pointer. -/
def getParentNode (m : Machine) : Option Ptr :=
  m.hierarchy.getLast?

/-- `currentlyInAList()`. -/
def currentlyInAList (m : Machine) : Bool :=
  match m.hierarchy.getLast? with
  | none => false
  | some p =>
    match m.heap[p]? with
    | none => false
    | some node => decide (node.type = .List)

/-- `currentlyInAnObject()`. -/
def currentlyInAnObject (m : Machine) : Bool :=
  match m.hierarchy.getLast? with
  | none => false
  | some p =>
    match m.heap[p]? with
    | none => false
    | some node => decide (node.type = .Object)

/-- `p->getTypeAsString()`. -/
def typeAsString (m : Machine) (p : Ptr) : Str :=
  match m.heap[p]? with
  | none => []
  | some node => node.getTypeAsString

/-- What `getFullStateAsString()` prints. It calls `getParentNode()->getTypeAsString()`,
which dereferences a null pointer when `hierarchy` is empty (`none`). -/
def getFullStateAsString (m : Machine) : Option SyntaxError :=
  match getParentNode m with
  | none => none
  | some _ => some (.illegalState m.lastState m.state (m.hierarchy.map (typeAsString m)))

/-- `requirePreviousState(allowedStates)`. -/
def requirePreviousState (m : Machine) (allowedStates : List State) : Except Failure Unit :=
  if checkPreviousState m allowedStates then .ok ()
  else
    match getFullStateAsString m with
    | none => .error .undefinedBehaviour
    | some e => .error (.syntaxError e)

/-- `addChildNode(node)`. In the last branch the message is built from
`getParentNode()->getTypeAsString()`, a null pointer dereferenced when `hierarchy` is
empty. -/
def addChildNode (m : Machine) (node : Ptr) : Except Failure Machine :=
  if currentlyInAList m then
    match getParentNode m with
    | none => .error .undefinedBehaviour
    | some p =>
      match m.heap[p]? with
      | none => .error .undefinedBehaviour
      | some parent =>
        match parent.addChild node with
        | .error e => .error e
        | .ok parent => .ok { m with heap := m.heap.set p parent }
  else if currentlyInAnObject m then
    match getParentNode m with
    | none => .error .undefinedBehaviour
    | some p =>
      match m.heap[p]? with
      | none => .error .undefinedBehaviour
      | some parent =>
        match parent.addChildPair m.lastKey node with
        | .error e => .error e
        | .ok parent => .ok { m with heap := m.heap.set p parent }
  else
    match getParentNode m with
    | none => .error .undefinedBehaviour
    | some p => .error (.syntaxError (.illegalNodeType (typeAsString m p)))

/-- `hierarchy.pop_back()`, undefined on an empty vector. -/
def popBack (m : Machine) : Except Failure Machine :=
  if m.hierarchy = [] then .error .undefinedBehaviour
  else .ok { m with hierarchy := m.hierarchy.dropLast }

/-- `addChildNode(std::make_shared<Node>(value))`. -/
def addChildValue (m : Machine) (value : Value Ptr) : Except Failure Machine :=
  addChildNode (makeShared m (.of value)).1 (makeShared m (.of value)).2

/-- The cases `ObjectOpen` and `ListOpen` of the `switch` after the state check: `value` is
`Object()` or `List()`. -/
def openContainer (m : Machine) (value : Value Ptr) : Except Failure Machine :=
  if m.lastState = .Start then
    .ok { (makeShared m (.of value)).1 with
      root := (makeShared m (.of value)).2
      hierarchy := m.hierarchy ++ [(makeShared m (.of value)).2] }
  else
    match addChildNode (makeShared m (.of value)).1 (makeShared m (.of value)).2 with
    | .error e => .error e
    | .ok m' => .ok { m' with hierarchy := m'.hierarchy ++ [(makeShared m (.of value)).2] }

/-- The body of the loop `for (Token token : tokens)` of `parse`, `lastState = state`
already done and `state` assigned as the case of the `switch` does first. -/
def switchCase (lib : StdLib) (m : Machine) (token : Token) : Except Failure Machine :=
  match token.type with
  | .ObjectOpen =>
    match requirePreviousState { m with state := .ObjectOpen } [.Start, .Colon] with
    | .error e => .error e
    | .ok _ => openContainer { m with state := .ObjectOpen } (.object [])
  | .ObjectClose =>
    match requirePreviousState { m with state := .ObjectClose }
        [.Value, .ObjectOpen, .ObjectClose, .ListClose] with
    | .error e => .error e
    | .ok _ =>
      if currentlyInAList m then .error (.syntaxError .objectInsteadOfList)
      else popBack { m with state := .ObjectClose }
  | .ListOpen =>
    match requirePreviousState { m with state := .ListOpen } [.Start, .Colon] with
    | .error e => .error e
    | .ok _ => openContainer { m with state := .ListOpen } (.list [])
  | .ListClose =>
    match requirePreviousState { m with state := .ListClose }
        [.Value, .ListOpen, .ListClose, .ObjectClose] with
    | .error e => .error e
    | .ok _ =>
      if currentlyInAnObject m then .error (.syntaxError .listInsteadOfObject)
      else popBack { m with state := .ListClose }
  | .Comma =>
    match requirePreviousState { m with state := .Comma }
        [.Value, .ListClose, .ObjectClose] with
    | .error e => .error e
    | .ok _ => .ok { m with state := .Comma }
  | .Colon =>
    match requirePreviousState { m with state := .Colon } [.Key] with
    | .error e => .error e
    | .ok _ => .ok { m with state := .Colon }
  | .Boolean =>
    match requirePreviousState { m with state := .Value } [.Colon, .Comma, .ListOpen] with
    | .error e => .error e
    | .ok _ =>
      if token.value = "true".toList then addChildValue { m with state := .Value } (.bool true)
      else addChildValue { m with state := .Value } (.bool false)
  | .Number =>
    match requirePreviousState { m with state := .Value } [.Colon, .Comma, .ListOpen] with
    | .error e => .error e
    | .ok _ =>
      match lib.stod token.value with
      | none => .error .stdException
      | some number =>
        if number.modfIsZero then
          match number.toInt with
          | none => .error .undefinedBehaviour
          | some i => addChildValue { m with state := .Value } (.int i)
        else addChildValue { m with state := .Value } (.double number)
  | .String =>
    if checkPreviousState m [.ObjectOpen, .Comma] && currentlyInAnObject m then
      match requirePreviousState { m with state := .Key, lastKey := token.value }
          [.ObjectOpen, .ListOpen, .Colon, .Comma] with
      | .error e => .error e
      | .ok _ => .ok { m with state := .Key, lastKey := token.value }
    else if (checkPreviousState m [.ListOpen, .Comma] && currentlyInAList m)
        || (checkPreviousState m [.Colon] && currentlyInAnObject m) then
      match addChildValue { m with state := .Value } (.string token.value) with
      | .error e => .error e
      | .ok m' =>
        match requirePreviousState m' [.ObjectOpen, .ListOpen, .Colon, .Comma] with
        | .error e => .error e
        | .ok _ => .ok m'
    else .error (.syntaxError .wrongOrderOfTokens)
  | .Null =>
    match requirePreviousState { m with state := .Value } [.Colon, .Comma, .ListOpen] with
    | .error e => .error e
    | .ok _ => addChildValue { m with state := .Value } .null
  | .End =>
    match requirePreviousState { m with state := .End } [.Start, .ListClose, .ObjectClose] with
    | .error e => .error e
    | .ok _ => .ok { m with state := .End }

/-- One iteration of the loop `for (Token token : tokens)` of `parse`: `lastState = state`,
then the `switch`. -/
def step (lib : StdLib) (m : Machine) (token : Token) : Except Failure Machine :=
  switchCase lib { m with lastState := m.state } token

/-- The loop `for (Token token : tokens)` of `parse`. -/
def parseTokens (lib : StdLib) (m : Machine) : List Token → Except Failure Machine
  | [] => .ok m
  | token :: tokens =>
    match step lib m token with
    | .error e => .error e
    | .ok m' => parseTokens lib m' tokens

/-- The parser at the start of the loop of `parse`: `hierarchy` holds one node made by
`Node()`, `root` points to another one; `lastKey` is what earlier calls left. -/
def start (self : Parser) : Machine :=
  { hierarchy := [0]
    lastState := .Undefined
    state := .Start
    lastKey := self.lastKey
    heap := [.root, .root]
    root := 1 }

/-- What `parse` returns once the loop is done: the node `root` points to. -/
def result (m : Machine) : Node :=
  m.heap.readback m.heap.length m.root

/-- `parse(jsonPath)` where `file` is what the file at `jsonPath` holds. -/
def parse (self : Parser) (lib : StdLib) (file : List Char) : Except Failure Node :=
  match Tokenizer.tokenize lib file with
  | .error e => .error e
  | .ok tokens =>
    match parseTokens lib (start self) tokens with
    | .error e => .error e
    | .ok m => .ok (result m)

end Parser

/-! ## An instance of the library functions

`refLib` stands for the C++ library where the program is evaluated on a concrete file. It
reads decimal literals and gives their exact value, which is what `std::stod` returns when
that value is a `double` (as for `1`, `1.5` or `3000000000`); it does not round, and it does
not know the hexadecimal, infinity and NaN forms. -/

namespace RefLib

/-- The decimal digits at the start of `s` read on from the number `acc`: the number, how
many digits were read, and the rest of `s`. -/
def digits : List Char → Nat → Nat → Nat × Nat × List Char
  | [], acc, n => (acc, n, [])
  | c :: s, acc, n =>
    if '0' ≤ c ∧ c ≤ '9' then digits s (10 * acc + (c.toNat - 48)) (n + 1)
    else (acc, n, c :: s)

/-- The exponent that `s` starts with (`e` or `E`, a sign if any, digits), or zero. -/
def exponent (s : List Char) : Int :=
  match s with
  | [] => 0
  | c :: t =>
    if c = 'e' ∨ c = 'E' then
      match t with
      | '-' :: u => if (digits u 0 0).2.1 = 0 then 0 else -((digits u 0 0).1 : Int)
      | '+' :: u => if (digits u 0 0).2.1 = 0 then 0 else ((digits u 0 0).1 : Int)
      | u => ((digits u 0 0).1 : Int)
    else 0

/-- The value `mantissa * 10 ^ e`. -/
def scale (mantissa : Int) (e : Int) : ℚ :=
  if 0 ≤ e then mkRat (mantissa * 10 ^ e.toNat) 1 else mkRat mantissa (10 ^ (-e).toNat)

/-- The number read once the white space and the sign are past. -/
def unsigned (negative : Bool) (s : List Char) : Option Double :=
  match digits s 0 0 with
  | (whole, n1, rest) =>
    match (match rest with
      | '.' :: t => digits t whole 0
      | _ => (whole, 0, rest)) with
    | (mantissa, n2, rest) =>
      if n1 + n2 = 0 then none
      else
        some (.finite (scale (if negative then -(mantissa : Int) else (mantissa : Int))
          (exponent rest - (n2 : Int))))

/-- The call `std::stod(s)` on a decimal literal: white space, a sign if any, digits with a
point if any, an exponent if any; what follows is not looked at. -/
def stod : Str → Option Double
  | [] => none
  | c :: s =>
    if c = ' ' ∨ c = '\t' ∨ c = '\n' ∨ c = '\x0b' ∨ c = '\x0c' ∨ c = '\r' then stod s
    else if c = '-' then unsigned true s
    else if c = '+' then unsigned false s
    else unsigned false (c :: s)

/-- The digits of `n`, with zeros in front up to `width` digits. -/
def padded (width n : Nat) : Str :=
  List.replicate (width - (Nat.toDigits 10 n).length) '0' ++ Nat.toDigits 10 n

/-- The quotient `a / b` rounded to the nearest number, to the even one on a tie. -/
def roundHalfEven (a b : Nat) : Nat :=
  if 2 * (a % b) > b ∨ (2 * (a % b) = b ∧ (a / b) % 2 = 1) then a / b + 1 else a / b

/-- The call `std::to_string(d)`, which prints as `%f` does: six digits after the point. -/
def to_string : Double → Str
  | .finite q =>
    (if q.num < 0 then ['-'] else []) ++
      Nat.toDigits 10 (roundHalfEven (q.num.natAbs * 1000000) q.den / 1000000) ++ ['.'] ++
      padded 6 (roundHalfEven (q.num.natAbs * 1000000) q.den % 1000000)
  | .infinite negative => if negative then "-inf".toList else "inf".toList
  | .nan => "nan".toList

end RefLib

/-- The library functions used to evaluate the program on concrete files. -/
def refLib : StdLib := ⟨RefLib.stod, RefLib.to_string⟩

/-! ## Definitions used to state the theorems -/

/-- The library `lib` with `std::stod` fixed on `s`. -/
def StdLib.fix (lib : StdLib) (s : Str) (d : Double) : StdLib :=
  ⟨fun t => if t = s then some d else lib.stod t, lib.to_string⟩

namespace Node

/-- The node is a Boolean, a Number, a Null or a String. -/
def isScalar : Node → Bool
  | of (.bool _) => true
  | of (.int _) => true
  | of (.double _) => true
  | of .null => true
  | of (.string _) => true
  | _ => false

mutual

/-- The children of every List of the tree are Booleans, Numbers, Nulls and Strings. -/
def listsHoldScalars : Node → Bool
  | root => true
  | of (.list children) => children.all isScalar
  | of (.object members) => membersHoldScalars members
  | of _ => true

/-- The same for the nodes that the entries of a map point to. -/
def membersHoldScalars : List (Str × Node) → Bool
  | [] => true
  | (_, node) :: rest => listsHoldScalars node && membersHoldScalars rest

end

end Node

/-- The children of every List of the store are nodes made with a value that is no
container. -/
def Heap.ListsHoldScalars (heap : Heap) : Prop :=
  ∀ (p : Nat) (children : List Ptr), heap[p]? = some (.of (.list children)) →
    ∀ c ∈ children, ∃ v, heap[c]? = some (.of v) ∧
      (∀ grandchildren, v ≠ .list grandchildren) ∧ (∀ members, v ≠ .object members)

/-- A container of the store holds the pointer `q`: as a child of a List, or in an entry of
the map of an Object. -/
def Heap.Refers (heap : Heap) (q : Ptr) : Prop :=
  ∃ p : Nat, (∃ children, heap[p]? = some (.of (.list children)) ∧ q ∈ children) ∨
    (∃ members, heap[p]? = some (.of (.object members)) ∧ q ∈ members.map Prod.snd)

namespace Tokenizer

/-- The loop of `tokenize`, entered with `file` left to read, has pushed `tokens` and is
about to call `getToken` with `unread` left to read. -/
inductive Reads (lib : StdLib) : List Char → List Token → List Char → Prop
  | start (file : List Char) : Reads lib file [] file
  | next {file unread rest : List Char} {token : Token} {tokens : List Token} :
    getToken lib file = .ok (token, unread, false) → Reads lib unread tokens rest →
    Reads lib file (token :: tokens) rest

end Tokenizer

namespace Parser

/-- The states that the case of the `switch` for a token of this type passes to
`requirePreviousState`. -/
def allowedStates : TokenType → List State
  | .ObjectOpen => [.Start, .Colon]
  | .ObjectClose => [.Value, .ObjectOpen, .ObjectClose, .ListClose]
  | .ListOpen => [.Start, .Colon]
  | .ListClose => [.Value, .ListOpen, .ListClose, .ObjectClose]
  | .Comma => [.Value, .ListClose, .ObjectClose]
  | .Colon => [.Key]
  | .Boolean => [.Colon, .Comma, .ListOpen]
  | .Number => [.Colon, .Comma, .ListOpen]
  | .String => [.ObjectOpen, .ListOpen, .Colon, .Comma]
  | .Null => [.Colon, .Comma, .ListOpen]
  | .End => [.Start, .ListClose, .ObjectClose]

/-- The state that the case of the `switch` for a token of this type assigns to `state`; the
case for a String token assigns `Key` or `Value`. -/
def StateAfter : TokenType → State → Prop
  | .ObjectOpen, s => s = .ObjectOpen
  | .ObjectClose, s => s = .ObjectClose
  | .ListOpen, s => s = .ListOpen
  | .ListClose, s => s = .ListClose
  | .Comma, s => s = .Comma
  | .Colon, s => s = .Colon
  | .Boolean, s => s = .Value
  | .Number, s => s = .Value
  | .String, s => s = .Key ∨ s = .Value
  | .Null, s => s = .Value
  | .End, s => s = .End

/-- The bottom of `hierarchy` is the node made by `Node()` at the start of `parse`, unless
`hierarchy` is empty, and nothing has been pushed while the state is `Start`. -/
def Sentinel (m : Machine) : Prop :=
  m.heap[0]? = some .root ∧ (m.hierarchy = [] ∨ m.hierarchy.head? = some 0) ∧
    (m.state = .Start → m.hierarchy = [0])

end Parser

/-- The pointers that a container of the store holds point to nodes made after it. -/
def Heap.Ordered (heap : Heap) : Prop :=
  ∀ p : Nat,
    (∀ children, heap[p]? = some (.of (.list children)) → ∀ c ∈ children, p < c) ∧
    (∀ members, heap[p]? = some (.of (.object members)) → ∀ kc ∈ members, p < kc.2)

namespace Parser

/-- The store is ordered and the pointers of `hierarchy` point into it. -/
def Valid (m : Machine) : Prop :=
  m.heap.Ordered ∧ ∀ p : Nat, p ∈ m.hierarchy → p < m.heap.length

/-- Where the state is `Key` or `Colon` the innermost node is an Object. -/
def KeyInObject (m : Machine) : Prop :=
  m.state = .Key ∨ m.state = .Colon → currentlyInAnObject m = true

/-- No String token has been read as a key yet: the state is neither `Key` nor `Colon`, and
no node of `hierarchy` is an Object, but for its top while the state is `ObjectOpen`. -/
def KeyUnread (m : Machine) : Prop :=
  m.state ≠ .Key ∧ m.state ≠ .Colon ∧
    (∀ p ∈ m.hierarchy.dropLast, ∀ members, m.heap[p]? ≠ some (.of (.object members))) ∧
    (m.state ≠ .ObjectOpen →
      ∀ p ∈ m.hierarchy, ∀ members, m.heap[p]? ≠ some (.of (.object members)))

end Parser

/-! ## The tokenizer: what a call of `getToken` reads, and how the loop ends -/

namespace Tokenizer

theorem getNext_spec (file : List Char) :
    (getNextNonWhiteSpaceCharacter file).2.1 <:+ file ∧
    ((getNextNonWhiteSpaceCharacter file).2.2 = true →
      (getNextNonWhiteSpaceCharacter file).1 = EOFchar ∧
      (getNextNonWhiteSpaceCharacter file).2.1 = []) ∧
    ((getNextNonWhiteSpaceCharacter file).2.2 = false →
      ((getNextNonWhiteSpaceCharacter file).1 :: (getNextNonWhiteSpaceCharacter file).2.1)
        <:+ file) := by
  induction file with
  | nil => simp [getNextNonWhiteSpaceCharacter]
  | cons c file ih =>
    unfold getNextNonWhiteSpaceCharacter
    split_ifs with hc
    · obtain ⟨h1, h2, h3⟩ := ih
      exact ⟨h1.trans (List.suffix_cons c file), h2,
        fun h => (h3 h).trans (List.suffix_cons c file)⟩
    · simp [List.suffix_cons]

theorem readUntil_cons_of_mem (characters : Str) (inclusive : Bool) (c : Char)
    (file : List Char) (hc : c ∈ characters) :
    readUntil characters inclusive (c :: file) =
      .ok ([], if inclusive then file else c :: file) := by
  simp [readUntil, hc]

theorem readUntil_cons_of_not_mem (characters : Str) (inclusive : Bool) (c : Char)
    (file : List Char) (hc : c ∉ characters) :
    readUntil characters inclusive (c :: file) =
      match readUntil characters inclusive file with
      | .error e => .error e
      | .ok (result, unread) => .ok (c :: result, unread) := by
  simp [readUntil, hc]

theorem readUntil_suffix (characters : Str) (inclusive : Bool) (file : List Char)
    (value : Str) (unread : List Char)
    (h : readUntil characters inclusive file = .ok (value, unread)) :
    unread <:+ file ∧ (∀ c f, file = c :: f → c ∉ characters → unread <:+ f) ∧
    (inclusive = true → unread.length < file.length) := by
  induction file generalizing value unread with
  | nil => simp [readUntil] at h
  | cons c file ih =>
    by_cases hc : c ∈ characters
    · rw [readUntil_cons_of_mem _ _ _ _ hc] at h
      simp only [Except.ok.injEq, Prod.mk.injEq] at h
      obtain ⟨-, rfl⟩ := h
      refine ⟨?_, ?_, ?_⟩
      · cases inclusive <;> simp [List.suffix_cons]
      · intro c' f hf hc'
        simp only [List.cons.injEq] at hf
        obtain ⟨rfl, rfl⟩ := hf
        exact absurd hc hc'
      · intro hi
        simp [hi]
    · rw [readUntil_cons_of_not_mem _ _ _ _ hc] at h
      cases hr : readUntil characters inclusive file with
      | error e => simp [hr] at h
      | ok r =>
        obtain ⟨v, u⟩ := r
        simp only [hr, Except.ok.injEq, Prod.mk.injEq] at h
        obtain ⟨-, rfl⟩ := h
        obtain ⟨h1, -, h3⟩ := ih v u hr
        refine ⟨h1.trans (List.suffix_cons c file), ?_, ?_⟩
        · intro c' f hf _
          simp only [List.cons.injEq] at hf
          obtain ⟨rfl, rfl⟩ := hf
          exact h1
        · intro hi
          have := h3 hi
          simp only [List.length_cons]
          omega

theorem readUntil_error (characters : Str) (inclusive : Bool) (file : List Char) (e : Failure)
    (h : readUntil characters inclusive file = .error e) :
    e = .lexError .noClosingCharacter := by
  induction file with
  | nil =>
    simp only [readUntil, Except.error.injEq] at h
    exact h.symm
  | cons c file ih =>
    by_cases hc : c ∈ characters
    · rw [readUntil_cons_of_mem _ _ _ _ hc] at h
      cases h
    · rw [readUntil_cons_of_not_mem _ _ _ _ hc] at h
      cases hr : readUntil characters inclusive file with
      | error e' =>
        simp only [hr, Except.error.injEq] at h
        subst h
        exact ih hr
      | ok r => simp [hr] at h

theorem not_mem_delimiters_of_start (c : Char)
    (hc : (('0' ≤ c ∧ c ≤ '9') ∨ c = '-' ∨ c = '.') ∨ c = 't' ∨ c = 'f' ∨ c = 'n') :
    c ∉ [',', ']', '}'] := by
  intro hm
  simp only [List.mem_cons, List.mem_singleton, List.not_mem_nil, or_false] at hm
  rcases hm with rfl | rfl | rfl <;> revert hc <;> decide

theorem getToken_eof (lib : StdLib) (file : List Char)
    (h : (getNextNonWhiteSpaceCharacter file).2.2 = true) :
    getToken lib file = .ok (⟨[], .End⟩, [], true) := by
  obtain ⟨-, h2, -⟩ := getNext_spec file
  obtain ⟨hc, hu⟩ := h2 h
  unfold getToken
  rcases hg : getNextNonWhiteSpaceCharacter file with ⟨c, u0, e0⟩
  rw [hg] at hc hu h
  simp only at hc hu h
  subst hc hu h
  rfl

theorem getToken_spec (lib : StdLib) (file : List Char) (tok : Token) (unread : List Char)
    (eof : Bool) (h : getToken lib file = .ok (tok, unread, eof)) :
    unread <:+ file ∧
    (eof = true → tok = ⟨[], .End⟩ ∧ unread = []) ∧
    (eof = false → unread.length < file.length ∧ (tok.type = .End → EOFchar ∈ file)) := by
  by_cases he : (getNextNonWhiteSpaceCharacter file).2.2 = true
  · rw [getToken_eof lib file he] at h
    simp only [Except.ok.injEq, Prod.mk.injEq] at h
    obtain ⟨rfl, rfl, rfl⟩ := h
    simp
  · obtain ⟨-, -, h3⟩ := getNext_spec file
    have hs := h3 (by simpa using he)
    unfold getToken at h
    rcases hg : getNextNonWhiteSpaceCharacter file with ⟨c, u0, e0⟩
    rw [hg] at hs he h
    simp only [Bool.not_eq_true] at hs he
    subst he
    dsimp only at h
    have hlen : u0.length < file.length := by
      have := hs.length_le
      simp only [List.length_cons] at this
      omega
    have hu0 : u0 <:+ file := (List.suffix_cons c u0).trans hs
    have hmem : c ∈ file := hs.subset (List.mem_cons_self c u0)
    have key : ∀ value u, readUntil [',', ']', '}'] false (c :: u0) = .ok (value, u) →
        c ∉ [',', ']', '}'] → u <:+ file ∧ u.length < file.length := by
      intro value u hr hc
      obtain ⟨-, h2, -⟩ := readUntil_suffix _ _ _ _ _ hr
      have := h2 c u0 rfl hc
      exact ⟨this.trans hu0, lt_of_le_of_lt this.length_le hlen⟩
    have punct : ∀ type : TokenType, type ≠ .End →
        (Except.ok (⟨[], type⟩, u0, false) : Except Failure (Token × List Char × Bool)) =
          .ok (tok, unread, eof) →
        unread <:+ file ∧ (eof = true → tok = ⟨[], .End⟩ ∧ unread = []) ∧
        (eof = false → unread.length < file.length ∧ (tok.type = .End → EOFchar ∈ file)) := by
      intro type hty h
      simp only [Except.ok.injEq, Prod.mk.injEq] at h
      obtain ⟨rfl, rfl, rfl⟩ := h
      simp [hu0, hlen, hty]
    have keyword : ∀ type : TokenType, type ≠ .End → ∀ (expected : Str) (err : Str → Failure),
        c ∉ [',', ']', '}'] →
        (match readUntil [',', ']', '}'] false (c :: u0) with
          | Except.error e => Except.error e
          | Except.ok (value, unread) =>
            if value ≠ expected then Except.error (err value)
            else (Except.ok (⟨value, type⟩, unread, false) :
              Except Failure (Token × List Char × Bool))) = Except.ok (tok, unread, eof) →
        unread <:+ file ∧ (eof = true → tok = ⟨[], .End⟩ ∧ unread = []) ∧
        (eof = false → unread.length < file.length ∧ (tok.type = .End → EOFchar ∈ file)) := by
      intro type hty expected err hc h
      rcases hr : readUntil [',', ']', '}'] false (c :: u0) with e | ⟨value, u⟩
      · rw [hr] at h
        cases h
      · rw [hr] at h
        dsimp only at h
        by_cases hv : value ≠ expected
        · rw [if_pos hv] at h
          cases h
        · rw [if_neg hv] at h
          simp only [Except.ok.injEq, Prod.mk.injEq] at h
          obtain ⟨rfl, rfl, rfl⟩ := h
          have := key value u hr hc
          simp [this.1, this.2, hty]
    by_cases h1 : ('0' ≤ c ∧ c ≤ '9') ∨ c = '-' ∨ c = '.'
    · rw [if_pos h1] at h
      rcases hr : readUntil [',', ']', '}'] false (c :: u0) with e | ⟨value, u⟩
      · rw [hr] at h
        cases h
      · rw [hr] at h
        dsimp only at h
        rcases hst : lib.stod value with _ | d
        · rw [hst] at h
          cases h
        · rw [hst] at h
          simp only [Except.ok.injEq, Prod.mk.injEq] at h
          obtain ⟨rfl, rfl, rfl⟩ := h
          have := key value u hr (not_mem_delimiters_of_start c (Or.inl h1))
          simp [this.1, this.2]
    rw [if_neg h1] at h
    by_cases h2 : c = '"'
    · rw [if_pos h2] at h
      rcases hr : readUntil ['"'] true u0 with e | ⟨value, u⟩
      · rw [hr] at h
        cases h
      · rw [hr] at h
        simp only [Except.ok.injEq, Prod.mk.injEq] at h
        obtain ⟨rfl, rfl, rfl⟩ := h
        obtain ⟨h1', -, -⟩ := readUntil_suffix _ _ _ _ _ hr
        have hl := lt_of_le_of_lt h1'.length_le hlen
        simp [h1'.trans hu0, hl]
    rw [if_neg h2] at h
    by_cases h3 : c = 't'
    · rw [if_pos h3] at h
      exact keyword _ (by simp) _ _ (not_mem_delimiters_of_start c (Or.inr (Or.inl h3))) h
    rw [if_neg h3] at h
    by_cases h4 : c = 'f'
    · rw [if_pos h4] at h
      exact keyword _ (by simp) _ _ (not_mem_delimiters_of_start c (Or.inr (Or.inr (Or.inl h4)))) h
    rw [if_neg h4] at h
    by_cases h5 : c = 'n'
    · rw [if_pos h5] at h
      exact keyword _ (by simp) _ (fun v => .lexError (.misspelledNull v))
        (not_mem_delimiters_of_start c (Or.inr (Or.inr (Or.inr h5)))) h
    rw [if_neg h5] at h
    by_cases h6 : c = '{'
    · rw [if_pos h6] at h
      exact punct _ (by simp) h
    rw [if_neg h6] at h
    by_cases h7 : c = '}'
    · rw [if_pos h7] at h
      exact punct _ (by simp) h
    rw [if_neg h7] at h
    by_cases h8 : c = '['
    · rw [if_pos h8] at h
      exact punct _ (by simp) h
    rw [if_neg h8] at h
    by_cases h9 : c = ']'
    · rw [if_pos h9] at h
      exact punct _ (by simp) h
    rw [if_neg h9] at h
    by_cases h10 : c = ','
    · rw [if_pos h10] at h
      exact punct _ (by simp) h
    rw [if_neg h10] at h
    by_cases h11 : c = ':'
    · rw [if_pos h11] at h
      exact punct _ (by simp) h
    rw [if_neg h11] at h
    by_cases h12 : c = EOFchar
    · rw [if_pos h12] at h
      simp only [Except.ok.injEq, Prod.mk.injEq] at h
      obtain ⟨rfl, rfl, rfl⟩ := h
      subst h12
      simp [hu0, hlen, hmem]
    rw [if_neg h12] at h
    cases h

theorem getToken_error (lib : StdLib) (file : List Char) (e : Failure)
    (h : getToken lib file = .error e) : ∃ l, e = .lexError l := by
  unfold getToken at h
  rcases hg : getNextNonWhiteSpaceCharacter file with ⟨c, u0, e0⟩
  rw [hg] at h
  dsimp only at h
  have keyword : ∀ (type : TokenType) (expected : Str) (err : Str → LexError),
      (match readUntil [',', ']', '}'] false (c :: u0) with
        | Except.error e => Except.error e
        | Except.ok (value, unread) =>
          if value ≠ expected then Except.error (.lexError (err value))
          else (Except.ok (⟨value, type⟩, unread, e0) :
            Except Failure (Token × List Char × Bool))) = Except.error e →
      ∃ l, e = .lexError l := by
    intro type expected err h
    rcases hr : readUntil [',', ']', '}'] false (c :: u0) with e' | ⟨value, u⟩
    · rw [hr] at h
      simp only [Except.error.injEq] at h
      subst h
      exact ⟨_, readUntil_error _ _ _ _ hr⟩
    · rw [hr] at h
      dsimp only at h
      by_cases hv : value ≠ expected
      · rw [if_pos hv] at h
        simp only [Except.error.injEq] at h
        exact ⟨_, h.symm⟩
      · rw [if_neg hv] at h
        cases h
  by_cases h1 : ('0' ≤ c ∧ c ≤ '9') ∨ c = '-' ∨ c = '.'
  · rw [if_pos h1] at h
    rcases hr : readUntil [',', ']', '}'] false (c :: u0) with e' | ⟨value, u⟩
    · rw [hr] at h
      simp only [Except.error.injEq] at h
      subst h
      exact ⟨_, readUntil_error _ _ _ _ hr⟩
    · rw [hr] at h
      dsimp only at h
      rcases hst : lib.stod value with _ | d
      · rw [hst] at h
        simp only [Except.error.injEq] at h
        exact ⟨_, h.symm⟩
      · rw [hst] at h
        cases h
  rw [if_neg h1] at h
  by_cases h2 : c = '"'
  · rw [if_pos h2] at h
    rcases hr : readUntil ['"'] true u0 with e' | ⟨value, u⟩
    · rw [hr] at h
      simp only [Except.error.injEq] at h
      subst h
      exact ⟨_, readUntil_error _ _ _ _ hr⟩
    · rw [hr] at h
      cases h
  rw [if_neg h2] at h
  by_cases h3 : c = 't'
  · rw [if_pos h3] at h
    exact keyword _ _ (fun v => .misspelledBoolean v ['t', 'r', 'u', 'e']) h
  rw [if_neg h3] at h
  by_cases h4 : c = 'f'
  · rw [if_pos h4] at h
    exact keyword _ _ (fun v => .misspelledBoolean v ['f', 'a', 'l', 's', 'e']) h
  rw [if_neg h4] at h
  by_cases h5 : c = 'n'
  · rw [if_pos h5] at h
    exact keyword _ _ (fun v => .misspelledNull v) h
  rw [if_neg h5] at h
  by_cases h6 : c = '{'
  · rw [if_pos h6] at h
    cases h
  rw [if_neg h6] at h
  by_cases h7 : c = '}'
  · rw [if_pos h7] at h
    cases h
  rw [if_neg h7] at h
  by_cases h8 : c = '['
  · rw [if_pos h8] at h
    cases h
  rw [if_neg h8] at h
  by_cases h9 : c = ']'
  · rw [if_pos h9] at h
    cases h
  rw [if_neg h9] at h
  by_cases h10 : c = ','
  · rw [if_pos h10] at h
    cases h
  rw [if_neg h10] at h
  by_cases h11 : c = ':'
  · rw [if_pos h11] at h
    cases h
  rw [if_neg h11] at h
  by_cases h12 : c = EOFchar
  · rw [if_pos h12] at h
    cases h
  rw [if_neg h12] at h
  simp only [Except.error.injEq] at h
  exact ⟨_, h.symm⟩

theorem tokenizeLoop_succ (lib : StdLib) (fuel : Nat) (file : List Char) :
    tokenizeLoop lib (fuel + 1) file =
      match getToken lib file with
      | .error e => .error e
      | .ok (token, unread, eof) =>
        if eof then .ok [token]
        else
          match tokenizeLoop lib fuel unread with
          | .error e => .error e
          | .ok tokens => .ok (token :: tokens) := rfl

/-- The loop of `tokenize` does not reach its bound: a result other than `outOfFuel` is
reached within as many iterations as the file has characters, and one more. -/
theorem tokenizeLoop_fuel (lib : StdLib) (fuel : Nat) (file : List Char)
    (h : file.length < fuel) : tokenizeLoop lib fuel file ≠ .error .outOfFuel := by
  induction fuel generalizing file with
  | zero => omega
  | succ fuel ih =>
    rw [tokenizeLoop_succ]
    rcases hg : getToken lib file with e | ⟨tok, unread, eof⟩
    · obtain ⟨l, rfl⟩ := getToken_error lib file e hg
      simp
    · dsimp only
      cases eof with
      | true => simp
      | false =>
        obtain ⟨-, -, h3⟩ := getToken_spec lib file tok unread false hg
        have hlt := (h3 rfl).1
        have := ih unread (by omega)
        rcases hl : tokenizeLoop lib fuel unread with e | tokens
        · rw [hl] at this
          simpa using this
        · simp

/-- `tokenize` ends by returning the tokens or by a `Tokenizer::Exception`. -/
theorem tokenize_fuel (lib : StdLib) (file : List Char) :
    Tokenizer.tokenize lib file ≠ .error .outOfFuel :=
  tokenizeLoop_fuel lib _ file (Nat.lt_succ_self _)

theorem tokenizeLoop_shape (lib : StdLib) (fuel : Nat) (file : List Char) (tokens : List Token)
    (h : tokenizeLoop lib fuel file = .ok tokens) :
    ∃ init, tokens = init ++ [⟨[], .End⟩] ∧
      (EOFchar ∉ file → ∀ t ∈ init, t.type ≠ .End) := by
  induction fuel generalizing file tokens with
  | zero => cases h
  | succ fuel ih =>
    rw [tokenizeLoop_succ] at h
    rcases hg : getToken lib file with e | ⟨tok, unread, eof⟩
    · rw [hg] at h
      cases h
    · rw [hg] at h
      dsimp only at h
      obtain ⟨h1, h2, h3⟩ := getToken_spec lib file tok unread eof hg
      cases eof with
      | true =>
        simp only [if_true, Except.ok.injEq] at h
        subst h
        obtain ⟨rfl, -⟩ := h2 rfl
        exact ⟨[], rfl, by simp⟩
      | false =>
        simp only [Bool.false_eq_true, if_false] at h
        rcases hl : tokenizeLoop lib fuel unread with e | rest
        · rw [hl] at h
          cases h
        · rw [hl] at h
          simp only [Except.ok.injEq] at h
          subst h
          obtain ⟨init, rfl, hinit⟩ := ih unread rest hl
          refine ⟨tok :: init, rfl, ?_⟩
          intro hfile t ht
          simp only [List.mem_cons] at ht
          rcases ht with rfl | ht
          · exact fun hE => hfile ((h3 rfl).2 hE)
          · exact hinit (fun hu => hfile (h1.subset hu)) t ht

theorem tokenizeLoop_error (lib : StdLib) (fuel : Nat) (file : List Char) (e : Failure)
    (h : tokenizeLoop lib fuel file = .error e) : e = .outOfFuel ∨ ∃ l, e = .lexError l := by
  induction fuel generalizing file with
  | zero =>
    simp only [tokenizeLoop, Except.error.injEq] at h
    exact Or.inl h.symm
  | succ fuel ih =>
    rw [tokenizeLoop_succ] at h
    rcases hg : getToken lib file with e' | ⟨tok, unread, eof⟩
    · rw [hg] at h
      simp only [Except.error.injEq] at h
      subst h
      exact Or.inr (getToken_error lib file _ hg)
    · rw [hg] at h
      dsimp only at h
      cases eof with
      | true => simp at h
      | false =>
        simp only [Bool.false_eq_true, if_false] at h
        rcases hl : tokenizeLoop lib fuel unread with e' | rest
        · rw [hl] at h
          simp only [Except.error.injEq] at h
          subst h
          exact ih unread hl
        · rw [hl] at h
          cases h

end Tokenizer

/-! ## Numbers: the test on the fractional part and the conversion to `int` -/

namespace Double

theorem den_eq_one_iff_fract (q : ℚ) : q.den = 1 ↔ Int.fract q = 0 := by
  constructor
  · intro h
    rw [← (Rat.den_eq_one_iff q).mp h]
    exact Int.fract_intCast _
  · intro h
    have h2 : q = ((⌊q⌋ : ℤ) : ℚ) := by
      have := Int.self_sub_floor q
      rw [h] at this
      linarith
    rw [h2]
    exact Rat.den_intCast _

/-- The test `std::modf(number, &intPart) == 0.0` holds of a finite value exactly when its
fractional part is zero. -/
theorem modfIsZero_finite (q : ℚ) : modfIsZero (.finite q) = true ↔ Int.fract q = 0 := by
  simp [modfIsZero, den_eq_one_iff_fract]

/-- The conversion `(int)number` of an integral value in the range of `int` is that value. -/
theorem toInt_finite_of_den (q : ℚ) (i : Int) (hq : q.den = 1)
    (h : toInt (.finite q) = some i) :
    i = q.num ∧ INT_MIN ≤ i ∧ i ≤ INT_MAX := by
  simp only [toInt, hq, Nat.cast_one, Int.tdiv_one] at h
  split_ifs at h with hr
  simp only [Option.some.injEq] at h
  subst h
  exact ⟨rfl, hr.1, hr.2⟩

end Double

/-! ## The parser: what a step does -/

theorem StdLib.fix_eq (lib : StdLib) (s : Str) (d : Double) (h : lib.stod s = some d) :
    lib.fix s d = lib := by
  cases lib with
  | mk stod to_string =>
    simp only [StdLib.fix, StdLib.mk.injEq, and_true]
    funext t
    by_cases ht : t = s
    · subst ht
      simpa using h.symm
    · simp [ht]

namespace Parser

theorem parseTokens_append (lib : StdLib) (m : Machine) (pre rest : List Token) :
    parseTokens lib m (pre ++ rest) =
      match parseTokens lib m pre with
      | .error e => .error e
      | .ok m' => parseTokens lib m' rest := by
  induction pre generalizing m with
  | nil => rfl
  | cons t pre ih =>
    simp only [List.cons_append, parseTokens]
    cases step lib m t with
    | error e => rfl
    | ok m' => exact ih m'

theorem parseTokens_append_ok (lib : StdLib) (m m' : Machine) (pre rest : List Token)
    (h : parseTokens lib m pre = .ok m') :
    parseTokens lib m (pre ++ rest) = parseTokens lib m' rest := by
  rw [parseTokens_append, h]

theorem requirePreviousState_of_mem (m : Machine) (allowedStates : List State)
    (h : m.lastState ∈ allowedStates) : requirePreviousState m allowedStates = .ok () := by
  simp [requirePreviousState, checkPreviousState, h]

theorem requirePreviousState_of_not_mem (m : Machine) (allowedStates : List State)
    (h : m.lastState ∉ allowedStates) (hne : m.hierarchy ≠ []) :
    requirePreviousState m allowedStates =
      .error (.syntaxError
        (.illegalState m.lastState m.state (m.hierarchy.map (typeAsString m)))) := by
  obtain ⟨p, hp⟩ : ∃ p, m.hierarchy.getLast? = some p := by
    cases hl : m.hierarchy.getLast? with
    | none => exact absurd (List.getLast?_eq_none_iff.mp hl) hne
    | some p => exact ⟨p, rfl⟩
  simp [requirePreviousState, checkPreviousState, h, getFullStateAsString, getParentNode, hp]

theorem requirePreviousState_of_not_mem_nil (m : Machine) (allowedStates : List State)
    (h : m.lastState ∉ allowedStates) (hnil : m.hierarchy = []) :
    requirePreviousState m allowedStates = .error .undefinedBehaviour := by
  simp [requirePreviousState, checkPreviousState, h, getFullStateAsString, getParentNode, hnil]

theorem hierarchy_ne_nil_of_inAList (m : Machine) (h : currentlyInAList m = true) :
    m.hierarchy ≠ [] := by
  intro hnil
  simp [currentlyInAList, hnil] at h

theorem hierarchy_ne_nil_of_inAnObject (m : Machine) (h : currentlyInAnObject m = true) :
    m.hierarchy ≠ [] := by
  intro hnil
  simp [currentlyInAnObject, hnil] at h

theorem step_close_mismatch (lib : StdLib) (m : Machine) (t : Token)
    (h : (t.type = .ObjectClose ∧ currentlyInAList m = true) ∨
      (t.type = .ListClose ∧ currentlyInAnObject m = true)) :
    ∃ e, step lib m t = .error (.syntaxError e) := by
  rcases h with ⟨ht, hin⟩ | ⟨ht, hin⟩
  · have hne := hierarchy_ne_nil_of_inAList m hin
    simp only [step, switchCase, ht]
    by_cases hs : m.state ∈ [State.Value, .ObjectOpen, .ObjectClose, .ListClose]
    · rw [requirePreviousState_of_mem
        { m with lastState := m.state, state := .ObjectClose } _ hs]
      have : currentlyInAList { m with lastState := m.state } = true := hin
      simp [this]
    · rw [requirePreviousState_of_not_mem
        { m with lastState := m.state, state := .ObjectClose } _ hs hne]
      exact ⟨_, rfl⟩
  · have hne := hierarchy_ne_nil_of_inAnObject m hin
    simp only [step, switchCase, ht]
    by_cases hs : m.state ∈ [State.Value, .ListOpen, .ListClose, .ObjectClose]
    · rw [requirePreviousState_of_mem
        { m with lastState := m.state, state := .ListClose } _ hs]
      have : currentlyInAnObject { m with lastState := m.state } = true := hin
      simp [this]
    · rw [requirePreviousState_of_not_mem
        { m with lastState := m.state, state := .ListClose } _ hs hne]
      exact ⟨_, rfl⟩

theorem Cell_type_list (c : Cell) : c.type = .List ↔ ∃ children, c = .of (.list children) := by
  cases c with
  | root => simp [Cell.type]
  | of v => cases v <;> simp [Cell.type, Value.typeOf]

theorem Cell_type_object (c : Cell) :
    c.type = .Object ↔ ∃ members, c = .of (.object members) := by
  cases c with
  | root => simp [Cell.type]
  | of v => cases v <;> simp [Cell.type, Value.typeOf]

theorem currentlyInAList_iff (m : Machine) :
    currentlyInAList m = true ↔
      ∃ p children, m.hierarchy.getLast? = some p ∧ m.heap[p]? = some (.of (.list children)) := by
  unfold currentlyInAList
  cases hl : m.hierarchy.getLast? with
  | none => simp
  | some p =>
    cases hp : m.heap[p]? with
    | none => simp [hp]
    | some c => simp [hp, Cell_type_list]

theorem currentlyInAnObject_iff (m : Machine) :
    currentlyInAnObject m = true ↔
      ∃ p members, m.hierarchy.getLast? = some p ∧
        m.heap[p]? = some (.of (.object members)) := by
  unfold currentlyInAnObject
  cases hl : m.hierarchy.getLast? with
  | none => simp
  | some p =>
    cases hp : m.heap[p]? with
    | none => simp [hp]
    | some c => simp [hp, Cell_type_object]

theorem not_inAList_of_inAnObject (m : Machine) (h : currentlyInAnObject m = true) :
    currentlyInAList m = false := by
  obtain ⟨p, members, hp, hc⟩ := (currentlyInAnObject_iff m).mp h
  cases hl : currentlyInAList m with
  | false => rfl
  | true =>
    obtain ⟨q, children, hq, hd⟩ := (currentlyInAList_iff m).mp hl
    rw [hp] at hq
    cases hq
    rw [hc] at hd
    cases hd

theorem getElem?_append_of_some {α : Type} (l : List α) (x : α) (p : Nat) (c : α)
    (h : l[p]? = some c) : (l ++ [x])[p]? = some c := by
  have hp : p < l.length := by
    by_contra hcon
    rw [List.getElem?_eq_none (by omega)] at h
    cases h
  rw [List.getElem?_append_left hp]
  exact h

/-- A node attached while the innermost node is a List: the pointer to it is appended to the
children of the List. -/
theorem addChildNode_inAList (m : Machine) (node p : Ptr) (children : List Ptr)
    (hp : m.hierarchy.getLast? = some p) (hc : m.heap[p]? = some (.of (.list children))) :
    addChildNode m node =
      .ok { m with heap := m.heap.set p (.of (.list (children ++ [node]))) } := by
  simp [addChildNode, currentlyInAList, getParentNode, hp, hc, Cell.type, Value.typeOf,
    Cell.addChild]

/-- A node attached while the innermost node is an Object: `map.insert` is called with
`lastKey` and the pointer to it. -/
theorem addChildNode_inAnObject (m : Machine) (node p : Ptr) (members : List (Str × Ptr))
    (hp : m.hierarchy.getLast? = some p) (hc : m.heap[p]? = some (.of (.object members))) :
    addChildNode m node =
      .ok { m with heap := m.heap.set p (.of (.object (mapInsert m.lastKey node members))) } := by
  simp [addChildNode, currentlyInAList, currentlyInAnObject, getParentNode, hp, hc, Cell.type,
    Value.typeOf, Cell.addChildPair]

/-- A node attached while the innermost node is neither a List nor an Object: the call
throws, provided `hierarchy` is not empty. -/
theorem addChildNode_elsewhere (m : Machine) (node p : Ptr)
    (hp : m.hierarchy.getLast? = some p) (hl : currentlyInAList m = false)
    (ho : currentlyInAnObject m = false) :
    addChildNode m node = .error (.syntaxError (.illegalNodeType (typeAsString m p))) := by
  simp [addChildNode, hl, ho, getParentNode, hp]

theorem addChildNode_ok (m m' : Machine) (node : Ptr) (h : addChildNode m node = .ok m') :
    ∃ p, m.hierarchy.getLast? = some p ∧
      ((∃ children, m.heap[p]? = some (.of (.list children)) ∧
          m' = { m with heap := m.heap.set p (.of (.list (children ++ [node]))) }) ∨
        (∃ members, m.heap[p]? = some (.of (.object members)) ∧
          m' = { m with
            heap := m.heap.set p (.of (.object (mapInsert m.lastKey node members))) })) := by
  cases hl : currentlyInAList m with
  | true =>
    obtain ⟨p, children, hp, hc⟩ := (currentlyInAList_iff m).mp hl
    rw [addChildNode_inAList m node p children hp hc] at h
    simp only [Except.ok.injEq] at h
    exact ⟨p, hp, Or.inl ⟨children, hc, h.symm⟩⟩
  | false =>
    cases ho : currentlyInAnObject m with
    | true =>
      obtain ⟨p, members, hp, hc⟩ := (currentlyInAnObject_iff m).mp ho
      rw [addChildNode_inAnObject m node p members hp hc] at h
      simp only [Except.ok.injEq] at h
      exact ⟨p, hp, Or.inr ⟨members, hc, h.symm⟩⟩
    | false =>
      simp only [addChildNode, hl, ho, getParentNode] at h
      cases hg : m.hierarchy.getLast? with
      | none => simp [hg] at h
      | some p => simp [hg] at h

theorem inAList_makeShared (m : Machine) (c : Cell) :
    currentlyInAList m = true → currentlyInAList (makeShared m c).1 = true := by
  intro h
  obtain ⟨p, children, hp, hc⟩ := (currentlyInAList_iff m).mp h
  exact (currentlyInAList_iff _).mpr ⟨p, children, hp, getElem?_append_of_some _ _ _ _ hc⟩

theorem inAnObject_makeShared (m : Machine) (c : Cell) :
    currentlyInAnObject m = true → currentlyInAnObject (makeShared m c).1 = true := by
  intro h
  obtain ⟨p, members, hp, hc⟩ := (currentlyInAnObject_iff m).mp h
  exact (currentlyInAnObject_iff _).mpr ⟨p, members, hp, getElem?_append_of_some _ _ _ _ hc⟩

/-- A value attached while the innermost node is a List: the new node is put in the store
and the pointer to it is appended to the children of the List. -/
theorem addChildValue_inAList (m : Machine) (v : Value Ptr) (p : Ptr) (children : List Ptr)
    (hp : m.hierarchy.getLast? = some p) (hc : m.heap[p]? = some (.of (.list children))) :
    addChildValue m v =
      .ok { m with
        heap := (m.heap ++ [Cell.of v]).set p (.of (.list (children ++ [m.heap.length]))) } :=
  addChildNode_inAList (makeShared m (.of v)).1 _ p children hp
    (getElem?_append_of_some m.heap (Cell.of v) p _ hc)

/-- A value attached while the innermost node is an Object: the new node is put in the store
and `map.insert` is called with `lastKey` and the pointer to it. -/
theorem addChildValue_inAnObject (m : Machine) (v : Value Ptr) (p : Ptr)
    (members : List (Str × Ptr))
    (hp : m.hierarchy.getLast? = some p) (hc : m.heap[p]? = some (.of (.object members))) :
    addChildValue m v =
      .ok { m with
        heap := (m.heap ++ [Cell.of v]).set p
          (.of (.object (mapInsert m.lastKey m.heap.length members))) } :=
  addChildNode_inAnObject (makeShared m (.of v)).1 _ p members hp
    (getElem?_append_of_some m.heap (Cell.of v) p _ hc)

theorem addChildValue_created (m m' : Machine) (v : Value Ptr)
    (hl : ∀ children, v ≠ .list children) (ho : ∀ members, v ≠ .object members)
    (h : addChildValue m v = .ok m') : m'.heap[m.heap.length]? = some (.of v) := by
  obtain ⟨p, -, hcase⟩ := addChildNode_ok _ _ _ h
  have hnew : (m.heap ++ [Cell.of v])[m.heap.length]? = some (.of v) := by simp
  rcases hcase with ⟨children, hc, rfl⟩ | ⟨members, hc, rfl⟩
  · have hp : p ≠ m.heap.length := by
      rintro rfl
      simp only [makeShared] at hc
      rw [hnew] at hc
      simp only [Option.some.injEq, Cell.of.injEq] at hc
      exact hl _ hc
    simp only [makeShared]
    rw [List.getElem?_set_ne hp]
    exact hnew
  · have hp : p ≠ m.heap.length := by
      rintro rfl
      simp only [makeShared] at hc
      rw [hnew] at hc
      simp only [Option.some.injEq, Cell.of.injEq] at hc
      exact ho _ hc
    simp only [makeShared]
    rw [List.getElem?_set_ne hp]
    exact hnew

theorem requirePreviousState_ok (m : Machine) (allowedStates : List State) (u : Unit)
    (h : requirePreviousState m allowedStates = .ok u) : m.lastState ∈ allowedStates := by
  by_contra hn
  by_cases hne : m.hierarchy = []
  · rw [requirePreviousState_of_not_mem_nil m _ hn hne] at h
    cases h
  · rw [requirePreviousState_of_not_mem m _ hn hne] at h
    cases h

theorem addChildNode_frame (m m' : Machine) (node : Ptr) (h : addChildNode m node = .ok m') :
    (m'.hierarchy = m.hierarchy ∧ m'.lastState = m.lastState ∧ m'.state = m.state ∧
        m'.lastKey = m.lastKey) ∧ m'.root = m.root ∧ m.hierarchy ≠ [] ∧
      m'.heap.length = m.heap.length ∧
      (m.heap[0]? = some .root → m'.heap[0]? = some .root) := by
  obtain ⟨p, hp, hcase⟩ := addChildNode_ok m m' node h
  have hne : m.hierarchy ≠ [] := by
    intro hnil
    rw [hnil] at hp
    cases hp
  have h0 : ∀ c : Cell, m.heap[p]? = some c → c ≠ .root → ∀ c' : Cell,
      m.heap[0]? = some .root → (m.heap.set p c')[0]? = some .root := by
    intro c hc hcr c' hroot
    have hp0 : p ≠ 0 := by
      rintro rfl
      rw [hroot] at hc
      exact hcr (Option.some.inj hc).symm
    rw [List.getElem?_set_ne hp0]
    exact hroot
  rcases hcase with ⟨children, hc, rfl⟩ | ⟨members, hc, rfl⟩
  · exact ⟨⟨rfl, rfl, rfl, rfl⟩, rfl, hne, by simp, h0 _ hc (by simp) _⟩
  · exact ⟨⟨rfl, rfl, rfl, rfl⟩, rfl, hne, by simp, h0 _ hc (by simp) _⟩

theorem getElem?_zero_append {α : Type} (l : List α) (x c : α) (h : l[0]? = some c) :
    (l ++ [x])[0]? = some c :=
  getElem?_append_of_some l x 0 c h

theorem addChildValue_frame (m m' : Machine) (v : Value Ptr)
    (h : addChildValue m v = .ok m') :
    (m'.hierarchy = m.hierarchy ∧ m'.lastState = m.lastState ∧ m'.state = m.state ∧
        m'.lastKey = m.lastKey) ∧ m'.root = m.root ∧ m.hierarchy ≠ [] ∧
      (m.heap[0]? = some .root → m'.heap[0]? = some .root) := by
  obtain ⟨h1, h2, h3, -, h5⟩ := addChildNode_frame _ _ _ h
  exact ⟨h1, h2, h3, fun h0 => h5 (getElem?_zero_append _ _ _ h0)⟩

theorem openContainer_frame (m m' : Machine) (v : Value Ptr)
    (h : openContainer m v = .ok m') :
    m'.lastState = m.lastState ∧ m'.state = m.state ∧
      m'.hierarchy = m.hierarchy ++ [m.heap.length] ∧
      (m.lastState = .Start ∨ m.hierarchy ≠ []) ∧
      (m.heap[0]? = some .root → m'.heap[0]? = some .root) := by
  unfold openContainer at h
  by_cases hs : m.lastState = .Start
  · rw [if_pos hs] at h
    simp only [Except.ok.injEq] at h
    subst h
    exact ⟨rfl, rfl, rfl, Or.inl hs, fun h0 => getElem?_zero_append _ _ _ h0⟩
  · rw [if_neg hs] at h
    rcases ha : addChildNode (makeShared m (.of v)).1 (makeShared m (.of v)).2 with e | m1
    · rw [ha] at h
      cases h
    · rw [ha] at h
      simp only [Except.ok.injEq] at h
      subst h
      obtain ⟨h1, -, h3, -, h5⟩ := addChildNode_frame _ _ _ ha
      have hl : m1.lastState = m.lastState := h1.2.1
      have hst : m1.state = m.state := h1.2.2.1
      have hh : m1.hierarchy = m.hierarchy := h1.1
      refine ⟨hl, hst, ?_, Or.inr h3, fun h0 => h5 (getElem?_zero_append _ _ _ h0)⟩
      simp only [makeShared, hh]

theorem popBack_frame (m m' : Machine) (h : popBack m = .ok m') :
    m' = { m with hierarchy := m.hierarchy.dropLast } ∧ m.hierarchy ≠ [] := by
  unfold popBack at h
  by_cases hn : m.hierarchy = []
  · rw [if_pos hn] at h
    cases h
  · rw [if_neg hn] at h
    simp only [Except.ok.injEq] at h
    exact ⟨h.symm, hn⟩

/-- What a step of the parser that succeeds does to the members of the parser: the previous
state is among the states allowed for the token, `lastState` and `state` are assigned, and
`hierarchy` stays as it is, or gets the node just made on top (`{` and `[`), or loses its
top (`}` and `]`). The node at the bottom of the store stays as it is. -/
theorem step_frame (lib : StdLib) (m m' : Machine) (t : Token)
    (h : step lib m t = .ok m') :
    m.state ∈ allowedStates t.type ∧ m'.lastState = m.state ∧ StateAfter t.type m'.state ∧
      (m'.hierarchy = m.hierarchy ∨
        (m'.hierarchy = m.hierarchy ++ [m.heap.length] ∧
          (m.state = .Start ∨ m.hierarchy ≠ [])) ∨
        (m'.hierarchy = m.hierarchy.dropLast ∧ m.hierarchy ≠ [])) ∧
      (m.heap[0]? = some .root → m'.heap[0]? = some .root) := by
  obtain ⟨value, type⟩ := t
  cases type
  case ObjectOpen =>
    simp only [step, switchCase] at h
    rcases hr : requirePreviousState { m with lastState := m.state, state := .ObjectOpen }
      [.Start, .Colon] with e | u
    · rw [hr] at h; cases h
    rw [hr] at h
    obtain ⟨h1, h2, h3, h4, h5⟩ := openContainer_frame _ _ _ h
    exact ⟨requirePreviousState_ok _ _ _ hr, h1, h2, Or.inr (Or.inl ⟨h3, h4⟩), h5⟩
  case ListOpen =>
    simp only [step, switchCase] at h
    rcases hr : requirePreviousState { m with lastState := m.state, state := .ListOpen }
      [.Start, .Colon] with e | u
    · rw [hr] at h; cases h
    rw [hr] at h
    obtain ⟨h1, h2, h3, h4, h5⟩ := openContainer_frame _ _ _ h
    exact ⟨requirePreviousState_ok _ _ _ hr, h1, h2, Or.inr (Or.inl ⟨h3, h4⟩), h5⟩
  case ObjectClose =>
    simp only [step, switchCase] at h
    rcases hr : requirePreviousState { m with lastState := m.state, state := .ObjectClose }
      [.Value, .ObjectOpen, .ObjectClose, .ListClose] with e | u
    · rw [hr] at h; cases h
    rw [hr] at h
    dsimp only at h
    split_ifs at h
    obtain ⟨rfl, hne⟩ := popBack_frame _ _ h
    exact ⟨requirePreviousState_ok _ _ _ hr, rfl, rfl, Or.inr (Or.inr ⟨rfl, hne⟩), id⟩
  case ListClose =>
    simp only [step, switchCase] at h
    rcases hr : requirePreviousState { m with lastState := m.state, state := .ListClose }
      [.Value, .ListOpen, .ListClose, .ObjectClose] with e | u
    · rw [hr] at h; cases h
    rw [hr] at h
    dsimp only at h
    split_ifs at h
    obtain ⟨rfl, hne⟩ := popBack_frame _ _ h
    exact ⟨requirePreviousState_ok _ _ _ hr, rfl, rfl, Or.inr (Or.inr ⟨rfl, hne⟩), id⟩
  case Comma =>
    simp only [step, switchCase] at h
    rcases hr : requirePreviousState { m with lastState := m.state, state := .Comma }
      [.Value, .ListClose, .ObjectClose] with e | u
    · rw [hr] at h; cases h
    rw [hr] at h
    simp only [Except.ok.injEq] at h
    subst h
    exact ⟨requirePreviousState_ok _ _ _ hr, rfl, rfl, Or.inl rfl, id⟩
  case Colon =>
    simp only [step, switchCase] at h
    rcases hr : requirePreviousState { m with lastState := m.state, state := .Colon }
      [.Key] with e | u
    · rw [hr] at h; cases h
    rw [hr] at h
    simp only [Except.ok.injEq] at h
    subst h
    exact ⟨requirePreviousState_ok _ _ _ hr, rfl, rfl, Or.inl rfl, id⟩
  case End =>
    simp only [step, switchCase] at h
    rcases hr : requirePreviousState { m with lastState := m.state, state := .End }
      [.Start, .ListClose, .ObjectClose] with e | u
    · rw [hr] at h; cases h
    rw [hr] at h
    simp only [Except.ok.injEq] at h
    subst h
    exact ⟨requirePreviousState_ok _ _ _ hr, rfl, rfl, Or.inl rfl, id⟩
  case Boolean =>
    simp only [step, switchCase] at h
    rcases hr : requirePreviousState { m with lastState := m.state, state := .Value }
      [.Colon, .Comma, .ListOpen] with e | u
    · rw [hr] at h; cases h
    rw [hr] at h
    dsimp only at h
    split_ifs at h
    all_goals
      obtain ⟨h1, -, -, h4⟩ := addChildValue_frame _ _ _ h
      exact ⟨requirePreviousState_ok _ _ _ hr, h1.2.1, h1.2.2.1, Or.inl h1.1, h4⟩
  case Null =>
    simp only [step, switchCase] at h
    rcases hr : requirePreviousState { m with lastState := m.state, state := .Value }
      [.Colon, .Comma, .ListOpen] with e | u
    · rw [hr] at h; cases h
    rw [hr] at h
    dsimp only at h
    obtain ⟨h1, -, -, h4⟩ := addChildValue_frame _ _ _ h
    exact ⟨requirePreviousState_ok _ _ _ hr, h1.2.1, h1.2.2.1, Or.inl h1.1, h4⟩
  case Number =>
    simp only [step, switchCase] at h
    rcases hr : requirePreviousState { m with lastState := m.state, state := .Value }
      [.Colon, .Comma, .ListOpen] with e | u
    · rw [hr] at h; cases h
    rw [hr] at h
    dsimp only at h
    rcases hst : lib.stod value with _ | number
    · rw [hst] at h; cases h
    rw [hst] at h
    dsimp only at h
    have fin : ∀ v, addChildValue { m with lastState := m.state, state := .Value } v = .ok m' →
        m.state ∈ allowedStates TokenType.Number ∧ m'.lastState = m.state ∧
        StateAfter TokenType.Number m'.state ∧
        (m'.hierarchy = m.hierarchy ∨
          (m'.hierarchy = m.hierarchy ++ [m.heap.length] ∧
            (m.state = .Start ∨ m.hierarchy ≠ [])) ∨
          (m'.hierarchy = m.hierarchy.dropLast ∧ m.hierarchy ≠ [])) ∧
        (m.heap[0]? = some .root → m'.heap[0]? = some .root) := by
      intro v hv
      obtain ⟨h1, -, -, h4⟩ := addChildValue_frame _ _ _ hv
      exact ⟨requirePreviousState_ok _ _ _ hr, h1.2.1, h1.2.2.1, Or.inl h1.1, h4⟩
    split_ifs at h
    · rcases hti : number.toInt with _ | i
      · rw [hti] at h; cases h
      rw [hti] at h
      exact fin _ h
    · exact fin _ h
  case String =>
    simp only [step, switchCase] at h
    split_ifs at h with c1 c2
    · rcases hr : requirePreviousState
        { m with lastState := m.state, state := .Key, lastKey := value }
        [.ObjectOpen, .ListOpen, .Colon, .Comma] with e | u
      · rw [hr] at h; cases h
      rw [hr] at h
      simp only [Except.ok.injEq] at h
      subst h
      exact ⟨requirePreviousState_ok _ _ _ hr, rfl, Or.inl rfl, Or.inl rfl, id⟩
    · rcases ha : addChildValue { m with lastState := m.state, state := .Value }
        (.string value) with e | m1
      · rw [ha] at h; cases h
      rw [ha] at h
      dsimp only at h
      rcases hr : requirePreviousState m1 [.ObjectOpen, .ListOpen, .Colon, .Comma] with e | u
      · rw [hr] at h; cases h
      rw [hr] at h
      simp only [Except.ok.injEq] at h
      subst h
      obtain ⟨h1, -, -, h4⟩ := addChildValue_frame _ _ _ ha
      have := requirePreviousState_ok _ _ _ hr
      rw [h1.2.1] at this
      exact ⟨this, h1.2.1, Or.inr h1.2.2.1, Or.inl h1.1, h4⟩

theorem StateAfter_ne_Start (type : TokenType) (s : State) (h : StateAfter type s) :
    s ≠ .Start := by
  cases type <;> simp only [StateAfter] at h <;> (try subst h) <;> simp
  rcases h with h | h <;> simp [h]

theorem StateAfter_close (type : TokenType) (s : State) (h : StateAfter type s)
    (hs : s = .ObjectClose ∨ s = .ListClose) :
    type = .ObjectClose ∨ type = .ListClose := by
  cases type <;> simp only [StateAfter] at h <;> (try subst h) <;> simp at hs ⊢
  rcases h with h | h <;> simp [h] at hs

theorem Sentinel_start (self : Parser) : Sentinel (start self) :=
  ⟨rfl, Or.inr rfl, fun _ => rfl⟩

theorem Sentinel_step (lib : StdLib) (m m' : Machine) (t : Token)
    (h : step lib m t = .ok m') (hs : Sentinel m) : Sentinel m' := by
  obtain ⟨-, -, hst, hh, h0⟩ := step_frame lib m m' t h
  obtain ⟨s0, s1, s2⟩ := hs
  refine ⟨h0 s0, ?_, fun hS => absurd hS (StateAfter_ne_Start _ _ hst)⟩
  rcases hh with hh | ⟨hh, hne⟩ | ⟨hh, hne⟩
  · rw [hh]
    exact s1
  · rw [hh]
    right
    have hne' : m.hierarchy ≠ [] := by
      rcases hne with hS | hne
      · rw [s2 hS]
        simp
      · exact hne
    rcases s1 with s1 | s1
    · exact absurd s1 hne'
    · cases hm : m.hierarchy with
      | nil => exact absurd hm hne'
      | cons a l =>
        rw [hm] at s1
        simpa using s1
  · rw [hh]
    rcases s1 with s1 | s1
    · exact absurd s1 hne
    · cases hm : m.hierarchy with
      | nil => exact absurd hm hne
      | cons a l =>
        rw [hm] at s1
        simp only [List.head?_cons, Option.some.injEq] at s1
        subst s1
        cases l with
        | nil => left; rfl
        | cons b l => right; rfl

theorem Sentinel_parseTokens (lib : StdLib) (m m' : Machine) (tokens : List Token)
    (h : parseTokens lib m tokens = .ok m') (hs : Sentinel m) : Sentinel m' := by
  induction tokens generalizing m with
  | nil =>
    simp only [parseTokens, Except.ok.injEq] at h
    subst h
    exact hs
  | cons t tokens ih =>
    simp only [parseTokens] at h
    rcases hst : step lib m t with e | m1
    · rw [hst] at h; cases h
    rw [hst] at h
    exact ih m1 h (Sentinel_step lib m m1 t hst hs)

/-- With the node made by `Node()` alone in `hierarchy`, the parser is neither in a List nor
in an Object. -/
theorem at_sentinel (m : Machine) (hs : Sentinel m) (hlen : m.hierarchy.length = 1) :
    m.hierarchy.getLast? = some 0 ∧ currentlyInAList m = false ∧
      currentlyInAnObject m = false := by
  obtain ⟨s0, s1, -⟩ := hs
  have hh : m.hierarchy = [0] := by
    cases hm : m.hierarchy with
    | nil => rw [hm] at hlen; cases hlen
    | cons a l =>
      rw [hm] at hlen s1
      cases l with
      | nil =>
        rcases s1 with s1 | s1
        · cases s1
        · simp only [List.head?_cons, Option.some.injEq] at s1
          rw [s1]
      | cons b l => simp at hlen
  refine ⟨by rw [hh]; rfl, ?_, ?_⟩
  · simp [currentlyInAList, hh, s0, Cell.type]
  · simp [currentlyInAnObject, hh, s0, Cell.type]

theorem addChildValue_at_sentinel (m : Machine) (v : Value Ptr)
    (hg : m.hierarchy.getLast? = some 0) (h0 : m.heap[0]? = some .root) :
    addChildValue m v = .error (.syntaxError (.illegalNodeType "Root".toList)) := by
  have h0' : (m.heap ++ [Cell.of v])[0]? = some .root := getElem?_append_of_some _ _ _ _ h0
  have hl : currentlyInAList (makeShared m (.of v)).1 = false := by
    simp [currentlyInAList, makeShared, hg, h0', Cell.type]
  have ho : currentlyInAnObject (makeShared m (.of v)).1 = false := by
    simp [currentlyInAnObject, makeShared, hg, h0', Cell.type]
  unfold addChildValue
  rw [addChildNode_elsewhere (makeShared m (.of v)).1 _ 0 hg hl ho]
  simp [typeAsString, makeShared, h0', Cell.getTypeAsString]

theorem requirePreviousState_step_of_not_mem (m : Machine) (s : State) (k : Str)
    (allowedStates : List State) (h : m.state ∉ allowedStates) (hne : m.hierarchy ≠ []) :
    ∃ e, requirePreviousState { m with lastState := m.state, state := s, lastKey := k }
      allowedStates = .error (.syntaxError e) :=
  ⟨_, requirePreviousState_of_not_mem
    { m with lastState := m.state, state := s, lastKey := k } _ h hne⟩

/-- A token that is neither a String nor allowed after the state of the parser makes the
step fail with a `Parser::Exception`, provided `hierarchy` is not empty. -/
theorem step_of_not_allowed (lib : StdLib) (m : Machine) (t : Token)
    (htype : t.type ≠ .String) (hne : m.hierarchy ≠ [])
    (h : m.state ∉ allowedStates t.type) :
    ∃ e, step lib m t = .error (.syntaxError e) := by
  obtain ⟨value, type⟩ := t
  cases type <;> simp only [ne_eq, not_true_eq_false, reduceCtorEq, not_false_eq_true] at htype
  all_goals
    simp only [allowedStates] at h
    obtain ⟨e, he⟩ := requirePreviousState_step_of_not_mem m _ m.lastKey _ h hne
    simp only [step, switchCase]
    rw [he]
    exact ⟨e, rfl⟩

theorem parseTokens_cons_ok (lib : StdLib) (m m' : Machine) (t : Token) (ts : List Token)
    (h : parseTokens lib m (t :: ts) = .ok m') :
    ∃ m1, step lib m t = .ok m1 ∧ parseTokens lib m1 ts = .ok m' := by
  simp only [parseTokens] at h
  rcases hst : step lib m t with e | m1
  · rw [hst] at h; cases h
  · rw [hst] at h
    exact ⟨m1, rfl, h⟩

theorem parseTokens_append_inv (lib : StdLib) (m m' : Machine) (pre rest : List Token)
    (h : parseTokens lib m (pre ++ rest) = .ok m') :
    ∃ m1, parseTokens lib m pre = .ok m1 ∧ parseTokens lib m1 rest = .ok m' := by
  rw [parseTokens_append] at h
  rcases hp : parseTokens lib m pre with e | m1
  · rw [hp] at h; cases h
  · rw [hp] at h
    exact ⟨m1, rfl, h⟩

theorem parseTokens_cons_error (lib : StdLib) (m : Machine) (t : Token) (ts : List Token)
    (f : Failure) (h : step lib m t = .error f) : parseTokens lib m (t :: ts) = .error f := by
  simp only [parseTokens, h]

theorem End_not_allowed (type : TokenType) : State.End ∉ allowedStates type := by
  cases type <;> simp [allowedStates]

theorem Start_allowed (type : TokenType) (h : State.Start ∈ allowedStates type) :
    type = .ObjectOpen ∨ type = .ListOpen ∨ type = .End := by
  cases type <;> simp [allowedStates] at h ⊢

/-- A String token met while the parser is neither in a List nor in an Object makes the step
fail with "Wrong order of tokens". -/
theorem step_string_elsewhere (lib : StdLib) (m : Machine) (t : Token)
    (htype : t.type = .String) (hl : currentlyInAList m = false)
    (ho : currentlyInAnObject m = false) :
    step lib m t = .error (.syntaxError .wrongOrderOfTokens) := by
  have hO : ∀ a b, currentlyInAnObject { m with lastState := a, state := b } =
      currentlyInAnObject m := fun _ _ => rfl
  have hL : ∀ a b, currentlyInAList { m with lastState := a, state := b } =
      currentlyInAList m := fun _ _ => rfl
  simp only [step, switchCase, htype, hO, hL, hl, ho, Bool.and_false, Bool.or_self,
    Bool.false_eq_true, if_false]

/-- After a comma that follows the close of the outermost container, every token makes the
step fail. -/
theorem step_after_stray_comma (lib : StdLib) (m : Machine) (u : Token)
    (hg : m.hierarchy.getLast? = some 0) (h0 : m.heap[0]? = some .root)
    (hstate : m.state = .Comma) :
    ∃ f, step lib m u = .error f ∧ (u.type ≠ .Number → ∃ s, f = .syntaxError s) := by
  have hne : m.hierarchy ≠ [] := by
    intro hnil
    rw [hnil] at hg
    cases hg
  have hl : currentlyInAList m = false := by simp [currentlyInAList, hg, h0, Cell.type]
  have ho : currentlyInAnObject m = false := by simp [currentlyInAnObject, hg, h0, Cell.type]
  have hval : ∀ v, addChildValue { m with lastState := m.state, state := .Value } v =
      .error (.syntaxError (.illegalNodeType "Root".toList)) :=
    fun v => addChildValue_at_sentinel { m with lastState := m.state, state := .Value } v hg h0
  have hreq : requirePreviousState { m with lastState := m.state, state := .Value }
      [.Colon, .Comma, .ListOpen] = .ok () :=
    requirePreviousState_of_mem _ _ (by simp [hstate])
  by_cases hs : u.type = .String
  · exact ⟨_, step_string_elsewhere lib m u hs hl ho, fun _ => ⟨_, rfl⟩⟩
  by_cases hb : u.type = .Boolean
  · refine ⟨.syntaxError (.illegalNodeType "Root".toList), ?_, fun _ => ⟨_, rfl⟩⟩
    simp only [step, switchCase, hb, hreq, hval, ite_self]
  by_cases hn : u.type = .Null
  · refine ⟨.syntaxError (.illegalNodeType "Root".toList), ?_, fun _ => ⟨_, rfl⟩⟩
    simp only [step, switchCase, hn, hreq, hval]
  by_cases hnum : u.type = .Number
  · simp only [step, switchCase, hnum, hreq, hval]
    rcases lib.stod u.value with _ | number
    · exact ⟨_, rfl, fun h => absurd rfl h⟩
    · dsimp only
      by_cases hz : number.modfIsZero = true
      · rw [if_pos hz]
        rcases number.toInt with _ | i
        · exact ⟨_, rfl, fun h => absurd rfl h⟩
        · exact ⟨_, rfl, fun h => absurd rfl h⟩
      · rw [if_neg hz]
        exact ⟨_, rfl, fun h => absurd rfl h⟩
  · have hna : m.state ∉ allowedStates u.type := by
      rw [hstate]
      obtain ⟨value, type⟩ := u
      cases type <;> simp [allowedStates] at hs hb hn hnum ⊢
    obtain ⟨e, he⟩ := step_of_not_allowed lib m u hs hne hna
    exact ⟨_, he, fun _ => ⟨e, rfl⟩⟩

end Parser

/-! ## The store: children are made after their parents -/

theorem mem_mapInsert {ptr : Type} (key : Str) (child : ptr) (members : List (Str × ptr))
    (kc : Str × ptr) (h : kc ∈ mapInsert key child members) :
    kc ∈ members ∨ kc = (key, child) := by
  induction members with
  | nil =>
    simp only [mapInsert, List.mem_singleton] at h
    exact Or.inr h
  | cons a members ih =>
    obtain ⟨k, p⟩ := a
    simp only [mapInsert] at h
    split_ifs at h with h1 h2
    · simp only [List.mem_cons] at h
      rcases h with h | h
      · exact Or.inr h
      · exact Or.inl (List.mem_cons.mpr h)
    · exact Or.inl h
    · simp only [List.mem_cons] at h
      rcases h with h | h
      · exact Or.inl (List.mem_cons.mpr (Or.inl h))
      · rcases ih h with h' | h'
        · exact Or.inl (List.mem_cons.mpr (Or.inr h'))
        · exact Or.inr h'

namespace Heap

theorem readback_zero (heap : Heap) (p : Ptr) : readback heap 0 p = .root := rfl

/-- The node read at `p` does not depend on the bound, once the bound is at least the number
of nodes of the store from `p` on. -/
theorem readback_stable (heap : Heap) (h : heap.Ordered) (fuel1 fuel2 p : Nat)
    (h1 : heap.length - p ≤ fuel1) (h2 : heap.length - p ≤ fuel2) :
    readback heap fuel1 p = readback heap fuel2 p := by
  induction fuel1 generalizing fuel2 p with
  | zero =>
    have hp : heap.length ≤ p := by omega
    have hnone : heap[p]? = none := List.getElem?_eq_none hp
    cases fuel2 with
    | zero => rfl
    | succ f2 => simp only [readback, hnone]
  | succ f1 ih =>
    cases fuel2 with
    | zero =>
      have hp : heap.length ≤ p := by omega
      have hnone : heap[p]? = none := List.getElem?_eq_none hp
      simp only [readback, hnone]
    | succ f2 =>
      rcases hc : heap[p]? with _ | cell
      · simp only [readback, hc]
      · have hplt : p < heap.length := by
          by_contra hcon
          rw [List.getElem?_eq_none (by omega)] at hc
          cases hc
        rcases cell with _ | v
        · simp only [readback, hc]
        · cases v with
          | list children =>
            simp only [readback, hc]
            congr 2
            apply List.map_congr_left
            intro c hcmem
            have hlt : p < c := (h p).1 children hc c hcmem
            exact ih f2 c (by omega) (by omega)
          | object members =>
            simp only [readback, hc]
            congr 2
            apply List.map_congr_left
            intro kc hmem
            have hlt : p < kc.2 := (h p).2 members hc kc hmem
            rw [ih f2 kc.2 (by omega) (by omega)]
          | _ => simp only [readback, hc]

theorem Ordered_append (heap : Heap) (h : heap.Ordered) (v : Value Ptr)
    (hl : ∀ children, v = .list children → children = [])
    (ho : ∀ members, v = .object members → members = []) :
    Heap.Ordered (heap ++ [Cell.of v]) := by
  intro p
  by_cases hp : p < heap.length
  · rw [List.getElem?_append_left hp]
    exact h p
  · by_cases hp' : p = heap.length
    · subst hp'
      have : (heap ++ [Cell.of v])[heap.length]? = some (.of v) := by simp
      rw [this]
      constructor
      · intro children hc c hcm
        simp only [Option.some.injEq, Cell.of.injEq] at hc
        rw [hl children hc] at hcm
        cases hcm
      · intro members hc kc hcm
        simp only [Option.some.injEq, Cell.of.injEq] at hc
        rw [ho members hc] at hcm
        cases hcm
    · have : (heap ++ [Cell.of v])[p]? = none :=
        List.getElem?_eq_none (by simp only [List.length_append, List.length_singleton]; omega)
      rw [this]
      exact ⟨fun _ hc => (by cases hc), fun _ hc => (by cases hc)⟩

end Heap

namespace Parser

theorem addChildNode_valid (m m' : Machine) (node : Nat) (hord : m.heap.Ordered)
    (hnode : ∀ q : Nat, q ∈ m.hierarchy → q < node) (h : addChildNode m node = .ok m') :
    m'.heap.Ordered ∧ m'.heap.length = m.heap.length ∧ m'.hierarchy = m.hierarchy := by
  obtain ⟨p, hp, hcase⟩ := addChildNode_ok m m' node h
  have hpn : p < node := hnode p (List.mem_of_getLast?_eq_some hp)
  rcases hcase with ⟨children, hc, rfl⟩ | ⟨members, hc, rfl⟩
  · refine ⟨?_, by simp, rfl⟩
    intro q
    by_cases hq : p = q
    · subst hq
      have hplt : p < m.heap.length := by
        by_contra hcon
        rw [List.getElem?_eq_none (Nat.le_of_not_lt hcon)] at hc
        cases hc
      simp only [List.getElem?_set_self hplt, Option.some.injEq, Cell.of.injEq,
        Value.list.injEq, reduceCtorEq, false_implies, implies_true, and_true]
      intro children' hc' c hcm
      subst hc'
      rcases List.mem_append.mp hcm with hm | hm
      · exact (hord p).1 children hc c hm
      · simp only [List.mem_singleton] at hm
        rw [hm]
        exact hpn
    · simp only [List.getElem?_set_ne hq]
      exact hord q
  · refine ⟨?_, by simp, rfl⟩
    intro q
    by_cases hq : p = q
    · subst hq
      have hplt : p < m.heap.length := by
        by_contra hcon
        rw [List.getElem?_eq_none (Nat.le_of_not_lt hcon)] at hc
        cases hc
      simp only [List.getElem?_set_self hplt, Option.some.injEq, Cell.of.injEq,
        Value.object.injEq, reduceCtorEq, false_implies, implies_true, true_and]
      intro members' hc' kc hcm
      subst hc'
      rcases mem_mapInsert _ _ _ _ hcm with hm | hm
      · exact (hord p).2 members hc kc hm
      · rw [hm]
        exact hpn
    · simp only [List.getElem?_set_ne hq]
      exact hord q

theorem addChildValue_valid (m m' : Machine) (v : Value Ptr) (hv : Valid m)
    (hl : ∀ children, v = .list children → children = [])
    (ho : ∀ members, v = .object members → members = [])
    (h : addChildValue m v = .ok m') :
    Valid m' ∧ m'.heap.length = m.heap.length + 1 ∧ m'.hierarchy = m.hierarchy := by
  obtain ⟨h1, h2, h3⟩ := addChildNode_valid (makeShared m (.of v)).1 m' _
    (Heap.Ordered_append m.heap hv.1 v hl ho) hv.2 h
  have hlen : m'.heap.length = m.heap.length + 1 := by
    rw [h2]
    simp [makeShared]
  refine ⟨⟨h1, ?_⟩, hlen, h3⟩
  intro p hp
  rw [h3] at hp
  have := hv.2 p hp
  rw [hlen]
  exact Nat.lt_succ_of_lt this

theorem openContainer_valid (m m' : Machine) (v : Value Ptr) (hv : Valid m)
    (hl : ∀ children, v = .list children → children = [])
    (ho : ∀ members, v = .object members → members = [])
    (h : openContainer m v = .ok m') : Valid m' := by
  unfold openContainer at h
  by_cases hs : m.lastState = .Start
  · rw [if_pos hs] at h
    simp only [Except.ok.injEq] at h
    subst h
    refine ⟨Heap.Ordered_append m.heap hv.1 v hl ho, ?_⟩
    intro p hp
    simp only [makeShared, List.mem_append, List.mem_singleton, List.length_append,
      List.length_singleton] at hp ⊢
    rcases hp with hp | hp
    · exact Nat.lt_succ_of_lt (hv.2 p hp)
    · omega
  · rw [if_neg hs] at h
    rcases ha : addChildNode (makeShared m (.of v)).1 (makeShared m (.of v)).2 with e | m1
    · rw [ha] at h
      cases h
    · rw [ha] at h
      simp only [Except.ok.injEq] at h
      subst h
      obtain ⟨h1, h2, h3⟩ := addChildNode_valid (makeShared m (.of v)).1 m1 _
        (Heap.Ordered_append m.heap hv.1 v hl ho) hv.2 ha
      refine ⟨h1, ?_⟩
      intro p hp
      have hlen : m1.heap.length = m.heap.length + 1 := by
        rw [h2]
        simp [makeShared]
      simp only [h3, makeShared, List.mem_append, List.mem_singleton] at hp
      show p < m1.heap.length
      rw [hlen]
      rcases hp with hp | hp
      · exact Nat.lt_succ_of_lt (hv.2 p hp)
      · omega

theorem Valid_start (self : Parser) : Valid (start self) := by
  constructor
  · intro p
    constructor
    · intro children hc
      match p, hc with
      | 0, hc => cases hc
      | 1, hc => cases hc
      | p + 2, hc => cases hc
    · intro members hc
      match p, hc with
      | 0, hc => cases hc
      | 1, hc => cases hc
      | p + 2, hc => cases hc
  · intro p hp
    simp only [start, List.mem_singleton] at hp
    subst hp
    simp [start]

theorem Valid_step (lib : StdLib) (m m' : Machine) (t : Token)
    (h : step lib m t = .ok m') (hv : Valid m) : Valid m' := by
  have hv0 : ∀ a b k, Valid { m with lastState := a, state := b, lastKey := k } :=
    fun _ _ _ => hv
  obtain ⟨value, type⟩ := t
  simp only [step, switchCase] at h
  cases type <;> dsimp only at h
  case ObjectOpen =>
    split at h
    · cases h
    · exact openContainer_valid _ _ _ (hv0 _ _ _) (by simp) (by simp) h
  case ListOpen =>
    split at h
    · cases h
    · exact openContainer_valid _ _ _ (hv0 _ _ _) (by simp) (by simp) h
  case ObjectClose =>
    split at h
    · cases h
    · split_ifs at h
      obtain ⟨rfl, -⟩ := popBack_frame _ _ h
      exact ⟨hv.1, fun p hp => hv.2 p (List.dropLast_subset _ hp)⟩
  case ListClose =>
    split at h
    · cases h
    · split_ifs at h
      obtain ⟨rfl, -⟩ := popBack_frame _ _ h
      exact ⟨hv.1, fun p hp => hv.2 p (List.dropLast_subset _ hp)⟩
  case Comma =>
    split at h
    · cases h
    · simp only [Except.ok.injEq] at h
      subst h
      exact hv
  case Colon =>
    split at h
    · cases h
    · simp only [Except.ok.injEq] at h
      subst h
      exact hv
  case End =>
    split at h
    · cases h
    · simp only [Except.ok.injEq] at h
      subst h
      exact hv
  case Boolean =>
    split at h
    · cases h
    · split_ifs at h
      all_goals exact (addChildValue_valid _ _ _ (hv0 _ _ _) (by simp) (by simp) h).1
  case Null =>
    split at h
    · cases h
    · exact (addChildValue_valid _ _ _ (hv0 _ _ _) (by simp) (by simp) h).1
  case Number =>
    split at h
    · cases h
    · split at h
      · cases h
      · split_ifs at h
        · split at h
          · cases h
          · exact (addChildValue_valid _ _ _ (hv0 _ _ _) (by simp) (by simp) h).1
        · exact (addChildValue_valid _ _ _ (hv0 _ _ _) (by simp) (by simp) h).1
  case String =>
    split_ifs at h
    · split at h
      · cases h
      · simp only [Except.ok.injEq] at h
        subst h
        exact hv
    · split at h
      · cases h
      · rename_i m1 ha
        split at h
        · cases h
        · simp only [Except.ok.injEq] at h
          subst h
          exact (addChildValue_valid _ _ _ (hv0 _ _ _) (by simp) (by simp) ha).1

theorem Valid_parseTokens (lib : StdLib) (m m' : Machine) (tokens : List Token)
    (h : parseTokens lib m tokens = .ok m') (hv : Valid m) : Valid m' := by
  induction tokens generalizing m with
  | nil =>
    simp only [parseTokens, Except.ok.injEq] at h
    subst h
    exact hv
  | cons t tokens ih =>
    obtain ⟨m1, hst, hrest⟩ := parseTokens_cons_ok lib m m' t tokens h
    exact ih m1 hrest (Valid_step lib m m1 t hst hv)

end Parser

/-! ## The claims -/

/-! ### C1: the rendering of a parsed tree is not always parsed again -/

/-- C1, at the file `[true]`: the file is parsed to a List that holds the Boolean true,
`toString` renders that tree with a new line between `true` and the closing bracket, and
on this text `parse` fails in the tokenizer, which reads the keyword up to the bracket. -/
theorem roundTrip_fails_on_list_true (self : Parser) (lib : StdLib) :
    Parser.parse self lib "[true]".toList = .ok (.of (.list [.of (.bool true)])) ∧
    Node.toString lib (.of (.list [.of (.bool true)])) 0 = "[\n  true\n]".toList ∧
    Parser.parse self lib "[\n  true\n]".toList =
      .error (.lexError (.misspelledBoolean "true\n".toList "true".toList)) :=
  ⟨rfl, rfl, rfl⟩

/-! ### C2: a list inside a list is refused -/

/-- C2, at the file `[[]]`, a text of the grammar of RFC 4627 (an array that holds an empty
array): `parse` fails at the second `[`, whose previous state `ListOpen` is not among
`Start` and `Colon`. -/
theorem parse_fails_on_nested_list (self : Parser) (lib : StdLib) :
    Parser.parse self lib "[[]]".toList =
      .error (.syntaxError (.illegalState .ListOpen .ListOpen ["Root".toList, "List".toList])) :=
  rfl

/-! ### C3: scenario A -/

theorem scenario_A_tokens (lib : StdLib) :
    Tokenizer.tokenize (lib.fix "1".toList (.finite 1))
        "\x7b\"a\":1,\"b\":[true,null,\"x\"]\x7d".toList =
      .ok ([⟨[], .ObjectOpen⟩, ⟨"a".toList, .String⟩, ⟨[], .Colon⟩, ⟨"1".toList, .Number⟩,
        ⟨[], .Comma⟩, ⟨"b".toList, .String⟩, ⟨[], .Colon⟩, ⟨[], .ListOpen⟩] ++
        [⟨"true".toList, .Boolean⟩, ⟨[], .Comma⟩, ⟨"null".toList, .Null⟩, ⟨[], .Comma⟩,
        ⟨"x".toList, .String⟩, ⟨[], .ListClose⟩, ⟨[], .ObjectClose⟩, ⟨[], .End⟩]) :=
  rfl

theorem scenario_A_first_half (self : Parser) (lib : StdLib) :
    Parser.parseTokens (lib.fix "1".toList (.finite 1)) (Parser.start self)
        [⟨[], .ObjectOpen⟩, ⟨"a".toList, .String⟩, ⟨[], .Colon⟩, ⟨"1".toList, .Number⟩,
        ⟨[], .Comma⟩, ⟨"b".toList, .String⟩, ⟨[], .Colon⟩, ⟨[], .ListOpen⟩] =
      .ok ⟨⟨[0, 2, 4], .Colon, .ListOpen, "b".toList⟩,
        [.root, .root, .of (.object [("a".toList, 3), ("b".toList, 4)]), .of (.int 1),
          .of (.list [])], 2⟩ :=
  rfl

theorem scenario_A_second_half (lib : StdLib) :
    (match Parser.parseTokens lib ⟨⟨[0, 2, 4], .Colon, .ListOpen, "b".toList⟩,
        [.root, .root, .of (.object [("a".toList, 3), ("b".toList, 4)]), .of (.int 1),
          .of (.list [])], 2⟩
        [⟨"true".toList, .Boolean⟩, ⟨[], .Comma⟩, ⟨"null".toList, .Null⟩, ⟨[], .Comma⟩,
        ⟨"x".toList, .String⟩, ⟨[], .ListClose⟩, ⟨[], .ObjectClose⟩, ⟨[], .End⟩] with
      | .error e => .error e
      | .ok m => .ok (Parser.result m)) =
      (.ok (.of (.object [("a".toList, .of (.int 1)),
        ("b".toList, .of (.list [.of (.bool true), .of .null, .of (.string "x".toList)]))])) :
        Except Failure Node) :=
  rfl

/-- C3 (scenario A): with a library that reads `1` as the number one, the file
`{"a":1,"b":[true,null,"x"]}` is parsed to an Object with the two members `a`, the integer
1, and `b`, the List of Boolean true, Null and String `x` in this order; `toString` renders
`a` before `b`. -/
theorem scenario_A (self : Parser) (lib : StdLib)
    (h : lib.stod "1".toList = some (.finite 1)) :
    Parser.parse self lib "\x7b\"a\":1,\"b\":[true,null,\"x\"]\x7d".toList =
      .ok (.of (.object [("a".toList, .of (.int 1)),
        ("b".toList, .of (.list [.of (.bool true), .of .null, .of (.string "x".toList)]))])) ∧
    Node.toString lib (.of (.object [("a".toList, .of (.int 1)),
        ("b".toList, .of (.list [.of (.bool true), .of .null, .of (.string "x".toList)]))])) 0 =
      "\x7b\n  \"a\": 1,\n  \"b\": [\n    true,\n    null,\n    \"x\"\n  ]\n\x7d".toList := by
  refine ⟨?_, rfl⟩
  rw [← StdLib.fix_eq lib _ _ h]
  unfold Parser.parse
  rw [scenario_A_tokens]
  simp only []
  rw [Parser.parseTokens_append_ok _ _ _ _ _ (scenario_A_first_half self lib)]
  exact scenario_A_second_half (lib.fix "1".toList (.finite 1))

/-- The theorem `scenario_A` at the library `refLib`, which reads `1` as the number one. -/
theorem scenario_A_witness :
    refLib.stod "1".toList = some (.finite 1) ∧
    Parser.parse .new refLib "\x7b\"a\":1,\"b\":[true,null,\"x\"]\x7d".toList =
      .ok (.of (.object [("a".toList, .of (.int 1)),
        ("b".toList, .of (.list [.of (.bool true), .of .null, .of (.string "x".toList)]))])) :=
  ⟨rfl, (scenario_A .new refLib rfl).1⟩

/-! ### C4: a byte 255 in the file gives an End token before the end -/

/-- C4, at the file that holds the one byte 255: `getNextNonWhiteSpaceCharacter` returns the
byte as the `char` `-1` while the stream is still good, `getToken` takes it for the end of
the file, and the loop goes on: `tokenize` returns two End tokens. -/
theorem tokenize_byte_255 (lib : StdLib) :
    Tokenizer.tokenize lib [Char.ofNat 255] = .ok [⟨[], .End⟩, ⟨[], .End⟩] :=
  rfl

/-- The tokens that `tokenize` returns end with an End token, and no other token is an End
token when the byte 255 does not occur in the file. -/
theorem tokenize_ends_with_End (lib : StdLib) (file : List Char) (tokens : List Token)
    (h : Tokenizer.tokenize lib file = .ok tokens) :
    ∃ init, tokens = init ++ [⟨[], .End⟩] ∧
      (Tokenizer.EOFchar ∉ file → ∀ t ∈ init, t.type ≠ .End) :=
  Tokenizer.tokenizeLoop_shape lib _ file tokens h

/-- The theorem `tokenize_ends_with_End` at the file `[true]`. -/
theorem tokenize_ends_with_End_witness :
    Tokenizer.tokenize refLib "[true]".toList =
      .ok [⟨[], .ListOpen⟩, ⟨"true".toList, .Boolean⟩, ⟨[], .ListClose⟩, ⟨[], .End⟩] ∧
    ∃ init, [⟨[], .ListOpen⟩, ⟨"true".toList, .Boolean⟩, ⟨[], .ListClose⟩, ⟨[], .End⟩] =
        init ++ [(⟨[], .End⟩ : Token)] ∧
      (Tokenizer.EOFchar ∉ "[true]".toList → ∀ t ∈ init, t.type ≠ .End) :=
  ⟨rfl, tokenize_ends_with_End refLib "[true]".toList _ rfl⟩

/-- A call of `tokenize` returns the tokens or throws a `Tokenizer::Exception`: the loop
ends within the bound of the model. -/
theorem tokenize_returns_or_throws (lib : StdLib) (file : List Char) :
    (∃ tokens, Tokenizer.tokenize lib file = .ok tokens) ∨
      (∃ e, Tokenizer.tokenize lib file = .error (.lexError e)) := by
  rcases h : Tokenizer.tokenize lib file with e | tokens
  · right
    rcases Tokenizer.tokenizeLoop_error lib _ file e h with rfl | ⟨l, rfl⟩
    · exact absurd h (Tokenizer.tokenize_fuel lib file)
    · exact ⟨l, rfl⟩
  · exact Or.inl ⟨tokens, rfl⟩

/-! ### C5: what may follow the close of the outermost container -/

/-- C5 as amended. (1) When `parse` succeeds on tokens that end with an End token, the End
token is the only token (the empty document), or the first token is `{` or `[` and the token
before the End token is `}` or `]`. (2) When the parser has processed the tokens `pre`, the
outermost container is closed (`hierarchy` holds the node made by `Node()` alone, the state
is `ObjectClose` or `ListClose`) and the next token `t` is neither End nor `}` nor `]`, then
`parse` fails whatever follows, provided a token follows: with a `Parser::Exception`, unless
`t` is a comma and the token after it a Number, whose conversion comes before the
attachment that throws. -/
theorem document_completion (self : Parser) (lib : StdLib) :
    (∀ (pre : List Token) (e : Token) (m : Machine), e.type = .End →
      Parser.parseTokens lib (Parser.start self) (pre ++ [e]) = .ok m →
      pre = [] ∨
        ((∃ first rest, pre = first :: rest ∧
            (first.type = .ObjectOpen ∨ first.type = .ListOpen)) ∧
          (∃ init last, pre = init ++ [last] ∧
            (last.type = .ObjectClose ∨ last.type = .ListClose)))) ∧
    (∀ (pre rest : List Token) (t e : Token) (m : Machine),
      Parser.parseTokens lib (Parser.start self) pre = .ok m →
      m.hierarchy.length = 1 → (m.state = .ObjectClose ∨ m.state = .ListClose) →
      t.type ≠ .End → t.type ≠ .ObjectClose → t.type ≠ .ListClose →
      ∃ f, Parser.parseTokens lib (Parser.start self) (pre ++ t :: (rest ++ [e])) = .error f ∧
        ((∃ s, f = .syntaxError s) ∨
          (t.type = .Comma ∧ (rest ++ [e]).head?.map Token.type = some .Number))) := by
  constructor
  · intro pre e m he h
    obtain ⟨m1, hpre, hend⟩ := Parser.parseTokens_append_inv lib _ _ pre [e] h
    obtain ⟨m2, hstep, -⟩ := Parser.parseTokens_cons_ok lib _ _ _ _ hend
    have hallowed := (Parser.step_frame lib m1 m2 e hstep).1
    rw [he] at hallowed
    simp only [Parser.allowedStates, List.mem_cons, List.mem_singleton, List.not_mem_nil,
      or_false] at hallowed
    rcases List.eq_nil_or_concat pre with hnil | ⟨init, last, hpre'⟩
    · exact Or.inl hnil
    rw [List.concat_eq_append] at hpre'
    right
    constructor
    · cases pre with
      | nil => simp at hpre'
      | cons first rest =>
        refine ⟨first, rest, rfl, ?_⟩
        obtain ⟨ma, hfirst, hrest⟩ := Parser.parseTokens_cons_ok lib _ _ _ _ hpre
        obtain ⟨hal, -, hafter, -, -⟩ := Parser.step_frame lib _ _ _ hfirst
        rcases Parser.Start_allowed _ hal with h1 | h1 | h1
        · exact Or.inl h1
        · exact Or.inr h1
        · exfalso
          rw [h1] at hafter
          simp only [Parser.StateAfter] at hafter
          cases rest with
          | nil =>
            simp only [Parser.parseTokens, Except.ok.injEq] at hrest
            subst hrest
            rw [hafter] at hallowed
            simp at hallowed
          | cons u rest =>
            obtain ⟨mb, hu, -⟩ := Parser.parseTokens_cons_ok lib _ _ _ _ hrest
            have := (Parser.step_frame lib _ _ _ hu).1
            rw [hafter] at this
            exact Parser.End_not_allowed _ this
    · refine ⟨init, last, hpre', ?_⟩
      rw [hpre'] at hpre
      obtain ⟨m0, -, hlast⟩ := Parser.parseTokens_append_inv lib _ _ init [last] hpre
      obtain ⟨m1', hstep', hnil⟩ := Parser.parseTokens_cons_ok lib _ _ _ _ hlast
      simp only [Parser.parseTokens, Except.ok.injEq] at hnil
      subst hnil
      obtain ⟨-, -, hafter, -, -⟩ := Parser.step_frame lib _ _ _ hstep'
      have hne := Parser.StateAfter_ne_Start _ _ hafter
      have hclose : m1'.state = .ObjectClose ∨ m1'.state = .ListClose := by
        rcases hallowed with h1 | h1 | h1
        · exact absurd h1 hne
        · exact Or.inr h1
        · exact Or.inl h1
      exact Parser.StateAfter_close _ _ hafter hclose
  · intro pre rest t e m hpre hlen hstate hE hOC hLC
    have hsent := Parser.Sentinel_parseTokens lib _ _ _ hpre (Parser.Sentinel_start self)
    obtain ⟨hg, hl, ho⟩ := Parser.at_sentinel m hsent hlen
    have h0 := hsent.1
    have hne : m.hierarchy ≠ [] := by
      intro hnil
      rw [hnil] at hlen
      cases hlen
    rw [Parser.parseTokens_append_ok lib _ _ _ _ hpre]
    by_cases hs : t.type = .String
    · exact ⟨_, Parser.parseTokens_cons_error lib m t _ _
        (Parser.step_string_elsewhere lib m t hs hl ho), Or.inl ⟨_, rfl⟩⟩
    by_cases hc : t.type = .Comma
    · have hstep : Parser.step lib m t =
          .ok { m with lastState := m.state, state := .Comma } := by
        simp only [Parser.step, Parser.switchCase, hc]
        rw [Parser.requirePreviousState_of_mem
          { m with lastState := m.state, state := .Comma } _
          (by rcases hstate with h | h <;> simp [h])]
      cases hR : rest ++ [e] with
      | nil => simp at hR
      | cons u R =>
        obtain ⟨f, hf, hkind⟩ := Parser.step_after_stray_comma lib
          { m with lastState := m.state, state := .Comma } u hg h0 rfl
        refine ⟨f, ?_, ?_⟩
        · simp only [Parser.parseTokens, hstep, hf]
        · by_cases hnum : u.type = .Number
          · exact Or.inr ⟨hc, by simp [hnum]⟩
          · exact Or.inl (hkind hnum)
    · have hna : m.state ∉ Parser.allowedStates t.type := by
        obtain ⟨value, type⟩ := t
        cases type <;> rcases hstate with h | h <;>
          simp [Parser.allowedStates, h] at hs hc hE hOC hLC ⊢
      obtain ⟨s, hstep⟩ := Parser.step_of_not_allowed lib m t hs hne hna
      exact ⟨_, Parser.parseTokens_cons_error lib m t _ _ hstep, Or.inl ⟨s, rfl⟩⟩

/-- The second part of `document_completion` at the tokens of `[][`: after `[` and `]` the
outermost container is closed, and the `[` that follows makes `parse` fail. -/
theorem document_completion_witness :
    ∃ f, Parser.parseTokens refLib (Parser.start .new)
        ([(⟨[], .ListOpen⟩ : Token), ⟨[], .ListClose⟩] ++
          (⟨[], .ListOpen⟩ : Token) :: ([] ++ [(⟨[], .End⟩ : Token)])) = .error f ∧
      ((∃ s, f = .syntaxError s) ∨
        ((⟨[], .ListOpen⟩ : Token).type = .Comma ∧
          (([] : List Token) ++ [(⟨[], .End⟩ : Token)]).head?.map Token.type =
            some .Number)) :=
  (document_completion .new refLib).2 [⟨[], .ListOpen⟩, ⟨[], .ListClose⟩] []
    ⟨[], .ListOpen⟩ ⟨[], .End⟩
    ⟨⟨[0], .ListOpen, .ListClose, []⟩, [.root, .root, .of (.list [])], 2⟩
    rfl rfl (Or.inr rfl) (by simp) (by simp) (by simp)

/-- C5 as stated fails. `parse` succeeds on the empty file, whose tokens hold no value
before the End token, and returns the node made by `Node()`; it succeeds on `{}}`, where a
`}` stands between the `}` that closes the outermost Object and the End token; and it
succeeds on `{"a":[]`, whose outermost Object is not closed. -/
theorem document_completion_counterexample :
    Parser.parse .new refLib [] = .ok .root ∧
    Parser.parse .new refLib "\x7b\x7d\x7d".toList = .ok (.of (.object [])) ∧
    Parser.parse .new refLib "\x7b\"a\":[]".toList =
      .ok (.of (.object [("a".toList, .of (.list []))])) :=
  ⟨rfl, rfl, rfl⟩

/-! ### C6: a closing bracket of the wrong kind -/

/-- C6 (bracket matching): when the parser has processed the tokens `pre` and the next token
`t` is a `}` while the innermost node of `hierarchy` is a List, or a `]` while it is an
Object, then the step on `t` fails with a `Parser::Exception`, so nothing is popped; the
loop of `parse` over `pre`, `t` and whatever follows fails with that exception; and `parse`
fails with it on every file that has these tokens, and returns no tree. -/
theorem bracket_mismatch (self : Parser) (lib : StdLib) (pre rest : List Token) (t : Token)
    (m : Machine) (hpre : Parser.parseTokens lib (Parser.start self) pre = .ok m)
    (h : (t.type = .ObjectClose ∧ Parser.currentlyInAList m = true) ∨
      (t.type = .ListClose ∧ Parser.currentlyInAnObject m = true)) :
    ∃ e, Parser.step lib m t = .error (.syntaxError e) ∧
      Parser.parseTokens lib (Parser.start self) (pre ++ t :: rest) =
        .error (.syntaxError e) ∧
      ∀ file, Tokenizer.tokenize lib file = .ok (pre ++ t :: rest) →
        Parser.parse self lib file = .error (.syntaxError e) := by
  obtain ⟨e, he⟩ := Parser.step_close_mismatch lib m t h
  have hloop : Parser.parseTokens lib (Parser.start self) (pre ++ t :: rest) =
      .error (.syntaxError e) := by
    rw [Parser.parseTokens_append_ok _ _ _ _ _ hpre]
    exact Parser.parseTokens_cons_error lib m t rest _ he
  refine ⟨e, he, hloop, ?_⟩
  intro file htokens
  simp only [Parser.parse, htokens, hloop]

/-- The theorem `bracket_mismatch` at the file `[true}`: after `[` and `true` the innermost
node is a List, and the `}` that follows makes `parse` fail with "Found wrong closing
bracket (object instead of list)". -/
theorem bracket_mismatch_witness :
    Parser.parse .new refLib "[true\x7d".toList = .error (.syntaxError .objectInsteadOfList) ∧
    ∃ e, Parser.step refLib
        ⟨⟨[0, 2], .ListOpen, .Value, []⟩, [.root, .root, .of (.list [3]), .of (.bool true)], 2⟩
        ⟨[], .ObjectClose⟩ = .error (.syntaxError e) ∧
      Parser.parseTokens refLib (Parser.start .new)
          ([⟨[], .ListOpen⟩, ⟨"true".toList, .Boolean⟩] ++
            (⟨[], .ObjectClose⟩ : Token) :: [⟨[], .End⟩]) = .error (.syntaxError e) ∧
      ∀ file, Tokenizer.tokenize refLib file =
          .ok ([⟨[], .ListOpen⟩, ⟨"true".toList, .Boolean⟩] ++
            (⟨[], .ObjectClose⟩ : Token) :: [⟨[], .End⟩]) →
        Parser.parse .new refLib file = .error (.syntaxError e) :=
  ⟨rfl, bracket_mismatch .new refLib
    [⟨[], .ListOpen⟩, ⟨"true".toList, .Boolean⟩] [⟨[], .End⟩] ⟨[], .ObjectClose⟩
    ⟨⟨[0, 2], .ListOpen, .Value, []⟩, [.root, .root, .of (.list [3]), .of (.bool true)], 2⟩
    rfl (Or.inl ⟨rfl, rfl⟩)⟩

/-! ### C7: scenario C -/

/-- C7 (scenario C), as amended: on the file `{]` `parse` fails with a `Parser::Exception`,
the one of the check of the previous state (`]` right after `{`: `ObjectOpen` is not among
the states allowed before `]`); the parser is in the state `ListClose`, the path of
`hierarchy` is Root, Object. -/
theorem scenario_C (self : Parser) (lib : StdLib) :
    Parser.parse self lib "\x7b]".toList =
      .error (.syntaxError
        (.illegalState .ObjectOpen .ListClose ["Root".toList, "Object".toList])) :=
  rfl

/-- C7 as stated fails: the failure on `{]` is not the one raised for closing an Object with
a list-close token ("Found wrong closing bracket (list instead of object)"). -/
theorem scenario_C_not_bracket_mismatch :
    Parser.parse .new refLib "\x7b]".toList ≠ .error (.syntaxError .listInsteadOfObject) := by
  have h : Parser.parse .new refLib "\x7b]".toList =
      .error (.syntaxError
        (.illegalState .ObjectOpen .ListClose ["Root".toList, "Object".toList])) := rfl
  rw [h]
  simp

/-! ### C8: the table of the allowed previous states -/

/-- C8, at the file `{}}{`: the second `}` pops the node made by `Node()`, `hierarchy` is
empty, and the `{` that follows, whose previous state `ObjectClose` is not among `Start`
and `Colon`, does not fail with a `Parser::Exception`: `getFullStateAsString`, called to
build the message, dereferences the null pointer that `getParentNode` returns. -/
theorem illegal_state_on_empty_hierarchy (self : Parser) (lib : StdLib) :
    Parser.parseTokens lib (Parser.start self)
        [⟨[], .ObjectOpen⟩, ⟨[], .ObjectClose⟩, ⟨[], .ObjectClose⟩] =
      .ok ⟨⟨[], .ObjectClose, .ObjectClose, self.lastKey⟩,
        [.root, .root, .of (.object [])], 2⟩ ∧
    Parser.parse self lib "\x7b\x7d\x7d\x7b".toList = .error .undefinedBehaviour :=
  ⟨rfl, rfl⟩

/-- The table of C8 where `hierarchy` is not empty. For a token that is not a String and
every state of the parser with a node in `hierarchy`: the step fails with a
`Parser::Exception` when the state before the token is not among the states allowed for the
token; a step that succeeds has passed the check; the check passes exactly when the state
is among them; and the states allowed are those of the table. -/
theorem transition_table (lib : StdLib) (m : Machine) (token : Token)
    (htype : token.type ≠ .String) (hne : m.hierarchy ≠ []) :
    (m.state ∉ Parser.allowedStates token.type →
      ∃ e, Parser.step lib m token = .error (.syntaxError e)) ∧
    (∀ m', Parser.step lib m token = .ok m' → m.state ∈ Parser.allowedStates token.type) ∧
    (∀ s, Parser.checkPreviousState { m with lastState := m.state, state := s }
        (Parser.allowedStates token.type) = true ↔
      m.state ∈ Parser.allowedStates token.type) ∧
    (Parser.allowedStates .ObjectOpen = [.Start, .Colon] ∧
      Parser.allowedStates .ListOpen = [.Start, .Colon] ∧
      Parser.allowedStates .ObjectClose = [.Value, .ObjectOpen, .ObjectClose, .ListClose] ∧
      Parser.allowedStates .ListClose = [.Value, .ListOpen, .ListClose, .ObjectClose] ∧
      Parser.allowedStates .Comma = [.Value, .ListClose, .ObjectClose] ∧
      Parser.allowedStates .Colon = [.Key] ∧
      Parser.allowedStates .Boolean = [.Colon, .Comma, .ListOpen] ∧
      Parser.allowedStates .Number = [.Colon, .Comma, .ListOpen] ∧
      Parser.allowedStates .Null = [.Colon, .Comma, .ListOpen] ∧
      Parser.allowedStates .End = [.Start, .ListClose, .ObjectClose]) :=
  ⟨Parser.step_of_not_allowed lib m token htype hne,
    fun m' h => (Parser.step_frame lib m m' token h).1,
    fun _ => by simp [Parser.checkPreviousState],
    rfl, rfl, rfl, rfl, rfl, rfl, rfl, rfl, rfl, rfl⟩

/-- The theorem `transition_table` at the state after `[` and the token `:`, which is
allowed after a key alone. -/
theorem transition_table_witness :
    ∃ e, Parser.step refLib
        ⟨⟨[0, 2], .Start, .ListOpen, []⟩, [.root, .root, .of (.list [])], 2⟩ ⟨[], .Colon⟩ =
      .error (.syntaxError e) :=
  (transition_table refLib
    ⟨⟨[0, 2], .Start, .ListOpen, []⟩, [.root, .root, .of (.list [])], 2⟩ ⟨[], .Colon⟩
    (by simp) (by simp)).1 (by simp [Parser.allowedStates])

/-! ### C9: String tokens -/

/-- C9 as amended. For a String token and every state of the parser, with `m.state` the
state before the token:
* when the innermost node is an Object and the state is `ObjectOpen` or `Comma`, the token
  is a key: the state becomes `Key`, `lastKey` becomes the lexeme, the store and `hierarchy`
  stay as they are;
* when the innermost node is a List and the state is `ListOpen` or `Comma`, the token is a
  value: the state becomes `Value`, one String node with the lexeme is made and appended to
  the children of the List;
* when the innermost node is an Object and the state is `Colon`, the token is a value: the
  state becomes `Value`, one String node with the lexeme is made and `map.insert` is called
  on the Object with `lastKey` and the node (which leaves the Object as it is when it has
  that key);
* in every other case the step fails with the `Parser::Exception` "Wrong order of tokens";
* the innermost node is not a List and an Object at once, so the cases exclude each other. -/
theorem string_token (lib : StdLib) (m : Machine) (token : Token)
    (htype : token.type = .String) :
    ((Parser.currentlyInAnObject m = true ∧ (m.state = .ObjectOpen ∨ m.state = .Comma)) →
      Parser.step lib m token =
        .ok { m with lastState := m.state, state := .Key, lastKey := token.value }) ∧
    ((Parser.currentlyInAList m = true ∧ (m.state = .ListOpen ∨ m.state = .Comma)) →
      ∃ p children, m.hierarchy.getLast? = some p ∧
        m.heap[p]? = some (.of (.list children)) ∧
        Parser.step lib m token =
          .ok { m with
            lastState := m.state
            state := .Value
            heap := (m.heap ++ [Cell.of (.string token.value)]).set p
              (.of (.list (children ++ [m.heap.length]))) }) ∧
    ((Parser.currentlyInAnObject m = true ∧ m.state = .Colon) →
      ∃ p members, m.hierarchy.getLast? = some p ∧
        m.heap[p]? = some (.of (.object members)) ∧
        Parser.step lib m token =
          .ok { m with
            lastState := m.state
            state := .Value
            heap := (m.heap ++ [Cell.of (.string token.value)]).set p
              (.of (.object (mapInsert m.lastKey m.heap.length members))) }) ∧
    (¬(Parser.currentlyInAnObject m = true ∧ (m.state = .ObjectOpen ∨ m.state = .Comma)) →
      ¬(Parser.currentlyInAList m = true ∧ (m.state = .ListOpen ∨ m.state = .Comma)) →
      ¬(Parser.currentlyInAnObject m = true ∧ m.state = .Colon) →
      Parser.step lib m token = .error (.syntaxError .wrongOrderOfTokens)) ∧
    ¬(Parser.currentlyInAList m = true ∧ Parser.currentlyInAnObject m = true) := by
  have hO : ∀ a b, Parser.currentlyInAnObject { m with lastState := a, state := b } =
      Parser.currentlyInAnObject m := fun _ _ => rfl
  have hL : ∀ a b, Parser.currentlyInAList { m with lastState := a, state := b } =
      Parser.currentlyInAList m := fun _ _ => rfl
  refine ⟨?_, ?_, ?_, ?_, ?_⟩
  · rintro ⟨hin, hs⟩
    have hmem : m.state ∈ [State.ObjectOpen, .Comma] := by
      rcases hs with h | h <;> simp [h]
    have hmem' : m.state ∈ [State.ObjectOpen, .ListOpen, .Colon, .Comma] := by
      rcases hs with h | h <;> simp [h]
    simp only [Parser.step, Parser.switchCase, htype, Parser.checkPreviousState, hO, hin,
      hmem, decide_True, Bool.and_self, if_true]
    rw [Parser.requirePreviousState_of_mem
      { m with lastState := m.state, state := .Key, lastKey := token.value } _ hmem']
  · rintro ⟨hin, hs⟩
    obtain ⟨p, children, hp, hc⟩ := (Parser.currentlyInAList_iff m).mp hin
    refine ⟨p, children, hp, hc, ?_⟩
    have hnO : Parser.currentlyInAnObject m = false := by
      cases h : Parser.currentlyInAnObject m with
      | false => rfl
      | true => rw [Parser.not_inAList_of_inAnObject m h] at hin; cases hin
    have hmem : m.state ∈ [State.ListOpen, .Comma] := by
      rcases hs with h | h <;> simp [h]
    have hmem' : m.state ∈ [State.ObjectOpen, .ListOpen, .Colon, .Comma] := by
      rcases hs with h | h <;> simp [h]
    simp only [Parser.step, Parser.switchCase, htype, Parser.checkPreviousState, hO, hL, hin,
      hnO, hmem, decide_True, Bool.and_false, Bool.and_self, Bool.and_true, Bool.true_or,
      if_true, Bool.false_eq_true, if_false]
    rw [Parser.addChildValue_inAList { m with lastState := m.state, state := .Value }
      _ p children hp hc]
    simp only []
    rw [Parser.requirePreviousState_of_mem _ _ hmem']
  · rintro ⟨hin, hs⟩
    obtain ⟨p, members, hp, hc⟩ := (Parser.currentlyInAnObject_iff m).mp hin
    refine ⟨p, members, hp, hc, ?_⟩
    have hnL := Parser.not_inAList_of_inAnObject m hin
    have hmem' : m.state ∈ [State.ObjectOpen, .ListOpen, .Colon, .Comma] := by simp [hs]
    simp only [Parser.step, Parser.switchCase, htype, Parser.checkPreviousState, hO, hL, hin,
      hnL, hs]
    simp only [List.mem_cons, List.mem_singleton, List.not_mem_nil, or_false, reduceCtorEq,
      or_self, decide_False, decide_True, Bool.and_true, Bool.false_and, Bool.and_false,
      Bool.or_true, Bool.false_eq_true, if_false, if_true, Bool.or_false, Bool.and_self,
      Bool.false_or, hO, hin]
    rw [Parser.addChildValue_inAnObject { m with lastState := .Colon, state := .Value }
      _ p members hp hc]
    simp only []
    rw [Parser.requirePreviousState_of_mem _ _ (by simp)]
  · intro h1 h2 h3
    have c1 : (decide (m.state ∈ [State.ObjectOpen, .Comma]) &&
        Parser.currentlyInAnObject m) = false := by
      rw [Bool.and_eq_false_iff]
      by_cases ho : Parser.currentlyInAnObject m = true
      · left
        simp only [decide_eq_false_iff_not, List.mem_cons, List.mem_singleton,
          List.not_mem_nil, or_false]
        exact fun hs => h1 ⟨ho, hs⟩
      · right
        simpa using ho
    have c2 : (decide (m.state ∈ [State.ListOpen, .Comma]) &&
        Parser.currentlyInAList m) = false := by
      rw [Bool.and_eq_false_iff]
      by_cases hl : Parser.currentlyInAList m = true
      · left
        simp only [decide_eq_false_iff_not, List.mem_cons, List.mem_singleton,
          List.not_mem_nil, or_false]
        exact fun hs => h2 ⟨hl, hs⟩
      · right
        simpa using hl
    have c3 : (decide (m.state ∈ [State.Colon]) && Parser.currentlyInAnObject m) = false := by
      rw [Bool.and_eq_false_iff]
      by_cases ho : Parser.currentlyInAnObject m = true
      · left
        simp only [decide_eq_false_iff_not, List.mem_singleton]
        exact fun hs => h3 ⟨ho, hs⟩
      · right
        simpa using ho
    simp only [Parser.step, Parser.switchCase, htype, Parser.checkPreviousState, hO, hL, c1,
      c2, c3, Bool.or_self, Bool.false_eq_true, if_false]
  · rintro ⟨hl, ho⟩
    rw [Parser.not_inAList_of_inAnObject m ho] at hl
    cases hl

/-- The theorem `string_token` at the state after `{` and the String token `k`, a key. -/
theorem string_token_witness :
    Parser.step refLib
        ⟨⟨[0, 2], .Start, .ObjectOpen, []⟩, [.root, .root, .of (.object [])], 2⟩
        ⟨"k".toList, .String⟩ =
      .ok ⟨⟨[0, 2], .ObjectOpen, .Key, "k".toList⟩, [.root, .root, .of (.object [])], 2⟩ :=
  (string_token refLib
    ⟨⟨[0, 2], .Start, .ObjectOpen, []⟩, [.root, .root, .of (.object [])], 2⟩
    ⟨"k".toList, .String⟩ rfl).1 ⟨rfl, Or.inl rfl⟩

/-- C9 as stated fails. After the tokens of `{"a":"x","a":` the innermost node is an Object
and the state is `Colon`; the String token `y` is a value, the state becomes `Value` and a
String node is made (the last node of the store), but no container holds it: the Object has
the key `a` and stays as it is, and `parse` returns an Object whose only member is `x`. -/
theorem string_value_not_attached :
    Parser.parseTokens refLib (Parser.start .new)
        [⟨[], .ObjectOpen⟩, ⟨"a".toList, .String⟩, ⟨[], .Colon⟩, ⟨"x".toList, .String⟩,
          ⟨[], .Comma⟩, ⟨"a".toList, .String⟩, ⟨[], .Colon⟩] =
      .ok ⟨⟨[0, 2], .Key, .Colon, "a".toList⟩,
        [.root, .root, .of (.object [("a".toList, 3)]), .of (.string "x".toList)], 2⟩ ∧
    Parser.currentlyInAnObject
        ⟨⟨[0, 2], .Key, .Colon, "a".toList⟩,
          [.root, .root, .of (.object [("a".toList, 3)]), .of (.string "x".toList)], 2⟩ =
      true ∧
    Parser.step refLib
        ⟨⟨[0, 2], .Key, .Colon, "a".toList⟩,
          [.root, .root, .of (.object [("a".toList, 3)]), .of (.string "x".toList)], 2⟩
        ⟨"y".toList, .String⟩ =
      .ok ⟨⟨[0, 2], .Colon, .Value, "a".toList⟩,
        [.root, .root, .of (.object [("a".toList, 3)]), .of (.string "x".toList),
          .of (.string "y".toList)], 2⟩ ∧
    Parser.parse .new refLib "\x7b\"a\":\"x\",\"a\":\"y\"\x7d".toList =
      .ok (.of (.object [("a".toList, .of (.string "x".toList))])) :=
  ⟨rfl, rfl, rfl, rfl⟩

/-! ### C10: Number tokens -/

/-- C10 as amended. For a Number token on which the step of the parser succeeds,
`std::stod` has read a number from the lexeme, and
* when that number is finite with a zero fractional part, it is a value of `int`, that is
  between `INT_MIN` and `INT_MAX` (32 bits), and the node made for the token and handed to
  `addChildNode` is of the integer kind and holds that value;
* when that number is finite with a fractional part other than zero, the node made for the
  token and handed to `addChildNode` is of the real kind and holds the number. -/
theorem number_token (lib : StdLib) (m m' : Machine) (token : Token)
    (htype : token.type = .Number) (h : Parser.step lib m token = .ok m') :
    ∃ number, lib.stod token.value = some number ∧
      (∀ q, number = .finite q → Int.fract q = 0 →
        ∃ i : Int, (i : ℚ) = q ∧ INT_MIN ≤ i ∧ i ≤ INT_MAX ∧
          Parser.addChildValue { m with lastState := m.state, state := .Value } (.int i) =
            .ok m' ∧
          m'.heap[m.heap.length]? = some (.of (.int i))) ∧
      (∀ q, number = .finite q → Int.fract q ≠ 0 →
        Parser.addChildValue { m with lastState := m.state, state := .Value }
            (.double number) = .ok m' ∧
          m'.heap[m.heap.length]? = some (.of (.double number))) := by
  simp only [Parser.step, Parser.switchCase, htype] at h
  rcases hreq : Parser.requirePreviousState
      { m with lastState := m.state, state := .Value } [.Colon, .Comma, .ListOpen] with e | u
  · rw [hreq] at h
    cases h
  rw [hreq] at h
  dsimp only at h
  rcases hst : lib.stod token.value with _ | number
  · rw [hst] at h
    cases h
  rw [hst] at h
  dsimp only at h
  refine ⟨number, rfl, ?_, ?_⟩
  · intro q hq hfr
    subst hq
    have hz : Double.modfIsZero (.finite q) = true := (Double.modfIsZero_finite q).mpr hfr
    rw [hz] at h
    simp only [if_true] at h
    rcases hti : Double.toInt (.finite q) with _ | i
    · rw [hti] at h
      cases h
    rw [hti] at h
    dsimp only at h
    have hden : q.den = 1 := (Double.den_eq_one_iff_fract q).mpr hfr
    obtain ⟨hi, hlo, hhi⟩ := Double.toInt_finite_of_den q i hden hti
    refine ⟨i, ?_, hlo, hhi, h, ?_⟩
    · rw [hi]
      exact (Rat.den_eq_one_iff q).mp hden
    · exact Parser.addChildValue_created
        { m with lastState := m.state, state := .Value } _ _ (by simp) (by simp) h
  · intro q hq hfr
    subst hq
    have hz : Double.modfIsZero (.finite q) = false := by
      cases hb : Double.modfIsZero (.finite q) with
      | false => rfl
      | true => exact absurd ((Double.modfIsZero_finite q).mp hb) hfr
    rw [hz] at h
    simp only [Bool.false_eq_true, if_false] at h
    exact ⟨h, Parser.addChildValue_created
      { m with lastState := m.state, state := .Value } _ _ (by simp) (by simp) h⟩

/-- The theorem `number_token` at the state after `[` and the Number token `3`. -/
theorem number_token_witness :
    ∃ number, refLib.stod "3".toList = some number ∧
      (∀ q, number = .finite q → Int.fract q = 0 →
        ∃ i : Int, (i : ℚ) = q ∧ INT_MIN ≤ i ∧ i ≤ INT_MAX ∧
          Parser.addChildValue
              ⟨⟨[0, 2], .ListOpen, .Value, []⟩, [.root, .root, .of (.list [])], 2⟩ (.int i) =
            .ok ⟨⟨[0, 2], .ListOpen, .Value, []⟩,
              [.root, .root, .of (.list [3]), .of (.int 3)], 2⟩ ∧
          ([.root, .root, .of (.list [3]), .of (.int 3)] : Heap)[3]? = some (.of (.int i))) ∧
      (∀ q, number = .finite q → Int.fract q ≠ 0 →
        Parser.addChildValue
            ⟨⟨[0, 2], .ListOpen, .Value, []⟩, [.root, .root, .of (.list [])], 2⟩
            (.double number) =
          .ok ⟨⟨[0, 2], .ListOpen, .Value, []⟩,
            [.root, .root, .of (.list [3]), .of (.int 3)], 2⟩ ∧
          ([.root, .root, .of (.list [3]), .of (.int 3)] : Heap)[3]? =
            some (.of (.double number))) :=
  number_token refLib
    ⟨⟨[0, 2], .Start, .ListOpen, []⟩, [.root, .root, .of (.list [])], 2⟩
    ⟨⟨[0, 2], .ListOpen, .Value, []⟩, [.root, .root, .of (.list [3]), .of (.int 3)], 2⟩
    ⟨"3".toList, .Number⟩ rfl rfl

/-- The kinds of the numbers of `[3,3.0,-0.0,1.5]`, read with `refLib`: the first three have
a zero fractional part and are stored as the integers 3, 3 and 0, the last one is stored as
a real. -/
theorem number_kinds_example :
    Parser.parse .new refLib "[3,3.0,-0.0,1.5]".toList =
      .ok (.of (.list [.of (.int 3), .of (.int 3), .of (.int 0),
        .of (.double (.finite (mkRat 3 2)))])) :=
  rfl

/-- C10 as stated fails: the integer payload is an `int`, not 64 bits wide. The lexeme
`3000000000` denotes a number with a zero fractional part that fits in 64 bits and is
greater than `INT_MAX`; its conversion `(int)number` is undefined, and `parse` of
`[3000000000]` returns no List that holds the integer 3000000000. -/
theorem number_out_of_int_range :
    refLib.stod "3000000000".toList = some (.finite 3000000000) ∧
    Int.fract (3000000000 : ℚ) = 0 ∧ (3000000000 : Int) < 2 ^ 63 ∧
    INT_MAX < 3000000000 ∧
    Double.toInt (.finite 3000000000) = none ∧
    Parser.parse .new refLib "[3000000000]".toList = .error .undefinedBehaviour := by
  refine ⟨rfl, ?_, by norm_num, by decide, rfl, rfl⟩
  exact_mod_cast Int.fract_intCast (3000000000 : ℤ)

/-! ### The bound on the depth of the tree returned -/

/-- The bound on the depth in `Parser.result` is enough: for the parser after any tokens, the
node that `root` points to is read alike with every bound from the size of the store on. -/
theorem result_fuel (self : Parser) (lib : StdLib) (tokens : List Token) (m : Machine)
    (h : Parser.parseTokens lib (Parser.start self) tokens = .ok m) (fuel : Nat)
    (hfuel : m.heap.length ≤ fuel) :
    m.heap.readback fuel m.root = Parser.result m :=
  Heap.readback_stable m.heap
    (Parser.Valid_parseTokens lib _ m tokens h (Parser.Valid_start self)).1 _ _ _
    (by omega) (by simp)

/-- The theorem `result_fuel` at the tokens of `[true]` and twice the bound. -/
theorem result_fuel_witness :
    Heap.readback [.root, .root, .of (.list [3]), .of (.bool true)] 8 2 =
      Parser.result
        ⟨⟨[0], .ListClose, .End, []⟩, [.root, .root, .of (.list [3]), .of (.bool true)], 2⟩ :=
  result_fuel .new refLib
    [⟨[], .ListOpen⟩, ⟨"true".toList, .Boolean⟩, ⟨[], .ListClose⟩, ⟨[], .End⟩]
    ⟨⟨[0], .ListClose, .End, []⟩, [.root, .root, .of (.list [3]), .of (.bool true)], 2⟩
    rfl 8 (by decide)

/-! ## The tokenizer: what `getToken` reads from a text of a given shape -/

namespace Tokenizer

theorem getNext_whitespace (ws s : List Char)
    (hws : ∀ x ∈ ws, x = ' ' ∨ x = '\n' ∨ x = '\t') :
    getNextNonWhiteSpaceCharacter (ws ++ s) = getNextNonWhiteSpaceCharacter s := by
  induction ws with
  | nil => rfl
  | cons x ws ih =>
    have hx := hws x (List.mem_cons_self _ _)
    rw [List.cons_append, getNextNonWhiteSpaceCharacter, if_pos hx]
    exact ih (fun y hy => hws y (List.mem_cons_of_mem _ hy))

theorem getToken_whitespace (lib : StdLib) (ws s : List Char)
    (hws : ∀ x ∈ ws, x = ' ' ∨ x = '\n' ∨ x = '\t') :
    getToken lib (ws ++ s) = getToken lib s := by
  unfold getToken
  rw [getNext_whitespace ws s hws]

theorem getNext_cons (c : Char) (rest : List Char) (hc : ¬ (c = ' ' ∨ c = '\n' ∨ c = '\t')) :
    getNextNonWhiteSpaceCharacter (c :: rest) = (c, rest, false) := by
  rw [getNextNonWhiteSpaceCharacter, if_neg hc]

theorem getNext_inv (file : List Char) (c : Char) (u0 : List Char)
    (h : getNextNonWhiteSpaceCharacter file = (c, u0, false)) :
    ∃ ws, file = ws ++ c :: u0 ∧ (∀ x ∈ ws, x = ' ' ∨ x = '\n' ∨ x = '\t') ∧
      ¬ (c = ' ' ∨ c = '\n' ∨ c = '\t') := by
  induction file with
  | nil => simp [getNextNonWhiteSpaceCharacter] at h
  | cons x file ih =>
    by_cases hx : x = ' ' ∨ x = '\n' ∨ x = '\t'
    · rw [getNextNonWhiteSpaceCharacter, if_pos hx] at h
      obtain ⟨ws, hf, hws, hc⟩ := ih h
      refine ⟨x :: ws, by rw [hf]; rfl, ?_, hc⟩
      intro y hy
      rcases List.mem_cons.1 hy with rfl | hy
      · exact hx
      · exact hws y hy
    · rw [getNext_cons x file hx] at h
      simp only [Prod.mk.injEq, and_true] at h
      obtain ⟨rfl, rfl⟩ := h
      exact ⟨[], rfl, by simp, hx⟩

theorem readUntil_append (characters : Str) (inclusive : Bool) (lexeme : Str) (d : Char)
    (tail : List Char) (hl : ∀ x ∈ lexeme, x ∉ characters) (hd : d ∈ characters) :
    readUntil characters inclusive (lexeme ++ d :: tail) =
      .ok (lexeme, if inclusive then tail else d :: tail) := by
  induction lexeme with
  | nil => exact readUntil_cons_of_mem _ _ _ _ hd
  | cons x lexeme ih =>
    rw [List.cons_append, readUntil_cons_of_not_mem _ _ _ _ (hl x (List.mem_cons_self _ _)),
      ih (fun y hy => hl y (List.mem_cons_of_mem _ hy))]

theorem readUntil_none (characters : Str) (inclusive : Bool) (file : List Char)
    (h : ∀ x ∈ file, x ∉ characters) :
    readUntil characters inclusive file = .error (.lexError .noClosingCharacter) := by
  induction file with
  | nil => rfl
  | cons x file ih =>
    rw [readUntil_cons_of_not_mem _ _ _ _ (h x (List.mem_cons_self _ _)),
      ih (fun y hy => h y (List.mem_cons_of_mem _ hy))]

theorem readUntil_inv (characters : Str) (inclusive : Bool) (file : List Char) (value : Str)
    (unread : List Char) (h : readUntil characters inclusive file = .ok (value, unread)) :
    ∃ d tail, file = value ++ d :: tail ∧ d ∈ characters ∧ (∀ x ∈ value, x ∉ characters) ∧
      unread = if inclusive then tail else d :: tail := by
  induction file generalizing value with
  | nil => simp [readUntil] at h
  | cons c file ih =>
    by_cases hc : c ∈ characters
    · rw [readUntil_cons_of_mem _ _ _ _ hc] at h
      simp only [Except.ok.injEq, Prod.mk.injEq] at h
      obtain ⟨rfl, rfl⟩ := h
      exact ⟨c, file, rfl, hc, by simp, rfl⟩
    · rw [readUntil_cons_of_not_mem _ _ _ _ hc] at h
      rcases hr : readUntil characters inclusive file with e | ⟨v, u⟩
      · rw [hr] at h
        cases h
      · rw [hr] at h
        simp only [Except.ok.injEq, Prod.mk.injEq] at h
        obtain ⟨rfl, rfl⟩ := h
        obtain ⟨d, tail, hf, hd, hv, hu⟩ := ih v hr
        refine ⟨d, tail, by rw [hf]; rfl, hd, ?_, hu⟩
        intro x hx
        rcases List.mem_cons.1 hx with rfl | hx
        · exact hc
        · exact hv x hx

/-- The call of `getToken` on a text that starts with a character that is not skipped: the
chain of tests on that character. -/
theorem getToken_cons (lib : StdLib) (c : Char) (rest : List Char)
    (hc : ¬ (c = ' ' ∨ c = '\n' ∨ c = '\t')) :
    getToken lib (c :: rest) =
      if ('0' ≤ c ∧ c ≤ '9') ∨ c = '-' ∨ c = '.' then
        match readUntil [',', ']', '}'] false (c :: rest) with
        | .error e => .error e
        | .ok (value, unread) =>
          match lib.stod value with
          | none => .error (.lexError (.notANumber value))
          | some _ => .ok (⟨value, .Number⟩, unread, false)
      else if c = '"' then
        match readUntil ['"'] true rest with
        | .error e => .error e
        | .ok (value, unread) => .ok (⟨value, .String⟩, unread, false)
      else if c = 't' then
        match readUntil [',', ']', '}'] false (c :: rest) with
        | .error e => .error e
        | .ok (value, unread) =>
          if value ≠ ['t', 'r', 'u', 'e'] then
            .error (.lexError (.misspelledBoolean value ['t', 'r', 'u', 'e']))
          else .ok (⟨value, .Boolean⟩, unread, false)
      else if c = 'f' then
        match readUntil [',', ']', '}'] false (c :: rest) with
        | .error e => .error e
        | .ok (value, unread) =>
          if value ≠ ['f', 'a', 'l', 's', 'e'] then
            .error (.lexError (.misspelledBoolean value ['f', 'a', 'l', 's', 'e']))
          else .ok (⟨value, .Boolean⟩, unread, false)
      else if c = 'n' then
        match readUntil [',', ']', '}'] false (c :: rest) with
        | .error e => .error e
        | .ok (value, unread) =>
          if value ≠ ['n', 'u', 'l', 'l'] then .error (.lexError (.misspelledNull value))
          else .ok (⟨value, .Null⟩, unread, false)
      else if c = '{' then .ok (⟨[], .ObjectOpen⟩, rest, false)
      else if c = '}' then .ok (⟨[], .ObjectClose⟩, rest, false)
      else if c = '[' then .ok (⟨[], .ListOpen⟩, rest, false)
      else if c = ']' then .ok (⟨[], .ListClose⟩, rest, false)
      else if c = ',' then .ok (⟨[], .Comma⟩, rest, false)
      else if c = ':' then .ok (⟨[], .Colon⟩, rest, false)
      else if c = EOFchar then .ok (⟨[], .End⟩, rest, false)
      else .error (.lexError (.unknownStart c)) := by
  unfold getToken
  rw [getNext_cons c rest hc]

theorem not_whitespace_of_start (c : Char)
    (hc : (('0' ≤ c ∧ c ≤ '9') ∨ c = '-' ∨ c = '.') ∨ c = '"' ∨ c = 't' ∨ c = 'f' ∨ c = 'n') :
    ¬ (c = ' ' ∨ c = '\n' ∨ c = '\t') := by
  intro hw
  rcases hw with rfl | rfl | rfl <;> revert hc <;> decide

theorem tokenizeLoop_enough (lib : StdLib) (fuel1 fuel2 : Nat) (file : List Char)
    (h1 : file.length < fuel1) (h2 : file.length < fuel2) :
    tokenizeLoop lib fuel1 file = tokenizeLoop lib fuel2 file := by
  induction fuel1 generalizing fuel2 file with
  | zero => omega
  | succ fuel1 ih =>
    cases fuel2 with
    | zero => omega
    | succ fuel2 =>
      rw [tokenizeLoop_succ, tokenizeLoop_succ]
      rcases hg : getToken lib file with e | ⟨tok, unread, eof⟩
      · rfl
      · dsimp only
        cases eof with
        | true => rfl
        | false =>
          obtain ⟨-, -, h3⟩ := getToken_spec lib file tok unread false hg
          have hlt := (h3 rfl).1
          rw [ih fuel2 unread (by omega) (by omega)]

/-- A call of `getToken` that does not reach the end of the file is followed by the
tokenization of what it leaves unread. -/
theorem tokenize_next (lib : StdLib) (file unread : List Char) (tok : Token)
    (h : getToken lib file = .ok (tok, unread, false)) :
    tokenize lib file =
      match tokenize lib unread with
      | .error e => .error e
      | .ok tokens => .ok (tok :: tokens) := by
  obtain ⟨-, -, h3⟩ := getToken_spec lib file tok unread false h
  have hlt := (h3 rfl).1
  unfold tokenize
  rw [tokenizeLoop_succ, h]
  dsimp only
  rw [tokenizeLoop_enough lib file.length (unread.length + 1) unread hlt (Nat.lt_succ_self _)]
  rfl

theorem tokenize_getToken_error (lib : StdLib) (file : List Char) (e : Failure)
    (h : getToken lib file = .error e) : tokenize lib file = .error e := by
  unfold tokenize
  rw [tokenizeLoop_succ, h]

theorem tokenize_of_reads (lib : StdLib) (file unread : List Char) (tokens : List Token)
    (h : Reads lib file tokens unread) :
    tokenize lib file =
      match tokenize lib unread with
      | .error e => .error e
      | .ok rest => .ok (tokens ++ rest) := by
  induction h with
  | start file =>
    rcases tokenize lib file with e | rest <;> rfl
  | next hg _ ih =>
    rw [tokenize_next lib _ _ _ hg, ih]
    rcases tokenize lib _ with e | rest <;> rfl

/-- A failure of `getToken` at a place that the loop of `tokenize` reaches is the failure
of `tokenize`. -/
theorem tokenize_error_of_reads (lib : StdLib) (file unread : List Char) (tokens : List Token)
    (e : Failure) (h : Reads lib file tokens unread) (he : getToken lib unread = .error e) :
    tokenize lib file = .error e := by
  rw [tokenize_of_reads lib file unread tokens h, tokenize_getToken_error lib unread e he]

theorem Reads_append (lib : StdLib) (file mid unread : List Char) (tokens1 tokens2 : List Token)
    (h1 : Reads lib file tokens1 mid) (h2 : Reads lib mid tokens2 unread) :
    Reads lib file (tokens1 ++ tokens2) unread := by
  induction h1 with
  | start file => exact h2
  | next hg _ ih => exact .next hg (ih h2)

theorem Reads_suffix (lib : StdLib) (file unread : List Char) (tokens : List Token)
    (h : Reads lib file tokens unread) :
    unread <:+ file ∧ (tokens ≠ [] → unread.length < file.length) := by
  induction h with
  | start file => exact ⟨List.suffix_refl _, fun h => absurd rfl h⟩
  | next hg _ ih =>
    obtain ⟨h1, -, h3⟩ := getToken_spec lib _ _ _ _ hg
    refine ⟨ih.1.trans h1, fun _ => lt_of_le_of_lt ih.1.length_le (h3 rfl).1⟩

end Tokenizer
namespace Tokenizer

/-- What a call of `getToken` that returns a token before the end of the file has read, and
that it reads the same token from every text that starts the same way: for a String or
punctuation token, the text read; for a Number, Boolean or Null token, the text read and the
delimiter after it, which is left unread. -/
theorem getToken_local_cons (lib : StdLib) (c : Char) (rest u : List Char) (tok : Token)
    (hnw : ¬ (c = ' ' ∨ c = '\n' ∨ c = '\t'))
    (h : getToken lib (c :: rest) = .ok (tok, u, false)) :
    ∃ a, c :: rest = a ++ u ∧
      ((tok.type ≠ .Number ∧ tok.type ≠ .Boolean ∧ tok.type ≠ .Null) →
        ∀ y, getToken lib (a ++ y) = .ok (tok, y, false)) ∧
      ((tok.type = .Number ∨ tok.type = .Boolean ∨ tok.type = .Null) →
        ∃ d tail, u = d :: tail ∧ ∀ y, getToken lib (a ++ d :: y) = .ok (tok, d :: y, false)) := by
  have hchain := fun y => getToken_cons lib c y hnw
  rw [getToken_cons lib c rest hnw] at h
  have punct : ∀ type : TokenType, type ≠ .Number → type ≠ .Boolean → type ≠ .Null →
      (Except.ok (⟨[], type⟩, rest, false) : Except Failure (Token × List Char × Bool)) =
        .ok (tok, u, false) →
      (∀ y, getToken lib (c :: y) = .ok (⟨[], type⟩, y, false)) →
      ∃ a, c :: rest = a ++ u ∧
        ((tok.type ≠ .Number ∧ tok.type ≠ .Boolean ∧ tok.type ≠ .Null) →
          ∀ y, getToken lib (a ++ y) = .ok (tok, y, false)) ∧
        ((tok.type = .Number ∨ tok.type = .Boolean ∨ tok.type = .Null) →
          ∃ d tail, u = d :: tail ∧
            ∀ y, getToken lib (a ++ d :: y) = .ok (tok, d :: y, false)) := by
    intro type hN hB hNu h hy
    simp only [Except.ok.injEq, Prod.mk.injEq, and_true] at h
    obtain ⟨rfl, rfl⟩ := h
    refine ⟨[c], rfl, fun _ y => hy y, ?_⟩
    intro hty
    rcases hty with hty | hty | hty
    · exact absurd hty hN
    · exact absurd hty hB
    · exact absurd hty hNu
  have literal : ∀ (f : Str → List Char → Except Failure (Token × List Char × Bool)),
      c ∉ [',', ']', '}'] →
      (match readUntil [',', ']', '}'] false (c :: rest) with
        | Except.error e => Except.error e
        | Except.ok (value, unread) => f value unread) = Except.ok (tok, u, false) →
      (∀ y, getToken lib (c :: y) =
        match readUntil [',', ']', '}'] false (c :: y) with
        | Except.error e => Except.error e
        | Except.ok (value, unread) => f value unread) →
      (∀ value d tail, f value (d :: tail) = Except.ok (tok, u, false) →
        (tok.type = .Number ∨ tok.type = .Boolean ∨ tok.type = .Null) ∧ u = d :: tail ∧
          ∀ y, f value (d :: y) = Except.ok (tok, d :: y, false)) →
      ∃ a, c :: rest = a ++ u ∧
        ((tok.type ≠ .Number ∧ tok.type ≠ .Boolean ∧ tok.type ≠ .Null) →
          ∀ y, getToken lib (a ++ y) = .ok (tok, y, false)) ∧
        ((tok.type = .Number ∨ tok.type = .Boolean ∨ tok.type = .Null) →
          ∃ d tail, u = d :: tail ∧
            ∀ y, getToken lib (a ++ d :: y) = .ok (tok, d :: y, false)) := by
    intro f hcd h hy hf
    rcases hr : readUntil [',', ']', '}'] false (c :: rest) with e | ⟨value, unread⟩
    · rw [hr] at h
      cases h
    · rw [hr] at h
      dsimp only at h
      obtain ⟨d, tail, hsplit, hd, hvalue, hunread⟩ := readUntil_inv _ _ _ _ _ hr
      simp only [Bool.false_eq_true, if_false] at hunread
      subst hunread
      obtain ⟨hty, hu, hfy⟩ := hf value d tail h
      subst hu
      refine ⟨value, hsplit, ?_, fun _ => ⟨d, tail, rfl, ?_⟩⟩
      · intro hne
        rcases hty with hty | hty | hty
        · exact absurd hty hne.1
        · exact absurd hty hne.2.1
        · exact absurd hty hne.2.2
      · intro y
        cases value with
        | nil =>
          simp only [List.nil_append, List.cons.injEq] at hsplit
          exact absurd (hsplit.1 ▸ hd) hcd
        | cons x v =>
          simp only [List.cons_append, List.cons.injEq] at hsplit
          obtain ⟨rfl, -⟩ := hsplit
          rw [List.cons_append, hy, ← List.cons_append,
            readUntil_append [',', ']', '}'] false (c :: v) d y hvalue hd]
          exact hfy y
  by_cases h1 : ('0' ≤ c ∧ c ≤ '9') ∨ c = '-' ∨ c = '.'
  · simp only [if_pos h1] at h hchain
    refine literal _ (not_mem_delimiters_of_start c (Or.inl h1)) h hchain ?_
    intro value d tail hv
    rcases hst : lib.stod value with _ | x
    · rw [hst] at hv
      cases hv
    · rw [hst] at hv
      simp only [Except.ok.injEq, Prod.mk.injEq, and_true] at hv
      obtain ⟨rfl, rfl⟩ := hv
      exact ⟨Or.inl rfl, rfl, fun y => rfl⟩
  simp only [if_neg h1] at h hchain
  by_cases h2 : c = '"'
  · simp only [if_pos h2] at h hchain
    rcases hr : readUntil ['"'] true rest with e | ⟨value, unread⟩
    · rw [hr] at h
      cases h
    · rw [hr] at h
      simp only [Except.ok.injEq, Prod.mk.injEq, and_true] at h
      obtain ⟨rfl, rfl⟩ := h
      obtain ⟨d, tail, hsplit, hd, hvalue, hunread⟩ := readUntil_inv _ _ _ _ _ hr
      simp only [if_true] at hunread
      subst hunread
      refine ⟨c :: (value ++ [d]), by rw [hsplit]; simp, ?_, ?_⟩
      · intro _ y
        have := hchain (value ++ d :: y)
        rw [readUntil_append ['"'] true value d y hvalue hd] at this
        simpa using this
      · intro hty
        simp at hty
  simp only [if_neg h2] at h hchain
  have keyword : ∀ (kw : Str) (type : TokenType) (err : Str → LexError),
      (type = .Number ∨ type = .Boolean ∨ type = .Null) →
      ∀ value d tail,
        (if value ≠ kw then Except.error (.lexError (err value))
          else (Except.ok (⟨value, type⟩, d :: tail, false) :
            Except Failure (Token × List Char × Bool))) = Except.ok (tok, u, false) →
        (tok.type = .Number ∨ tok.type = .Boolean ∨ tok.type = .Null) ∧ u = d :: tail ∧
          ∀ y, (if value ≠ kw then Except.error (.lexError (err value))
            else (Except.ok (⟨value, type⟩, d :: y, false) :
              Except Failure (Token × List Char × Bool))) = Except.ok (tok, d :: y, false) := by
    intro kw type err hty value d tail hv
    by_cases hk : value ≠ kw
    · rw [if_pos hk] at hv
      cases hv
    · rw [if_neg hk] at hv
      simp only [Except.ok.injEq, Prod.mk.injEq, and_true] at hv
      obtain ⟨rfl, rfl⟩ := hv
      refine ⟨hty, rfl, fun y => ?_⟩
      rw [if_neg hk]
  by_cases h3 : c = 't'
  · simp only [if_pos h3] at h hchain
    exact literal _ (not_mem_delimiters_of_start c (Or.inr (Or.inl h3))) h hchain
      (keyword _ _ (fun v => .misspelledBoolean v ['t', 'r', 'u', 'e']) (Or.inr (Or.inl rfl)))
  simp only [if_neg h3] at h hchain
  by_cases h4 : c = 'f'
  · simp only [if_pos h4] at h hchain
    exact literal _ (not_mem_delimiters_of_start c (Or.inr (Or.inr (Or.inl h4)))) h hchain
      (keyword _ _ (fun v => .misspelledBoolean v ['f', 'a', 'l', 's', 'e'])
        (Or.inr (Or.inl rfl)))
  simp only [if_neg h4] at h hchain
  by_cases h5 : c = 'n'
  · simp only [if_pos h5] at h hchain
    exact literal _ (not_mem_delimiters_of_start c (Or.inr (Or.inr (Or.inr h5)))) h hchain
      (keyword _ _ (fun v => .misspelledNull v) (Or.inr (Or.inr rfl)))
  simp only [if_neg h5] at h hchain
  by_cases h6 : c = '{'
  · simp only [if_pos h6] at h hchain
    exact punct _ (by simp) (by simp) (by simp) h hchain
  simp only [if_neg h6] at h hchain
  by_cases h7 : c = '}'
  · simp only [if_pos h7] at h hchain
    exact punct _ (by simp) (by simp) (by simp) h hchain
  simp only [if_neg h7] at h hchain
  by_cases h8 : c = '['
  · simp only [if_pos h8] at h hchain
    exact punct _ (by simp) (by simp) (by simp) h hchain
  simp only [if_neg h8] at h hchain
  by_cases h9 : c = ']'
  · simp only [if_pos h9] at h hchain
    exact punct _ (by simp) (by simp) (by simp) h hchain
  simp only [if_neg h9] at h hchain
  by_cases h10 : c = ','
  · simp only [if_pos h10] at h hchain
    exact punct _ (by simp) (by simp) (by simp) h hchain
  simp only [if_neg h10] at h hchain
  by_cases h11 : c = ':'
  · simp only [if_pos h11] at h hchain
    exact punct _ (by simp) (by simp) (by simp) h hchain
  simp only [if_neg h11] at h hchain
  by_cases h12 : c = EOFchar
  · simp only [if_pos h12] at h hchain
    exact punct _ (by simp) (by simp) (by simp) h hchain
  simp only [if_neg h12] at h
  cases h

theorem getToken_local (lib : StdLib) (s u : List Char) (tok : Token)
    (h : getToken lib s = .ok (tok, u, false)) :
    ∃ a, s = a ++ u ∧
      ((tok.type ≠ .Number ∧ tok.type ≠ .Boolean ∧ tok.type ≠ .Null) →
        ∀ y, getToken lib (a ++ y) = .ok (tok, y, false)) ∧
      ((tok.type = .Number ∨ tok.type = .Boolean ∨ tok.type = .Null) →
        ∃ d tail, u = d :: tail ∧ ∀ y, getToken lib (a ++ d :: y) = .ok (tok, d :: y, false)) := by
  by_cases he : (getNextNonWhiteSpaceCharacter s).2.2 = true
  · rw [getToken_eof lib s he] at h
    simp at h
  · rcases hg : getNextNonWhiteSpaceCharacter s with ⟨c, u0, e0⟩
    rw [hg] at he
    simp only [Bool.not_eq_true] at he
    subst he
    obtain ⟨ws, rfl, hws, hnw⟩ := getNext_inv s c u0 hg
    rw [getToken_whitespace lib ws _ hws] at h
    obtain ⟨a, hsplit, hclosed, hliteral⟩ := getToken_local_cons lib c u0 u tok hnw h
    refine ⟨ws ++ a, by rw [hsplit, List.append_assoc], ?_, ?_⟩
    · intro hty y
      rw [List.append_assoc, getToken_whitespace lib ws _ hws]
      exact hclosed hty y
    · intro hty
      obtain ⟨d, tail, hu, hy⟩ := hliteral hty
      refine ⟨d, tail, hu, fun y => ?_⟩
      rw [List.append_assoc, getToken_whitespace lib ws _ hws]
      exact hy y

end Tokenizer
namespace Tokenizer

theorem tokenize_eof (lib : StdLib) (file unread : List Char) (tok : Token)
    (h : getToken lib file = .ok (tok, unread, true)) : tokenize lib file = .ok [tok] := by
  unfold tokenize
  rw [tokenizeLoop_succ, h]
  rfl

theorem tokenize_whitespace (lib : StdLib) (ws s : List Char)
    (hws : ∀ x ∈ ws, x = ' ' ∨ x = '\n' ∨ x = '\t') :
    tokenize lib (ws ++ s) = tokenize lib s := by
  have hget := getToken_whitespace lib ws s hws
  rcases hg : getToken lib s with e | ⟨tok, u, eof⟩
  · rw [tokenize_getToken_error lib s e hg,
      tokenize_getToken_error lib (ws ++ s) e (hget.trans hg)]
  · cases eof with
    | true => rw [tokenize_eof lib s u tok hg, tokenize_eof lib (ws ++ s) u tok (hget.trans hg)]
    | false =>
      rw [tokenize_next lib s u tok hg, tokenize_next lib (ws ++ s) u tok (hget.trans hg)]

/-- White space put where the loop of `tokenize` is about to call `getToken`, the token
read last being none of Number, Boolean and Null, does not change the tokens read before. -/
theorem Reads_insert (lib : StdLib) (ws : List Char) (file s : List Char)
    (tokens : List Token) (h : Reads lib file tokens s) :
    ∀ pre, file = pre ++ s →
      (∀ t, tokens.getLast? = some t →
        t.type ≠ .Number ∧ t.type ≠ .Boolean ∧ t.type ≠ .Null) →
      Reads lib (pre ++ (ws ++ s)) tokens (ws ++ s) := by
  induction h with
  | start file =>
    intro pre hpre _
    have : pre = [] := by
      have := congrArg List.length hpre
      simp only [List.length_append] at this
      exact List.eq_nil_of_length_eq_zero (by omega)
    subst this
    exact .start _
  | @next file unread rest tok toks hg hr ih =>
    intro pre hpre hlast
    obtain ⟨a, hsplit, hclosed, hliteral⟩ := getToken_local lib file unread tok hg
    obtain ⟨hsuf, hlen⟩ := Reads_suffix lib unread rest toks hr
    obtain ⟨pre', hpre'⟩ := hsuf
    have hcancel : pre ++ rest = (a ++ pre') ++ rest := by
      rw [← hpre, hsplit, ← hpre', List.append_assoc]
    have hpre_eq : pre = a ++ pre' := List.append_cancel_right hcancel
    subst hpre_eq
    by_cases hty : tok.type ≠ .Number ∧ tok.type ≠ .Boolean ∧ tok.type ≠ .Null
    · have hstep := hclosed hty (pre' ++ (ws ++ rest))
      rw [← List.append_assoc] at hstep
      refine .next hstep (ih pre' hpre'.symm ?_)
      intro t ht
      apply hlast t
      cases toks with
      | nil => simp at ht
      | cons t' toks' => simpa [List.getLast?_cons_cons] using ht
    · have hty' : tok.type = .Number ∨ tok.type = .Boolean ∨ tok.type = .Null := by
        by_contra hcon
        exact hty ⟨fun h => hcon (Or.inl h), fun h => hcon (Or.inr (Or.inl h)),
          fun h => hcon (Or.inr (Or.inr h))⟩
      obtain ⟨d, tail, hu, hy⟩ := hliteral hty'
      cases toks with
      | nil => exact absurd (hlast tok rfl) hty
      | cons t' toks' =>
        have hlt := hlen (by simp)
        cases pre' with
        | nil =>
          simp only [List.nil_append] at hpre'
          rw [hpre'] at hlt
          omega
        | cons x p =>
          rw [hu, List.cons_append] at hpre'
          simp only [List.cons.injEq] at hpre'
          obtain ⟨rfl, htail⟩ := hpre'
          have hstep := hy (p ++ (ws ++ rest))
          have e1 : (a ++ x :: p) ++ (ws ++ rest) = a ++ x :: (p ++ (ws ++ rest)) := by simp
          rw [e1]
          refine .next hstep ?_
          have := ih (x :: p) (by rw [hu, ← htail]; rfl) ?_
          · simpa using this
          · intro t ht
            apply hlast t
            simpa [List.getLast?_cons_cons] using ht

end Tokenizer
namespace Tokenizer

/-- A String token comes from a double quote, the text of the token and a second double
quote. -/
theorem getToken_string_inv (lib : StdLib) (s u : List Char) (tok : Token) (eof : Bool)
    (h : getToken lib s = .ok (tok, u, eof)) (hty : tok.type = .String) :
    ∃ ws, s = ws ++ '"' :: (tok.value ++ '"' :: u) ∧
      (∀ x ∈ ws, x = ' ' ∨ x = '\n' ∨ x = '\t') ∧ '"' ∉ tok.value := by
  by_cases he : (getNextNonWhiteSpaceCharacter s).2.2 = true
  · rw [getToken_eof lib s he] at h
    simp only [Except.ok.injEq, Prod.mk.injEq] at h
    obtain ⟨rfl, -, -⟩ := h
    cases hty
  rcases hg : getNextNonWhiteSpaceCharacter s with ⟨c, u0, e0⟩
  rw [hg] at he
  simp only [Bool.not_eq_true] at he
  subst he
  obtain ⟨ws, rfl, hws, hnw⟩ := getNext_inv s c u0 hg
  rw [getToken_whitespace lib ws _ hws, getToken_cons lib c u0 hnw] at h
  have other : ∀ (type : TokenType) (value : Str) (unread : List Char), type ≠ .String →
      (Except.ok (⟨value, type⟩, unread, false) : Except Failure (Token × List Char × Bool)) ≠
        .ok (tok, u, eof) := by
    intro type value unread hne h
    simp only [Except.ok.injEq, Prod.mk.injEq] at h
    obtain ⟨rfl, -, -⟩ := h
    exact hne hty
  have keyword : ∀ (kw : Str) (type : TokenType) (err : Str → LexError), type ≠ .String →
      (match readUntil [',', ']', '}'] false (c :: u0) with
        | Except.error e => Except.error e
        | Except.ok (value, unread) =>
          if value ≠ kw then Except.error (.lexError (err value))
          else (Except.ok (⟨value, type⟩, unread, false) :
            Except Failure (Token × List Char × Bool))) ≠ Except.ok (tok, u, eof) := by
    intro kw type err hne h
    rcases hr : readUntil [',', ']', '}'] false (c :: u0) with e | ⟨value, unread⟩
    · rw [hr] at h
      cases h
    · rw [hr] at h
      dsimp only at h
      by_cases hk : value ≠ kw
      · rw [if_pos hk] at h
        cases h
      · rw [if_neg hk] at h
        exact other _ _ _ hne h
  by_cases h1 : ('0' ≤ c ∧ c ≤ '9') ∨ c = '-' ∨ c = '.'
  · rw [if_pos h1] at h
    rcases hr : readUntil [',', ']', '}'] false (c :: u0) with e | ⟨value, unread⟩
    · rw [hr] at h
      cases h
    · rw [hr] at h
      dsimp only at h
      rcases hst : lib.stod value with _ | x
      · rw [hst] at h
        cases h
      · rw [hst] at h
        exact absurd h (other _ _ _ (by simp))
  rw [if_neg h1] at h
  by_cases h2 : c = '"'
  · rw [if_pos h2] at h
    subst h2
    rcases hr : readUntil ['"'] true u0 with e | ⟨value, unread⟩
    · rw [hr] at h
      cases h
    · rw [hr] at h
      simp only [Except.ok.injEq, Prod.mk.injEq] at h
      obtain ⟨rfl, rfl, -⟩ := h
      obtain ⟨d, tail, hsplit, hd, hvalue, hunread⟩ := readUntil_inv _ _ _ _ _ hr
      simp only [if_true] at hunread
      subst hunread
      rw [List.mem_singleton] at hd
      subst hd
      exact ⟨ws, by rw [hsplit], hws, fun hm => hvalue _ hm (List.mem_singleton_self _)⟩
  rw [if_neg h2] at h
  by_cases h3 : c = 't'
  · rw [if_pos h3] at h
    exact absurd h (keyword _ _ (fun v => .misspelledBoolean v ['t', 'r', 'u', 'e']) (by simp))
  rw [if_neg h3] at h
  by_cases h4 : c = 'f'
  · rw [if_pos h4] at h
    exact absurd h
      (keyword _ _ (fun v => .misspelledBoolean v ['f', 'a', 'l', 's', 'e']) (by simp))
  rw [if_neg h4] at h
  by_cases h5 : c = 'n'
  · rw [if_pos h5] at h
    exact absurd h (keyword _ _ (fun v => .misspelledNull v) (by simp))
  rw [if_neg h5] at h
  by_cases h6 : c = '{'
  · rw [if_pos h6] at h
    exact absurd h (other _ _ _ (by simp))
  rw [if_neg h6] at h
  by_cases h7 : c = '}'
  · rw [if_pos h7] at h
    exact absurd h (other _ _ _ (by simp))
  rw [if_neg h7] at h
  by_cases h8 : c = '['
  · rw [if_pos h8] at h
    exact absurd h (other _ _ _ (by simp))
  rw [if_neg h8] at h
  by_cases h9 : c = ']'
  · rw [if_pos h9] at h
    exact absurd h (other _ _ _ (by simp))
  rw [if_neg h9] at h
  by_cases h10 : c = ','
  · rw [if_pos h10] at h
    exact absurd h (other _ _ _ (by simp))
  rw [if_neg h10] at h
  by_cases h11 : c = ':'
  · rw [if_pos h11] at h
    exact absurd h (other _ _ _ (by simp))
  rw [if_neg h11] at h
  by_cases h12 : c = EOFchar
  · rw [if_pos h12] at h
    exact absurd h (other _ _ _ (by simp))
  rw [if_neg h12] at h
  cases h

end Tokenizer

/-! ### C11: keywords -/

/-- C11. Let the loop of `tokenize` come to a text whose first character that is not
skipped is `c`, one of `t`, `f` and `n`. When a `,`, `]` or `}` follows, with `lexeme` the
text from `c` up to the first of them, `getToken` returns the token `lexeme` of type Boolean
(Null for `n`) if `lexeme` is `true` (`false` for `f`, `null` for `n`), and leaves the
delimiter unread; for any other `lexeme`, a misspelling or the keyword with white space
after it, `getToken` throws a `Tokenizer::Exception` and so does `tokenize` on the whole
file. When no `,`, `]` or `}` follows, `tokenize` throws as well. -/
theorem keyword_lexing (lib : StdLib) (file ws rest : List Char) (tokens : List Token)
    (c : Char) (hreads : Tokenizer.Reads lib file tokens (ws ++ c :: rest))
    (hws : ∀ x ∈ ws, x = ' ' ∨ x = '\n' ∨ x = '\t')
    (hc : c = 't' ∨ c = 'f' ∨ c = 'n') :
    (∀ lexeme d tail, c :: rest = lexeme ++ d :: tail →
      (∀ x ∈ lexeme, x ∉ [',', ']', '}']) → d ∈ [',', ']', '}'] →
      ∃ e : LexError,
        Tokenizer.getToken lib (ws ++ c :: rest) =
          (if lexeme = (if c = 't' then "true".toList else if c = 'f' then "false".toList
              else "null".toList) then
            .ok (⟨lexeme, if c = 'n' then .Null else .Boolean⟩, d :: tail, false)
          else .error (.lexError e)) ∧
        (lexeme ≠ (if c = 't' then "true".toList else if c = 'f' then "false".toList
            else "null".toList) →
          Tokenizer.tokenize lib file = .error (.lexError e))) ∧
    ((∀ x ∈ c :: rest, x ∉ [',', ']', '}']) →
      Tokenizer.tokenize lib file = .error (.lexError .noClosingCharacter)) := by
  have hnw : ¬ (c = ' ' ∨ c = '\n' ∨ c = '\t') :=
    Tokenizer.not_whitespace_of_start c (Or.inr (Or.inr hc))
  have hget := (Tokenizer.getToken_whitespace lib ws (c :: rest) hws).trans
    (Tokenizer.getToken_cons lib c rest hnw)
  constructor
  · intro lexeme d tail hsplit hlexeme hd
    have hread := Tokenizer.readUntil_append [',', ']', '}'] false lexeme d tail hlexeme hd
    rw [← hsplit] at hread
    have main : ∀ (kw : Str) (ty : TokenType) (err : LexError),
        Tokenizer.getToken lib (ws ++ c :: rest) =
          (if lexeme ≠ kw then .error (.lexError err) else .ok (⟨lexeme, ty⟩, d :: tail, false)) →
        ∃ e : LexError,
          Tokenizer.getToken lib (ws ++ c :: rest) =
            (if lexeme = kw then .ok (⟨lexeme, ty⟩, d :: tail, false)
            else .error (.lexError e)) ∧
          (lexeme ≠ kw → Tokenizer.tokenize lib file = .error (.lexError e)) := by
      intro kw ty err h
      refine ⟨err, ?_, ?_⟩
      · rw [h]
        by_cases hk : lexeme = kw
        · rw [if_neg (not_not.2 hk), if_pos hk]
        · rw [if_pos hk, if_neg hk]
      · intro hk
        rw [if_pos hk] at h
        exact Tokenizer.tokenize_error_of_reads lib file _ tokens _ hreads h
    rcases hc with rfl | rfl | rfl
    · rw [if_neg (by decide), if_neg (by decide), if_pos rfl, hread] at hget
      exact main _ _ _ hget
    · rw [if_neg (by decide), if_neg (by decide), if_neg (by decide), if_pos rfl, hread] at hget
      exact main _ _ _ hget
    · rw [if_neg (by decide), if_neg (by decide), if_neg (by decide), if_neg (by decide),
        if_pos rfl, hread] at hget
      exact main _ _ _ hget
  · intro hnone
    have hread := Tokenizer.readUntil_none [',', ']', '}'] false (c :: rest) hnone
    apply Tokenizer.tokenize_error_of_reads lib file _ tokens _ hreads
    rcases hc with rfl | rfl | rfl
    · rw [hget, if_neg (by decide), if_neg (by decide), if_pos rfl, hread]
    · rw [hget, if_neg (by decide), if_neg (by decide), if_neg (by decide), if_pos rfl, hread]
    · rw [hget, if_neg (by decide), if_neg (by decide), if_neg (by decide), if_neg (by decide),
        if_pos rfl, hread]

/-- In `[true ,null]` the text read for the keyword is `true` with a blank after it:
`tokenize` throws. In `[true,nul]` it throws at `nul`. -/
theorem keyword_lexing_witness :
    (∃ e : LexError, Tokenizer.tokenize refLib "[true ,null]".toList = .error (.lexError e)) ∧
    Tokenizer.tokenize refLib "[ nul".toList = .error (.lexError .noClosingCharacter) := by
  have h := keyword_lexing refLib "[true ,null]".toList [] "rue ,null]".toList
    [⟨[], .ListOpen⟩] 't' (.next rfl (.start _)) (by simp) (Or.inl rfl)
  have h2 := keyword_lexing refLib "[ nul".toList [' '] "ul".toList
    [⟨[], .ListOpen⟩] 'n' (.next rfl (.start _)) (by simp) (Or.inr (Or.inr rfl))
  refine ⟨?_, h2.2 (by decide)⟩
  obtain ⟨e, -, he⟩ := h.1 "true ".toList ',' "null]".toList rfl (by decide) (by decide)
  exact ⟨e, he (by decide)⟩

/-! ### C12: where a number ends -/

/-- C12. Let the loop of `tokenize` come to a text whose first character that is not
skipped is a digit, `-` or `.`. When a `,`, `]` or `}` follows, with `lexeme` the text from
that character up to the first of them, white space and all, `getToken` returns the Number
token `lexeme` and leaves the delimiter unread, unless `std::stod` throws on `lexeme`, and
then a `Tokenizer::Exception` is thrown. When no `,`, `]` or `}` follows, `tokenize` throws a
`Tokenizer::Exception`; so it does on `[1,2,3`. -/
theorem number_delimitation (lib : StdLib) (file ws rest : List Char) (tokens : List Token)
    (c : Char) (hreads : Tokenizer.Reads lib file tokens (ws ++ c :: rest))
    (hws : ∀ x ∈ ws, x = ' ' ∨ x = '\n' ∨ x = '\t')
    (hc : ('0' ≤ c ∧ c ≤ '9') ∨ c = '-' ∨ c = '.') :
    (∀ lexeme d tail, c :: rest = lexeme ++ d :: tail →
      (∀ x ∈ lexeme, x ∉ [',', ']', '}']) → d ∈ [',', ']', '}'] →
      Tokenizer.getToken lib (ws ++ c :: rest) =
        match lib.stod lexeme with
        | none => .error (.lexError (.notANumber lexeme))
        | some _ => .ok (⟨lexeme, .Number⟩, d :: tail, false)) ∧
    ((∀ x ∈ c :: rest, x ∉ [',', ']', '}']) →
      Tokenizer.tokenize lib file = .error (.lexError .noClosingCharacter)) ∧
    ∃ e : LexError, Tokenizer.tokenize lib "[1,2,3".toList = .error (.lexError e) := by
  have general : ∀ (file ws rest : List Char) (tokens : List Token) (c : Char),
      Tokenizer.Reads lib file tokens (ws ++ c :: rest) →
      (∀ x ∈ ws, x = ' ' ∨ x = '\n' ∨ x = '\t') →
      (('0' ≤ c ∧ c ≤ '9') ∨ c = '-' ∨ c = '.') →
      (∀ lexeme d tail, c :: rest = lexeme ++ d :: tail →
        (∀ x ∈ lexeme, x ∉ [',', ']', '}']) → d ∈ [',', ']', '}'] →
        Tokenizer.getToken lib (ws ++ c :: rest) =
          match lib.stod lexeme with
          | none => .error (.lexError (.notANumber lexeme))
          | some _ => .ok (⟨lexeme, .Number⟩, d :: tail, false)) ∧
      ((∀ x ∈ c :: rest, x ∉ [',', ']', '}']) →
        Tokenizer.tokenize lib file = .error (.lexError .noClosingCharacter)) := by
    intro file ws rest tokens c hreads hws hc
    have hnw : ¬ (c = ' ' ∨ c = '\n' ∨ c = '\t') :=
      Tokenizer.not_whitespace_of_start c (Or.inl hc)
    have hget := (Tokenizer.getToken_whitespace lib ws (c :: rest) hws).trans
      (Tokenizer.getToken_cons lib c rest hnw)
    rw [if_pos hc] at hget
    constructor
    · intro lexeme d tail hsplit hlexeme hd
      have hread := Tokenizer.readUntil_append [',', ']', '}'] false lexeme d tail hlexeme hd
      rw [← hsplit] at hread
      rw [hget, hread]
      rfl
    · intro hnone
      have hread := Tokenizer.readUntil_none [',', ']', '}'] false (c :: rest) hnone
      apply Tokenizer.tokenize_error_of_reads lib file _ tokens _ hreads
      rw [hget, hread]
  refine ⟨(general file ws rest tokens c hreads hws hc).1,
    (general file ws rest tokens c hreads hws hc).2, ?_⟩
  have open_ : Tokenizer.getToken lib "[1,2,3".toList = .ok (⟨[], .ListOpen⟩, "1,2,3".toList, false) :=
    rfl
  have comma1 : Tokenizer.getToken lib ",2,3".toList = .ok (⟨[], .Comma⟩, "2,3".toList, false) :=
    rfl
  have comma2 : Tokenizer.getToken lib ",3".toList = .ok (⟨[], .Comma⟩, "3".toList, false) :=
    rfl
  have one := (general "1,2,3".toList [] ",2,3".toList [] '1' (.start _) (by simp)
    (by decide)).1 "1".toList ',' "2,3".toList rfl (by decide) (by decide)
  have two := (general "2,3".toList [] ",3".toList [] '2' (.start _) (by simp)
    (by decide)).1 "2".toList ',' "3".toList rfl (by decide) (by decide)
  rcases h1 : lib.stod "1".toList with _ | d1
  · rw [h1] at one
    exact ⟨_, Tokenizer.tokenize_error_of_reads lib _ _ _ _ (.next open_ (.start _)) one⟩
  rw [h1] at one
  rcases h2 : lib.stod "2".toList with _ | d2
  · rw [h2] at two
    exact ⟨_, Tokenizer.tokenize_error_of_reads lib _ _ _ _
      (.next open_ (.next one (.next comma1 (.start _)))) two⟩
  rw [h2] at two
  exact ⟨_, (general "[1,2,3".toList [] [] _ '3'
    (.next open_ (.next one (.next comma1 (.next two (.next comma2 (.start _))))))
    (by simp) (by decide)).2 (by decide)⟩

/-- In `[1 x,2]` the first number token is `1 x`, blank and `x` included. -/
theorem number_delimitation_witness :
    Tokenizer.getToken refLib "1 x,2]".toList =
      .ok (⟨"1 x".toList, .Number⟩, ",2]".toList, false) :=
  (number_delimitation refLib "[1 x,2]".toList [] " x,2]".toList [⟨[], .ListOpen⟩] '1'
    (.next rfl (.start _)) (by simp) (by decide)).1 "1 x".toList ',' "2]".toList rfl
    (by decide) (by decide)

/-! ### C13: strings are read up to the next double quote -/

/-- C13. Where the first character that is not skipped is a double quote, `getToken`
returns as a String token the text between it and the next double quote, as it stands, be
there a backslash before that quote or not, and leaves unread what follows that quote; and
every String token that `getToken` returns is read so. On `{"k": "va\"l"}` the loop of
`tokenize` reads `{`, `k`, `:` and the String token `va\`, comes to `l"}` and throws there:
no token starts with `l`. -/
theorem string_lexing (lib : StdLib) (ws lexeme tail : List Char)
    (hws : ∀ x ∈ ws, x = ' ' ∨ x = '\n' ∨ x = '\t') (hlexeme : '"' ∉ lexeme) :
    Tokenizer.getToken lib (ws ++ '"' :: (lexeme ++ '"' :: tail)) =
      .ok (⟨lexeme, .String⟩, tail, false) ∧
    (∀ s tok u eof, Tokenizer.getToken lib s = .ok (tok, u, eof) → tok.type = .String →
      ∃ skipped, s = skipped ++ '"' :: (tok.value ++ '"' :: u) ∧
        (∀ x ∈ skipped, x = ' ' ∨ x = '\n' ∨ x = '\t') ∧ '"' ∉ tok.value) ∧
    Tokenizer.Reads lib "\x7b\"k\": \"va\\\"l\"\x7d".toList
      [⟨[], .ObjectOpen⟩, ⟨"k".toList, .String⟩, ⟨[], .Colon⟩, ⟨"va\\".toList, .String⟩]
      "l\"\x7d".toList ∧
    Tokenizer.tokenize lib "\x7b\"k\": \"va\\\"l\"\x7d".toList =
      .error (.lexError (.unknownStart 'l')) := by
  have hreads : Tokenizer.Reads lib "\x7b\"k\": \"va\\\"l\"\x7d".toList
      [⟨[], .ObjectOpen⟩, ⟨"k".toList, .String⟩, ⟨[], .Colon⟩, ⟨"va\\".toList, .String⟩]
      "l\"\x7d".toList :=
    .next rfl (.next rfl (.next rfl (.next rfl (.start _))))
  refine ⟨?_, fun s tok u eof h hty => Tokenizer.getToken_string_inv lib s u tok eof h hty,
    hreads, Tokenizer.tokenize_error_of_reads lib _ _ _ _ hreads rfl⟩
  rw [Tokenizer.getToken_whitespace lib ws _ hws,
    Tokenizer.getToken_cons lib '"' _ (by decide), if_neg (by decide), if_pos rfl,
    Tokenizer.readUntil_append ['"'] true lexeme '"' tail
      (fun x hx hm => hlexeme (by rw [List.mem_singleton] at hm; exact hm ▸ hx))
      (List.mem_singleton_self _)]
  rfl

/-- The text `"a\"b` after a blank: the String token is `a\`, and `b` is left unread. -/
theorem string_lexing_witness :
    Tokenizer.getToken refLib " \"a\\\"b".toList = .ok (⟨"a\\".toList, .String⟩, ['b'], false) :=
  (string_lexing refLib [' '] "a\\".toList ['b'] (by simp) (by decide)).1

/-! ### C14: a string that is not closed -/

/-- C14. Where the loop of `tokenize` comes to a text whose first character that is not
skipped is a double quote with no double quote after it, `tokenize` throws a
`Tokenizer::Exception` and returns no tokens. -/
theorem unterminated_string (lib : StdLib) (file ws rest : List Char) (tokens : List Token)
    (hreads : Tokenizer.Reads lib file tokens (ws ++ '"' :: rest))
    (hws : ∀ x ∈ ws, x = ' ' ∨ x = '\n' ∨ x = '\t') (hrest : '"' ∉ rest) :
    Tokenizer.tokenize lib file = .error (.lexError .noClosingCharacter) := by
  apply Tokenizer.tokenize_error_of_reads lib file _ tokens _ hreads
  rw [Tokenizer.getToken_whitespace lib ws _ hws,
    Tokenizer.getToken_cons lib '"' _ (by decide), if_neg (by decide), if_pos rfl,
    Tokenizer.readUntil_none ['"'] true rest
      (fun x hx hm => hrest (by rw [List.mem_singleton] at hm; exact hm ▸ hx))]

/-- The file `{"a": "b}`: the second string is not closed. -/
theorem unterminated_string_witness :
    Tokenizer.tokenize refLib "\x7b\"a\": \"b\x7d".toList =
      .error (.lexError .noClosingCharacter) :=
  unterminated_string refLib "\x7b\"a\": \"b\x7d".toList [' '] "b\x7d".toList
    [⟨[], .ObjectOpen⟩, ⟨"a".toList, .String⟩, ⟨[], .Colon⟩]
    (.next rfl (.next rfl (.next rfl (.start _)))) (by simp) (by decide)

/-! ### C15: white space -/

/-- C15 as amended. `getNextNonWhiteSpaceCharacter` skips blanks, new lines and tabs and
returns the first other character, so `getToken` reads from a text with such characters in
front what it reads from the text itself. White space put into a file where the loop of
`tokenize` is about to call `getToken`, at the start of the file or after a String or
punctuation token, leaves the tokens unchanged. A character at the start of a token that is
neither white space nor the start of a token makes `tokenize` throw a
`Tokenizer::Exception`. -/
theorem whitespace_between_tokens (lib : StdLib) (ws : List Char)
    (hws : ∀ x ∈ ws, x = ' ' ∨ x = '\n' ∨ x = '\t') :
    (∀ c rest, ¬ (c = ' ' ∨ c = '\n' ∨ c = '\t') →
      Tokenizer.getNextNonWhiteSpaceCharacter (ws ++ c :: rest) = (c, rest, false)) ∧
    (∀ s, Tokenizer.getToken lib (ws ++ s) = Tokenizer.getToken lib s) ∧
    (∀ pre s tokens, Tokenizer.Reads lib (pre ++ s) tokens s →
      (∀ t, tokens.getLast? = some t →
        t.type ≠ .Number ∧ t.type ≠ .Boolean ∧ t.type ≠ .Null) →
      Tokenizer.tokenize lib (pre ++ (ws ++ s)) = Tokenizer.tokenize lib (pre ++ s)) ∧
    (∀ file tokens c rest, Tokenizer.Reads lib file tokens (ws ++ c :: rest) →
      ¬ (c = ' ' ∨ c = '\n' ∨ c = '\t') →
      ¬ (('0' ≤ c ∧ c ≤ '9') ∨ c = '-' ∨ c = '.') →
      c ∉ ['"', 't', 'f', 'n', '{', '}', '[', ']', ',', ':', Tokenizer.EOFchar] →
      Tokenizer.tokenize lib file = .error (.lexError (.unknownStart c))) := by
  refine ⟨?_, fun s => Tokenizer.getToken_whitespace lib ws s hws, ?_, ?_⟩
  · intro c rest hc
    rw [Tokenizer.getNext_whitespace ws _ hws, Tokenizer.getNext_cons c rest hc]
  · intro pre s tokens hreads hlast
    rw [Tokenizer.tokenize_of_reads lib _ _ tokens
        (Tokenizer.Reads_insert lib ws _ s tokens hreads pre rfl hlast),
      Tokenizer.tokenize_of_reads lib _ _ tokens hreads,
      Tokenizer.tokenize_whitespace lib ws s hws]
  · intro file tokens c rest hreads hnw hnum hc
    apply Tokenizer.tokenize_error_of_reads lib file _ tokens _ hreads
    simp only [List.mem_cons, List.mem_singleton, List.not_mem_nil, or_false, not_or] at hc
    obtain ⟨h2, h3, h4, h5, h6, h7, h8, h9, h10, h11, h12⟩ := hc
    rw [Tokenizer.getToken_whitespace lib ws _ hws, Tokenizer.getToken_cons lib c rest hnw,
      if_neg hnum, if_neg h2, if_neg h3, if_neg h4, if_neg h5, if_neg h6, if_neg h7, if_neg h8,
      if_neg h9, if_neg h10, if_neg h11, if_neg h12]

/-- A blank and a new line put before the comma of `["a","b"]` change nothing, and a
carriage return before the comma makes `tokenize` throw. -/
theorem whitespace_between_tokens_witness :
    Tokenizer.tokenize refLib ("[\"a\"".toList ++ ([' ', '\n'] ++ ",\"b\"]".toList)) =
      Tokenizer.tokenize refLib ("[\"a\"".toList ++ ",\"b\"]".toList) ∧
    Tokenizer.tokenize refLib "[\"a\" \r,\"b\"]".toList =
      .error (.lexError (.unknownStart '\r')) :=
  ⟨(whitespace_between_tokens refLib [' ', '\n'] (by simp)).2.2.1 "[\"a\"".toList
      ",\"b\"]".toList [⟨[], .ListOpen⟩, ⟨"a".toList, .String⟩]
      (.next rfl (.next rfl (.start _))) (by simp),
    (whitespace_between_tokens refLib [' '] (by simp)).2.2.2 "[\"a\" \r,\"b\"]".toList
      [⟨[], .ListOpen⟩, ⟨"a".toList, .String⟩] '\r' ",\"b\"]".toList
      (.next rfl (.next rfl (.start _))) (by decide) (by decide) (by decide)⟩

/-- C15 as stated fails: a blank put before the comma of `[1,2]` changes the first Number
token from `1` to `1` with a blank, and a blank put before the comma of `[true,1]` makes
`tokenize` throw. -/
theorem whitespace_changes_tokens :
    Tokenizer.tokenize refLib "[1,2]".toList =
      .ok [⟨[], .ListOpen⟩, ⟨"1".toList, .Number⟩, ⟨[], .Comma⟩, ⟨"2".toList, .Number⟩,
        ⟨[], .ListClose⟩, ⟨[], .End⟩] ∧
    Tokenizer.tokenize refLib "[1 ,2]".toList =
      .ok [⟨[], .ListOpen⟩, ⟨"1 ".toList, .Number⟩, ⟨[], .Comma⟩, ⟨"2".toList, .Number⟩,
        ⟨[], .ListClose⟩, ⟨[], .End⟩] ∧
    Tokenizer.tokenize refLib "[true,1]".toList =
      .ok [⟨[], .ListOpen⟩, ⟨"true".toList, .Boolean⟩, ⟨[], .Comma⟩, ⟨"1".toList, .Number⟩,
        ⟨[], .ListClose⟩, ⟨[], .End⟩] ∧
    Tokenizer.tokenize refLib "[true ,1]".toList =
      .error (.lexError (.misspelledBoolean "true ".toList "true".toList)) ∧
    Tokenizer.tokenize refLib "[1 ,2]".toList ≠ Tokenizer.tokenize refLib "[1,2]".toList := by
  have h1 : Tokenizer.tokenize refLib "[1,2]".toList =
      .ok [⟨[], .ListOpen⟩, ⟨"1".toList, .Number⟩, ⟨[], .Comma⟩, ⟨"2".toList, .Number⟩,
        ⟨[], .ListClose⟩, ⟨[], .End⟩] := rfl
  have h2 : Tokenizer.tokenize refLib "[1 ,2]".toList =
      .ok [⟨[], .ListOpen⟩, ⟨"1 ".toList, .Number⟩, ⟨[], .Comma⟩, ⟨"2".toList, .Number⟩,
        ⟨[], .ListClose⟩, ⟨[], .End⟩] := rfl
  refine ⟨h1, h2, rfl, rfl, ?_⟩
  rw [h1, h2]
  simp

/-! ## The map of an Object -/

theorem mem_mapInsert_of_mem {ptr : Type} (key : Str) (child : ptr) (members : List (Str × ptr))
    (kc : Str × ptr) (h : kc ∈ members) : kc ∈ mapInsert key child members := by
  induction members with
  | nil => cases h
  | cons a members ih =>
    obtain ⟨k, p⟩ := a
    simp only [mapInsert]
    split_ifs with h1 h2
    · exact List.mem_cons_of_mem _ h
    · exact h
    · rcases List.mem_cons.1 h with h | h
      · exact List.mem_cons.2 (Or.inl h)
      · exact List.mem_cons.2 (Or.inr (ih h))

/-- The entries of a `std::map` stay in ascending order of their keys when `insert` is
called. -/
theorem mapInsert_pairwise {ptr : Type} (key : Str) (child : ptr) (members : List (Str × ptr))
    (h : members.Pairwise (fun a b => a.1 < b.1)) :
    (mapInsert key child members).Pairwise (fun a b => a.1 < b.1) := by
  induction members with
  | nil => simp [mapInsert]
  | cons a members ih =>
    obtain ⟨k, p⟩ := a
    rw [List.pairwise_cons] at h
    simp only [mapInsert]
    split_ifs with h1 h2
    · rw [List.pairwise_cons]
      refine ⟨?_, List.pairwise_cons.2 h⟩
      intro b hb
      rcases List.mem_cons.1 hb with rfl | hb
      · exact h1
      · exact lt_trans h1 (h.1 b hb)
    · exact List.pairwise_cons.2 h
    · rw [List.pairwise_cons]
      refine ⟨?_, ih h.2⟩
      intro b hb
      rcases mem_mapInsert key child members b hb with hb | rfl
      · exact h.1 b hb
      · exact lt_of_le_of_ne (not_lt.1 h1) (Ne.symm h2)

theorem lookup_cons_self {ptr : Type} (k : Str) (c : ptr) (members : List (Str × ptr)) :
    ((k, c) :: members).lookup k = some c := by
  rw [List.lookup_cons, beq_self_eq_true]

theorem lookup_cons_ne {ptr : Type} (k k' : Str) (c : ptr) (members : List (Str × ptr))
    (h : k ≠ k') : ((k', c) :: members).lookup k = members.lookup k := by
  rw [List.lookup_cons, beq_false_of_ne h]

theorem lookup_eq_none_of_lt {ptr : Type} (k : Str) (members : List (Str × ptr))
    (h : ∀ b ∈ members, k < b.1) : members.lookup k = none := by
  induction members with
  | nil => rfl
  | cons a members ih =>
    obtain ⟨k', p⟩ := a
    have hk := h (k', p) (List.mem_cons_self _ _)
    rw [lookup_cons_ne k k' p members (ne_of_lt hk)]
    exact ih (fun b hb => h b (List.mem_cons_of_mem _ hb))

/-- What `map.find` finds after `map.insert`: the entry that was there under the key looked
for, if any, and else the entry inserted, if its key is the key looked for. -/
theorem lookup_mapInsert {ptr : Type} (key : Str) (child : ptr) (members : List (Str × ptr))
    (h : members.Pairwise (fun a b => a.1 < b.1)) (k : Str) :
    (mapInsert key child members).lookup k =
      (members.lookup k).or (if k = key then some child else none) := by
  induction members with
  | nil =>
    simp only [mapInsert, List.lookup_nil]
    by_cases hk : k = key
    · subst hk
      rw [lookup_cons_self, if_pos rfl]
      rfl
    · rw [lookup_cons_ne k key child [] hk, if_neg hk]
      rfl
  | cons a members ih =>
    obtain ⟨k', p⟩ := a
    rw [List.pairwise_cons] at h
    simp only [mapInsert]
    by_cases h1 : key < k'
    · rw [if_pos h1]
      by_cases hk : k = key
      · subst hk
        have hnone : ((k', p) :: members).lookup k = none :=
          lookup_eq_none_of_lt k _ (fun b hb => by
            rcases List.mem_cons.1 hb with rfl | hb
            · exact h1
            · exact lt_trans h1 (h.1 b hb))
        rw [hnone, lookup_cons_self]
        simp
      · rw [lookup_cons_ne k key child _ hk]
        rcases ((k', p) :: members).lookup k with _ | c
        · simp [hk]
        · rfl
    · rw [if_neg h1]
      by_cases h2 : key = k'
      · rw [if_pos h2]
        subst h2
        by_cases hk : k = key
        · subst hk
          rw [lookup_cons_self]
          rfl
        · rcases ((key, p) :: members).lookup k with _ | c
          · simp [hk]
          · rfl
      · rw [if_neg h2]
        by_cases hk : k = k'
        · subst hk
          rw [lookup_cons_self, lookup_cons_self]
          rfl
        · rw [lookup_cons_ne k k' p _ hk, lookup_cons_ne k k' p _ hk]
          exact ih h.2
/-! ## The map of an Object does not depend on the order of the calls of `insert` -/

theorem mem_mapInsert_self {ptr : Type} (key : Str) (child : ptr) (members : List (Str × ptr))
    (h : key ∉ members.map Prod.fst) : (key, child) ∈ mapInsert key child members := by
  induction members with
  | nil => simp [mapInsert]
  | cons a members ih =>
    obtain ⟨k, p⟩ := a
    simp only [List.map_cons, List.mem_cons, not_or] at h
    simp only [mapInsert]
    by_cases h1 : key < k
    · rw [if_pos h1]
      exact List.mem_cons_self _ _
    · rw [if_neg h1, if_neg h.1]
      exact List.mem_cons_of_mem _ (ih h.2)

theorem foldl_mapInsert_subset {ptr : Type} (insertions init : List (Str × ptr))
    (x : Str × ptr)
    (h : x ∈ insertions.foldl (fun map kc => mapInsert kc.1 kc.2 map) init) :
    x ∈ init ∨ x ∈ insertions := by
  induction insertions generalizing init with
  | nil => exact Or.inl h
  | cons a rest ih =>
    rw [List.foldl_cons] at h
    rcases ih _ h with h | h
    · rcases mem_mapInsert _ _ _ _ h with h | h
      · exact Or.inl h
      · exact Or.inr (h ▸ List.mem_cons_self _ _)
    · exact Or.inr (List.mem_cons_of_mem _ h)

theorem foldl_mapInsert_mono {ptr : Type} (insertions init : List (Str × ptr))
    (x : Str × ptr) (h : x ∈ init) :
    x ∈ insertions.foldl (fun map kc => mapInsert kc.1 kc.2 map) init := by
  induction insertions generalizing init with
  | nil => exact h
  | cons a rest ih =>
    rw [List.foldl_cons]
    exact ih _ (mem_mapInsert_of_mem _ _ _ _ h)

theorem foldl_mapInsert_mem {ptr : Type} (insertions init : List (Str × ptr))
    (hnodup : (insertions.map Prod.fst).Nodup)
    (hdisj : ∀ x ∈ insertions, x.1 ∉ init.map Prod.fst) (x : Str × ptr)
    (h : x ∈ insertions) :
    x ∈ insertions.foldl (fun map kc => mapInsert kc.1 kc.2 map) init := by
  induction insertions generalizing init with
  | nil => cases h
  | cons a rest ih =>
    rw [List.foldl_cons]
    rw [List.map_cons, List.nodup_cons] at hnodup
    rcases List.mem_cons.1 h with rfl | h
    · exact foldl_mapInsert_mono _ _ _
        (mem_mapInsert_self _ _ _ (hdisj x (List.mem_cons_self _ _)))
    · refine ih _ hnodup.2 ?_ h
      intro y hy hmem
      obtain ⟨z, hz, hzy⟩ := List.mem_map.1 hmem
      rcases mem_mapInsert _ _ _ _ hz with hz | rfl
      · exact hdisj y (List.mem_cons_of_mem _ hy) (hzy ▸ List.mem_map_of_mem _ hz)
      · exact hnodup.1 (hzy ▸ List.mem_map_of_mem _ hy)

theorem foldl_mapInsert_pairwise {ptr : Type} (insertions init : List (Str × ptr))
    (h : init.Pairwise (fun a b => a.1 < b.1)) :
    (insertions.foldl (fun map kc => mapInsert kc.1 kc.2 map) init).Pairwise
      (fun a b => a.1 < b.1) := by
  induction insertions generalizing init with
  | nil => exact h
  | cons a rest ih =>
    rw [List.foldl_cons]
    exact ih _ (mapInsert_pairwise _ _ _ h)

/-- Entries with different keys inserted in an empty `std::map` give the same map in every
order of the calls. -/
theorem foldl_mapInsert_perm {ptr : Type} (l1 l2 : List (Str × ptr)) (hperm : l1.Perm l2)
    (hnodup : (l1.map Prod.fst).Nodup) :
    l1.foldl (fun map kc => mapInsert kc.1 kc.2 map) [] =
      l2.foldl (fun map kc => mapInsert kc.1 kc.2 map) [] := by
  have hnodup2 : (l2.map Prod.fst).Nodup := (hperm.map Prod.fst).nodup_iff.1 hnodup
  have hs1 := foldl_mapInsert_pairwise l1 [] List.Pairwise.nil
  have hs2 := foldl_mapInsert_pairwise l2 [] List.Pairwise.nil
  have hn : ∀ l : List (Str × ptr), l.Pairwise (fun a b => a.1 < b.1) → l.Nodup := by
    intro l hl
    exact hl.imp (fun hab heq => absurd (heq ▸ hab) (lt_irrefl _))
  haveI : IsAntisymm (Str × ptr) (fun a b => a.1 < b.1) :=
    ⟨fun a b h1 h2 => absurd h2 (lt_asymm h1)⟩
  refine List.eq_of_perm_of_sorted ?_ hs1 hs2
  rw [List.perm_ext_iff_of_nodup (hn _ hs1) (hn _ hs2)]
  intro x
  constructor
  · intro hx
    rcases foldl_mapInsert_subset l1 [] x hx with hx | hx
    · cases hx
    · exact foldl_mapInsert_mem l2 [] hnodup2 (by simp) x (hperm.mem_iff.1 hx)
  · intro hx
    rcases foldl_mapInsert_subset l2 [] x hx with hx | hx
    · cases hx
    · exact foldl_mapInsert_mem l1 [] hnodup (by simp) x (hperm.mem_iff.2 hx)

/-- A call of `map.insert` with a key that the map holds leaves the map as it is. -/
theorem mapInsert_of_mem_keys {ptr : Type} (key : Str) (child : ptr)
    (members : List (Str × ptr)) (hs : members.Pairwise (fun a b => a.1 < b.1))
    (h : key ∈ members.map Prod.fst) : mapInsert key child members = members := by
  induction members with
  | nil => simp at h
  | cons a members ih =>
    obtain ⟨k, p⟩ := a
    rw [List.pairwise_cons] at hs
    simp only [List.map_cons, List.mem_cons] at h
    simp only [mapInsert]
    rcases h with rfl | h
    · rw [if_neg (lt_irrefl _), if_pos rfl]
    · obtain ⟨b, hb, hbk⟩ := List.mem_map.1 h
      have hlt : k < key := hbk ▸ hs.1 b hb
      rw [if_neg (not_lt_of_gt hlt), if_neg (ne_of_gt hlt), ih hs.2 h]

/-! ## The parser: the five kinds of step, and what a step does to the store -/

namespace Parser

/-- A step of the parser that succeeds is one of five. After a comma, a colon or the end,
the members `lastState` and `state` are assigned and nothing else is done. After a String
read as a key, `lastKey` is assigned as well. After a closing bracket the top of
`hierarchy` is popped. After a value, a node that is no container is made and attached.
After an opening bracket a container with nothing in it is made, attached unless it is the
first node, and pushed. -/
theorem step_inv (lib : StdLib) (m m' : Machine) (t : Token) (h : step lib m t = .ok m') :
    (∃ s, ((s = .Colon ∧ m.state = .Key) ∨ ((s = .Comma ∨ s = .End) ∧ m.state ≠ .ObjectOpen)) ∧
      m' = { m with lastState := m.state, state := s }) ∨
    (m' = { m with lastState := m.state, state := .Key, lastKey := t.value } ∧
      currentlyInAnObject m = true) ∨
    (∃ s, (s = .ObjectClose ∨ s = .ListClose) ∧
      popBack { m with lastState := m.state, state := s } = .ok m') ∨
    (∃ v, ((∀ children, v ≠ .list children) ∧ (∀ members, v ≠ .object members)) ∧
      (m.state = .Colon ∨ m.state = .Comma ∨ m.state = .ListOpen) ∧
      addChildValue { m with lastState := m.state, state := .Value } v = .ok m') ∨
    (∃ s v, ((v = .object [] ∧ s = .ObjectOpen) ∨ (v = .list [] ∧ s = .ListOpen)) ∧
      (m.state = .Start ∨ m.state = .Colon) ∧
      openContainer { m with lastState := m.state, state := s } v = .ok m') := by
  have hprev : ∀ (s : State) (k : Str) (allowed : List State) (u : Unit),
      requirePreviousState { m with lastState := m.state, state := s, lastKey := k } allowed =
        .ok u → m.state ∈ allowed :=
    fun s k allowed u hr => requirePreviousState_ok _ _ u hr
  obtain ⟨value, type⟩ := t
  simp only [step, switchCase] at h
  cases type <;> dsimp only at h
  case ObjectOpen =>
    split at h
    · cases h
    · rename_i u hr
      have hs := hprev _ m.lastKey _ u hr
      simp only [List.mem_cons, List.mem_singleton, List.not_mem_nil, or_false] at hs
      exact Or.inr (Or.inr (Or.inr (Or.inr ⟨_, _, Or.inl ⟨rfl, rfl⟩, hs, h⟩)))
  case ListOpen =>
    split at h
    · cases h
    · rename_i u hr
      have hs := hprev _ m.lastKey _ u hr
      simp only [List.mem_cons, List.mem_singleton, List.not_mem_nil, or_false] at hs
      exact Or.inr (Or.inr (Or.inr (Or.inr ⟨_, _, Or.inr ⟨rfl, rfl⟩, hs, h⟩)))
  case ObjectClose =>
    split at h
    · cases h
    · split_ifs at h
      exact Or.inr (Or.inr (Or.inl ⟨_, Or.inl rfl, h⟩))
  case ListClose =>
    split at h
    · cases h
    · split_ifs at h
      exact Or.inr (Or.inr (Or.inl ⟨_, Or.inr rfl, h⟩))
  case Comma =>
    split at h
    · cases h
    · rename_i u hr
      have hs := hprev _ m.lastKey _ u hr
      simp only [Except.ok.injEq] at h
      refine Or.inl ⟨_, Or.inr ⟨Or.inl rfl, ?_⟩, h.symm⟩
      intro hO
      rw [hO] at hs
      simp at hs
  case Colon =>
    split at h
    · cases h
    · rename_i u hr
      have hs := hprev _ m.lastKey _ u hr
      simp only [List.mem_singleton] at hs
      simp only [Except.ok.injEq] at h
      exact Or.inl ⟨_, Or.inl ⟨rfl, hs⟩, h.symm⟩
  case End =>
    split at h
    · cases h
    · rename_i u hr
      have hs := hprev _ m.lastKey _ u hr
      simp only [Except.ok.injEq] at h
      refine Or.inl ⟨_, Or.inr ⟨Or.inr rfl, ?_⟩, h.symm⟩
      intro hO
      rw [hO] at hs
      simp at hs
  case Boolean =>
    split at h
    · cases h
    · rename_i u hr
      have hs := hprev _ m.lastKey _ u hr
      simp only [List.mem_cons, List.mem_singleton, List.not_mem_nil, or_false] at hs
      split_ifs at h
      all_goals exact Or.inr (Or.inr (Or.inr (Or.inl ⟨_, ⟨by simp, by simp⟩, hs, h⟩)))
  case Null =>
    split at h
    · cases h
    · rename_i u hr
      have hs := hprev _ m.lastKey _ u hr
      simp only [List.mem_cons, List.mem_singleton, List.not_mem_nil, or_false] at hs
      exact Or.inr (Or.inr (Or.inr (Or.inl ⟨_, ⟨by simp, by simp⟩, hs, h⟩)))
  case Number =>
    split at h
    · cases h
    · rename_i u hr
      have hs := hprev _ m.lastKey _ u hr
      simp only [List.mem_cons, List.mem_singleton, List.not_mem_nil, or_false] at hs
      split at h
      · cases h
      · split_ifs at h
        · split at h
          · cases h
          · exact Or.inr (Or.inr (Or.inr (Or.inl ⟨_, ⟨by simp, by simp⟩, hs, h⟩)))
        · exact Or.inr (Or.inr (Or.inr (Or.inl ⟨_, ⟨by simp, by simp⟩, hs, h⟩)))
  case String =>
    split_ifs at h with hkey hvalue
    · split at h
      · cases h
      · simp only [Except.ok.injEq] at h
        refine Or.inr (Or.inl ⟨h.symm, ?_⟩)
        simp only [Bool.and_eq_true] at hkey
        exact hkey.2
    · split at h
      · cases h
      · rename_i m1 ha
        split at h
        · cases h
        · simp only [Except.ok.injEq] at h
          subst h
          have hs : m.state = .Colon ∨ m.state = .Comma ∨ m.state = .ListOpen := by
            simp only [checkPreviousState, Bool.or_eq_true, Bool.and_eq_true,
              decide_eq_true_eq, List.mem_cons, List.mem_singleton, List.not_mem_nil,
              or_false] at hvalue
            rcases hvalue with ⟨h1 | h1, -⟩ | ⟨h1, -⟩
            · exact Or.inr (Or.inr h1)
            · exact Or.inr (Or.inl h1)
            · exact Or.inl h1
          exact Or.inr (Or.inr (Or.inr (Or.inl ⟨_, ⟨by simp, by simp⟩, hs, ha⟩)))

/-- What a step of the parser that succeeds does to the store: nothing; or a container with
nothing in it is put at its end (the first node of the document); or a node that is no
container, or a container with nothing in it, is put at its end and the pointer to it is
given to the innermost container: appended to the children of a List, inserted under
`lastKey` in the map of an Object. -/
theorem step_heap (lib : StdLib) (m m' : Machine) (t : Token) (h : step lib m t = .ok m')
    (hv : Valid m) :
    m'.heap = m.heap ∨
    (∃ v, (v = Value.object [] ∨ v = Value.list []) ∧ m.state = .Start ∧
      m'.heap = m.heap ++ [Cell.of v]) ∨
    (∃ v p, ((∀ children, v = Value.list children → children = []) ∧
        (∀ members, v = Value.object members → members = [])) ∧
      m.hierarchy.getLast? = some p ∧
      ((∃ children, m.heap[p]? = some (.of (.list children)) ∧
          m'.heap =
            (m.heap ++ [Cell.of v]).set p (Cell.of (.list (children ++ [m.heap.length])))) ∨
        (∃ members, m.heap[p]? = some (.of (.object members)) ∧
          m'.heap = (m.heap ++ [Cell.of v]).set p
            (Cell.of (.object (mapInsert m.lastKey m.heap.length members)))))) := by
  have attach : ∀ (s : State) (v : Value Ptr) (m1 : Machine),
      addChildNode (makeShared { m with lastState := m.state, state := s } (.of v)).1
        (makeShared { m with lastState := m.state, state := s } (.of v)).2 = .ok m1 →
      ∃ p, m.hierarchy.getLast? = some p ∧
        ((∃ children, m.heap[p]? = some (.of (.list children)) ∧
            m1.heap =
              (m.heap ++ [Cell.of v]).set p (Cell.of (.list (children ++ [m.heap.length])))) ∨
          (∃ members, m.heap[p]? = some (.of (.object members)) ∧
            m1.heap = (m.heap ++ [Cell.of v]).set p
              (Cell.of (.object (mapInsert m.lastKey m.heap.length members))))) := by
    intro s v m1 ha
    obtain ⟨p, hp, hcase⟩ := addChildNode_ok _ _ _ ha
    have hp' : m.hierarchy.getLast? = some p := hp
    have hlt : p < m.heap.length := hv.2 p (List.mem_of_getLast?_eq_some hp')
    have hget : ∀ c, (m.heap ++ [Cell.of v])[p]? = some c → m.heap[p]? = some c := by
      intro c hc
      rw [List.getElem?_append_left hlt] at hc
      exact hc
    refine ⟨p, hp', ?_⟩
    rcases hcase with ⟨children, hc, rfl⟩ | ⟨members, hc, rfl⟩
    · exact Or.inl ⟨children, hget _ hc, rfl⟩
    · exact Or.inr ⟨members, hget _ hc, rfl⟩
  rcases step_inv lib m m' t h with ⟨s, -, rfl⟩ | ⟨rfl, -⟩ | ⟨s, -, hpop⟩ |
    ⟨v, ⟨hl, ho⟩, -, ha⟩ | ⟨s, v, hv', -, ho⟩
  · exact Or.inl rfl
  · exact Or.inl rfl
  · obtain ⟨rfl, -⟩ := popBack_frame _ _ hpop
    exact Or.inl rfl
  · obtain ⟨p, hp, hcase⟩ := attach .Value v m' ha
    exact Or.inr (Or.inr ⟨v, p, ⟨fun c hc => absurd hc (hl c), fun c hc => absurd hc (ho c)⟩,
      hp, hcase⟩)
  · have hfresh : (∀ children, v = Value.list children → children = []) ∧
        (∀ members, v = Value.object members → members = []) := by
      rcases hv' with ⟨rfl, -⟩ | ⟨rfl, -⟩ <;> simp
    have hv'' : v = Value.object [] ∨ v = Value.list [] := by
      rcases hv' with ⟨rfl, -⟩ | ⟨rfl, -⟩
      · exact Or.inl rfl
      · exact Or.inr rfl
    unfold openContainer at ho
    by_cases hs : m.state = .Start
    · rw [if_pos hs] at ho
      simp only [Except.ok.injEq] at ho
      subst ho
      exact Or.inr (Or.inl ⟨v, hv'', hs, rfl⟩)
    · rw [if_neg hs] at ho
      rcases ha : addChildNode (makeShared { m with lastState := m.state, state := s } (.of v)).1
        (makeShared { m with lastState := m.state, state := s } (.of v)).2 with e | m1
      · rw [ha] at ho
        cases ho
      · rw [ha] at ho
        simp only [Except.ok.injEq] at ho
        subst ho
        obtain ⟨p, hp, hcase⟩ := attach s v m1 ha
        exact Or.inr (Or.inr ⟨v, p, hfresh, hp, hcase⟩)

/-- What a step of the parser that succeeds does to the map of an Object of the store:
nothing, or, when the Object is the innermost container and a node is made, `map.insert`
with `lastKey` and the pointer to the new node. -/
theorem step_object (lib : StdLib) (m m' : Machine) (t : Token) (h : step lib m t = .ok m')
    (hv : Valid m) (p : Nat) (members : List (Str × Ptr))
    (hp : m.heap[p]? = some (.of (.object members))) :
    m'.heap[p]? = some (.of (.object members)) ∨
    (m.hierarchy.getLast? = some p ∧
      m'.heap[p]? = some (Cell.of (.object (mapInsert m.lastKey m.heap.length members)))) := by
  have hlt : p < m.heap.length := by
    by_contra hcon
    rw [List.getElem?_eq_none (Nat.le_of_not_lt hcon)] at hp
    cases hp
  rcases step_heap lib m m' t h hv with heq | ⟨v, -, -, heq⟩ | ⟨v, q, -, hq, hcase⟩
  · rw [heq]
    exact Or.inl hp
  · rw [heq, List.getElem?_append_left hlt]
    exact Or.inl hp
  · by_cases hpq : q = p
    · subst hpq
      rcases hcase with ⟨children, hc, -⟩ | ⟨members', hc, heq⟩
      · rw [hp] at hc
        cases hc
      · rw [hp] at hc
        simp only [Option.some.injEq, Cell.of.injEq, Value.object.injEq] at hc
        subst hc
        refine Or.inr ⟨hq, ?_⟩
        rw [heq, List.getElem?_set_self (by rw [List.length_append]; omega)]
    · have hne : (m.heap ++ [Cell.of v])[p]? = some (.of (.object members)) := by
        rw [List.getElem?_append_left hlt]
        exact hp
      rcases hcase with ⟨children, -, heq⟩ | ⟨members', -, heq⟩
      · rw [heq, List.getElem?_set_ne hpq]
        exact Or.inl hne
      · rw [heq, List.getElem?_set_ne hpq]
        exact Or.inl hne

/-- The maps of the Objects of the store are in ascending order of their keys. -/
theorem sorted_step (lib : StdLib) (m m' : Machine) (t : Token) (h : step lib m t = .ok m')
    (hv : Valid m)
    (hs : ∀ (p : Nat) (members : List (Str × Ptr)), m.heap[p]? = some (.of (.object members)) →
      members.Pairwise (fun a b => a.1 < b.1)) :
    ∀ (p : Nat) (members : List (Str × Ptr)), m'.heap[p]? = some (.of (.object members)) →
      members.Pairwise (fun a b => a.1 < b.1) := by
  intro p members hp
  have happ : ∀ v : Value Ptr, (∀ members, v = Value.object members → members = []) →
      (m.heap ++ [Cell.of v])[p]? = some (.of (.object members)) →
      members.Pairwise (fun a b => a.1 < b.1) := by
    intro v hfresh hp
    by_cases hlt : p < m.heap.length
    · rw [List.getElem?_append_left hlt] at hp
      exact hs p members hp
    · rw [List.getElem?_append_right (Nat.le_of_not_lt hlt)] at hp
      cases hsub : p - m.heap.length with
      | zero =>
        rw [hsub] at hp
        simp only [List.getElem?_cons_zero, Option.some.injEq, Cell.of.injEq] at hp
        rw [hfresh members hp]
        exact List.Pairwise.nil
      | succ n =>
        rw [hsub] at hp
        simp at hp
  rcases step_heap lib m m' t h hv with heq | ⟨v, hv', -, heq⟩ | ⟨v, q, hfresh, hq, hcase⟩
  · rw [heq] at hp
    exact hs p members hp
  · rw [heq] at hp
    refine happ v ?_ hp
    rcases hv' with rfl | rfl <;> simp
  · by_cases hpq : q = p
    · subst hpq
      have hlt : q < (m.heap ++ [Cell.of v]).length := by
        rw [List.length_append]
        exact Nat.lt_add_right _ (hv.2 q (List.mem_of_getLast?_eq_some hq))
      rcases hcase with ⟨children, -, heq⟩ | ⟨members', hc, heq⟩
      · rw [heq, List.getElem?_set_self hlt] at hp
        simp at hp
      · rw [heq, List.getElem?_set_self hlt] at hp
        simp only [Option.some.injEq, Cell.of.injEq, Value.object.injEq] at hp
        subst hp
        exact mapInsert_pairwise _ _ _ (hs q members' hc)
    · rcases hcase with ⟨children, -, heq⟩ | ⟨members', -, heq⟩
      · rw [heq, List.getElem?_set_ne hpq] at hp
        exact happ v hfresh.2 hp
      · rw [heq, List.getElem?_set_ne hpq] at hp
        exact happ v hfresh.2 hp

theorem sorted_parseTokens (lib : StdLib) (self : Parser) (tokens : List Token) (m : Machine)
    (h : parseTokens lib (start self) tokens = .ok m) :
    Valid m ∧ ∀ (p : Nat) (members : List (Str × Ptr)),
      m.heap[p]? = some (.of (.object members)) → members.Pairwise (fun a b => a.1 < b.1) := by
  have general : ∀ (tokens : List Token) (m0 m : Machine), parseTokens lib m0 tokens = .ok m →
      Valid m0 →
      (∀ (p : Nat) (members : List (Str × Ptr)), m0.heap[p]? = some (.of (.object members)) →
        members.Pairwise (fun a b => a.1 < b.1)) →
      Valid m ∧ ∀ (p : Nat) (members : List (Str × Ptr)),
        m.heap[p]? = some (.of (.object members)) →
          members.Pairwise (fun a b => a.1 < b.1) := by
    intro tokens
    induction tokens with
    | nil =>
      intro m0 m h hv hs
      simp only [parseTokens, Except.ok.injEq] at h
      subst h
      exact ⟨hv, hs⟩
    | cons t tokens ih =>
      intro m0 m h hv hs
      obtain ⟨m1, hst, hrest⟩ := parseTokens_cons_ok lib m0 m t tokens h
      exact ih m1 m hrest (Valid_step lib m0 m1 t hst hv) (sorted_step lib m0 m1 t hst hv hs)
  refine general tokens (start self) m h (Valid_start self) ?_
  intro p members hp
  match p, hp with
  | 0, hp => cases hp
  | 1, hp => cases hp
  | p + 2, hp => cases hp

end Parser

namespace Parser

theorem openContainer_lastKey (m m' : Machine) (v : Value Ptr)
    (h : openContainer m v = .ok m') : m'.lastKey = m.lastKey := by
  unfold openContainer at h
  by_cases hs : m.lastState = .Start
  · rw [if_pos hs] at h
    simp only [Except.ok.injEq] at h
    subst h
    rfl
  · rw [if_neg hs] at h
    rcases ha : addChildNode (makeShared m (.of v)).1 (makeShared m (.of v)).2 with e | m1
    · rw [ha] at h
      cases h
    · rw [ha] at h
      simp only [Except.ok.injEq] at h
      subst h
      obtain ⟨h1, -⟩ := addChildNode_frame _ _ _ ha
      exact h1.2.2.2

/-- A step of the parser that succeeds leaves `lastKey` as it is, unless it reads a key. -/
theorem step_lastKey (lib : StdLib) (m m' : Machine) (t : Token) (h : step lib m t = .ok m') :
    m'.lastKey = m.lastKey ∨
      (t.type = .String ∧ m'.state = .Key ∧ m'.lastKey = t.value ∧ m'.heap = m.heap) := by
  have hty : m'.state = .Key → t.type = .String := by
    intro hk
    have hafter := (step_frame lib m m' t h).2.2.1
    rw [hk] at hafter
    cases ht : t.type <;> rw [ht] at hafter <;> simp [StateAfter] at hafter
  rcases step_inv lib m m' t h with ⟨s, -, rfl⟩ | ⟨rfl, -⟩ | ⟨s, -, hpop⟩ |
    ⟨v, -, -, ha⟩ | ⟨s, v, -, -, ho⟩
  · exact Or.inl rfl
  · exact Or.inr ⟨hty rfl, rfl, rfl, rfl⟩
  · obtain ⟨rfl, -⟩ := popBack_frame _ _ hpop
    exact Or.inl rfl
  · obtain ⟨h1, -⟩ := addChildValue_frame _ _ _ ha
    exact Or.inl h1.2.2.2
  · exact Or.inl
      (openContainer_lastKey ⟨⟨m.hierarchy, m.state, s, m.lastKey⟩, m.heap, m.root⟩ m' v ho)

end Parser

/-! ### C16: `at` with an index -/

/-- C16. For every node `n` and index `i`: when `n` is a List of `size` children, `n.at(i)`
returns the child at place `i` if `i < size` and throws the `Node::Exception` "indexed out of
range" with `i` and `size` otherwise; when `n` is of another type, it throws the
`Node::Exception` "Requested vector-like indexing"; and it leaves `n` as it is. The places are
those of insertion: a child appended to a List is found at the place `size`, and the
children before it where they were. -/
theorem index_by_integer (n : Node) (i : Nat) :
    (∀ children : List Node, n = .of (.list children) →
      (∀ h : i < children.length, (n.atIndex i).1 = .ok (children.get ⟨i, h⟩)) ∧
      (children.length ≤ i →
        (n.atIndex i).1 = .error (.nodeError (.indexOutOfRange i children.length))) ∧
      (∀ child : Node,
        ((Node.of (.list (children ++ [child]))).atIndex children.length).1 = .ok child ∧
        (i < children.length →
          ((Node.of (.list (children ++ [child]))).atIndex i).1 = (n.atIndex i).1))) ∧
    (n.type ≠ .List →
      (n.atIndex i).1 = .error (.nodeError (.vectorIndexingOn n.getTypeAsString))) ∧
    (n.atIndex i).2 = n := by
  refine ⟨?_, ?_, ?_⟩
  · rintro children rfl
    refine ⟨?_, ?_, ?_⟩
    · intro h
      simp [Node.atIndex, Node.operatorIndex, Node.value, h]
    · intro h
      simp [Node.atIndex, Node.operatorIndex, Node.value, Nat.not_lt.2 h]
    · intro child
      constructor
      · simp [Node.atIndex, Node.operatorIndex, Node.value]
      · intro h
        have h'' : i < children.length + 1 := Nat.lt_succ_of_lt h
        simp [Node.atIndex, Node.operatorIndex, Node.value, h, h'', List.getElem_append_left]
  · intro hn
    cases n with
    | root => rfl
    | of value =>
      cases value <;> first | rfl | exact absurd rfl hn
  · cases n with
    | root => rfl
    | of value =>
      cases value <;> first
        | rfl
        | (simp only [Node.atIndex, Node.operatorIndex, Node.value]; split <;> rfl)

/-! ### C17: `at` with a key -/

theorem Node.c_str_of_not_mem (k : Str) (h : Char.ofNat 0 ∉ k) : Node.c_str k = k := by
  unfold Node.c_str
  rw [List.takeWhile_eq_self_iff]
  intro c hc
  simp only [ne_eq, decide_not, Bool.not_eq_true', decide_eq_false_iff_not]
  rintro rfl
  exact h hc

/-- C17 as amended. For every node `n` and key `k`, `n.at(k)` looks for the characters of `k`
before its first null character, which are all of `k` when it has none: when `n` is an
Object it returns the entry of the map under these characters if there is one and throws the
`Node::Exception` "does not exists" if there is none; when `n` is of another type it throws
the `Node::Exception` "Requested map-like indexing". While a file is parsed, the maps of the
Objects made are in ascending order of their keys, and a step of the parser leaves the map
of an Object as it is or, when the Object is the innermost container and a node is made,
inserts the node under `lastKey`, be the key read for this Object or not; after that,
`map.find` finds the keys it found before and `lastKey`. The Object that `parse` returns has
the keys of the map. -/
theorem index_by_key (n : Node) (k : Str) :
    (∀ members : List (Str × Node), n = .of (.object members) →
      (∀ child, members.lookup (Node.c_str k) = some child → (n.atKey k).1 = .ok child) ∧
      (members.lookup (Node.c_str k) = none →
        (n.atKey k).1 = .error (.nodeError (.keyDoesNotExist (Node.c_str k))))) ∧
    (n.type ≠ .Object →
      (n.atKey k).1 = .error (.nodeError (.mapIndexingOn n.getTypeAsString))) ∧
    (n.atKey k).2 = n ∧
    (Char.ofNat 0 ∉ k → Node.c_str k = k) ∧
    (∀ (self : Parser) (lib : StdLib) (tokens : List Token) (m : Machine),
      Parser.parseTokens lib (Parser.start self) tokens = .ok m →
      ∀ (p : Nat) (members : List (Str × Ptr)), m.heap[p]? = some (.of (.object members)) →
        members.Pairwise (fun a b => a.1 < b.1) ∧
        (∀ fuel, m.heap.readback (fuel + 1) p =
          .of (.object (members.map (fun kp => (kp.1, m.heap.readback fuel kp.2))))) ∧
        ∀ t m', Parser.step lib m t = .ok m' →
          m'.heap[p]? = some (.of (.object members)) ∨
          (m.hierarchy.getLast? = some p ∧
            m'.heap[p]? =
              some (.of (.object (mapInsert m.lastKey m.heap.length members))) ∧
            ∀ key, (mapInsert m.lastKey m.heap.length members).lookup key =
              (members.lookup key).or (if key = m.lastKey then some m.heap.length else none))) := by
  refine ⟨?_, ?_, ?_, Node.c_str_of_not_mem k, ?_⟩
  · rintro members rfl
    constructor
    · intro child hc
      simp [Node.atKey, Node.operatorKey, Node.value, hc]
    · intro hc
      simp [Node.atKey, Node.operatorKey, Node.value, hc]
  · intro hn
    cases n with
    | root => rfl
    | of value =>
      cases value <;> first | rfl | exact absurd rfl hn
  · cases n with
    | root => rfl
    | of value =>
      cases value <;> first
        | rfl
        | (simp only [Node.atKey, Node.operatorKey, Node.value]; split <;> rfl)
  · intro self lib tokens m hm p members hp
    obtain ⟨hv, hs⟩ := Parser.sorted_parseTokens lib self tokens m hm
    refine ⟨hs p members hp, ?_, ?_⟩
    · intro fuel
      simp only [Heap.readback, hp]
    · intro t m' hst
      rcases Parser.step_object lib m m' t hst hv p members hp with h1 | ⟨h1, h2⟩
      · exact Or.inl h1
      · exact Or.inr ⟨h1, h2, lookup_mapInsert _ _ _ (hs p members hp)⟩

/-- C17 as stated fails. In `{"a":{"b":1},true}` the value `true` comes after a comma, with
no key of its own: it is inserted in the outer Object under `b`, the key read last, and
`at("b")` on the Object that `parse` returns succeeds, though `b` is a key of the inner
Object only. And `at` with the key `a`, a null character, `b` on the Object parsed from a
file with that key looks for `a` and finds nothing. -/
theorem key_of_inner_object :
    Parser.parse .new refLib "\x7b\"a\":\x7b\"b\":1\x7d,true\x7d".toList =
      .ok (.of (.object [("a".toList, .of (.object [("b".toList, .of (.int 1))])),
        ("b".toList, .of (.bool true))])) ∧
    ((Node.of (.object [("a".toList, .of (.object [("b".toList, .of (.int 1))])),
        ("b".toList, .of (.bool true))])).atKey "b".toList).1 = .ok (.of (.bool true)) ∧
    Parser.parse .new refLib
        ['\x7b', '"', 'a', Char.ofNat 0, 'b', '"', ':', 'n', 'u', 'l', 'l', '\x7d'] =
      .ok (.of (.object [(['a', Char.ofNat 0, 'b'], .of .null)])) ∧
    ((Node.of (.object [(['a', Char.ofNat 0, 'b'], .of .null)])).atKey
      ['a', Char.ofNat 0, 'b']).1 = .error (.nodeError (.keyDoesNotExist ['a'])) :=
  ⟨rfl, rfl, rfl, rfl⟩

/-! ## The conversion `(int)` of a `double` -/

namespace Double

theorem tdiv_eq_floor (q : ℚ) (h : 0 ≤ q) : Int.tdiv q.num q.den = ⌊q⌋ := by
  rw [Rat.floor_def, Int.tdiv_eq_ediv (Rat.num_nonneg.2 h) (Int.natCast_nonneg _)]

theorem tdiv_eq_ceil (q : ℚ) (h : q ≤ 0) : Int.tdiv q.num q.den = ⌈q⌉ := by
  have h1 := tdiv_eq_floor (-q) (neg_nonneg.2 h)
  rw [Rat.neg_num, Rat.neg_den, Int.neg_tdiv, Int.floor_neg] at h1
  exact neg_injective h1

/-- The conversion `(int)` of a finite `double` truncates toward zero, when the truncated
value is a value of `int`. -/
theorem toInt_finite (q : ℚ) :
    toInt (.finite q) =
      if INT_MIN ≤ (if 0 ≤ q then ⌊q⌋ else ⌈q⌉) ∧ (if 0 ≤ q then ⌊q⌋ else ⌈q⌉) ≤ INT_MAX then
        some (if 0 ≤ q then ⌊q⌋ else ⌈q⌉)
      else none := by
  have : Int.tdiv q.num q.den = if 0 ≤ q then ⌊q⌋ else ⌈q⌉ := by
    by_cases h : 0 ≤ q
    · rw [if_pos h, tdiv_eq_floor q h]
    · rw [if_neg h, tdiv_eq_ceil q (le_of_lt (not_le.1 h))]
  simp only [toInt, this]

end Double

/-! ### C18: conversions -/

/-- C18 as amended. For every node made with a value: the conversion to `bool` returns the
value of a Boolean node and the conversion to `std::string` that of a String node, and
each throws the `Node::Exception` "Cannot convert" on a node of another type. The conversions
to `int` and to `double` throw it on a node that is not a Number; on a Number that holds an
`int` they return it, as it is or as a `double`; on a Number that holds a `double` the
conversion to `double` returns it, and the conversion to `int` returns it truncated toward
zero when the truncated value is a value of `int`, and is undefined otherwise. -/
theorem scalar_conversions (n : Node) (hn : n ≠ .root) :
    (∀ b, n = .of (.bool b) → n.operatorBool = .ok b) ∧
    ((∃ b, n.operatorBool = .ok b) → n.type = .Boolean) ∧
    (n.type ≠ .Boolean →
      n.operatorBool = .error (.nodeError (.cannotConvert n.getTypeAsString "bool".toList))) ∧
    (∀ s, n = .of (.string s) → n.operatorString = .ok s) ∧
    ((∃ s, n.operatorString = .ok s) → n.type = .String) ∧
    (n.type ≠ .String →
      n.operatorString =
        .error (.nodeError (.cannotConvert n.getTypeAsString "std::string".toList))) ∧
    (∀ i, n = .of (.int i) → n.operatorInt = .ok i ∧ n.operatorDouble = .ok (.finite i)) ∧
    (∀ d, n = .of (.double d) → n.operatorDouble = .ok d) ∧
    (∀ q : ℚ, n = .of (.double (.finite q)) →
      n.operatorInt =
        if INT_MIN ≤ (if 0 ≤ q then ⌊q⌋ else ⌈q⌉) ∧ (if 0 ≤ q then ⌊q⌋ else ⌈q⌉) ≤ INT_MAX then
          .ok (if 0 ≤ q then ⌊q⌋ else ⌈q⌉)
        else .error .undefinedBehaviour) ∧
    (∀ d, n = .of (.double d) → (∀ q, d ≠ .finite q) →
      n.operatorInt = .error .undefinedBehaviour) ∧
    (n.type ≠ .Number →
      n.operatorInt = .error (.nodeError (.cannotConvert n.getTypeAsString "int".toList)) ∧
      n.operatorDouble =
        .error (.nodeError (.cannotConvert n.getTypeAsString "double".toList))) := by
  cases n with
  | root => exact absurd rfl hn
  | of value =>
    refine ⟨?_, ?_, ?_, ?_, ?_, ?_, ?_, ?_, ?_, ?_, ?_⟩
    · rintro b ⟨⟩
      rfl
    · rintro ⟨b, hb⟩
      cases value <;> first | rfl | cases hb
    · intro h
      cases value <;> first | rfl | exact absurd rfl h
    · rintro s ⟨⟩
      rfl
    · rintro ⟨s, hs⟩
      cases value <;> first | rfl | cases hs
    · intro h
      cases value <;> first | rfl | exact absurd rfl h
    · rintro i ⟨⟩
      exact ⟨rfl, rfl⟩
    · rintro d ⟨⟩
      rfl
    · rintro q ⟨⟩
      simp only [Node.operatorInt, Node.value, Double.toInt_finite]
      split_ifs <;> rfl
    · rintro d ⟨⟩ hd
      cases d with
      | finite q => exact absurd rfl (hd q)
      | infinite s => rfl
      | nan => rfl
    · intro h
      cases value <;> first | exact ⟨rfl, rfl⟩ | exact absurd rfl h

/-- The Number that holds `-7/2`: the conversion to `int` gives `-3`. -/
theorem scalar_conversions_witness :
    (Node.of (.double (.finite (-7 / 2)))).operatorInt = .ok (-3) ∧
    (Node.of (.int 5)).operatorDouble = .ok (.finite 5) ∧
    (Node.of .null).operatorBool =
      .error (.nodeError (.cannotConvert "Null".toList "bool".toList)) := by
  have h := (scalar_conversions (.of (.double (.finite (-7 / 2)))) (by simp)).2.2.2.2.2.2.2.2.1
    (-7 / 2) rfl
  have h5 := scalar_conversions (.of (.int 5)) (by simp)
  have h0 := scalar_conversions (.of .null) (by simp)
  refine ⟨?_, (h5.2.2.2.2.2.2.1 5 rfl).2, h0.2.2.1 (by decide)⟩
  have hc : ⌈(-7 / 2 : ℚ)⌉ = -3 := by
    rw [Int.ceil_eq_iff]
    norm_num
  have hneg : ¬ (0 : ℚ) ≤ -7 / 2 := by norm_num
  rw [h]
  simp only [if_neg hneg, hc]
  rfl

/-- C18 as stated fails. The file `[3000000000.5]` gives a Number that holds a `double`
whose truncated value is no value of `int`, and the conversion to `int` is undefined; and
the node returned for the empty file, which is of type Root, converts to the `bool`
`false`. -/
theorem conversion_out_of_range :
    Parser.parse .new refLib "[3000000000.5]".toList =
      .ok (.of (.list [.of (.double (.finite (mkRat 6000000001 2)))])) ∧
    (Node.of (.double (.finite (mkRat 6000000001 2)))).operatorInt =
      .error .undefinedBehaviour ∧
    Parser.parse .new refLib [] = .ok .root ∧
    Node.root.type = .Root ∧ Node.root.operatorBool = .ok false :=
  ⟨rfl, rfl, rfl, rfl, rfl⟩

/-! ## The rendering, line by line -/

theorem intercalate_cons_cons {α : Type} (sep x y : List α) (l : List (List α)) :
    List.intercalate sep (x :: y :: l) = x ++ sep ++ List.intercalate sep (y :: l) := by
  simp [List.intercalate, List.intersperse]

theorem intercalate_singleton {α : Type} (sep x : List α) :
    List.intercalate sep [x] = x := by
  simp [List.intercalate, List.intersperse]

namespace Node

theorem tabs_eq (d : Nat) : tabs d = List.replicate (2 * d) ' ' := by
  induction d with
  | zero => rfl
  | succ d ih =>
    rw [tabs, ih, Nat.mul_succ, List.replicate_add]
    rfl

theorem listToString_eq (lib : StdLib) (children : List Node) (d : Nat) :
    listToString lib children d =
      List.intercalate [',', '\n']
        (children.map (fun c => tabs (d + 1) ++ toString lib c (d + 1))) := by
  induction children with
  | nil => simp [listToString, List.intercalate]
  | cons c rest ih =>
    rw [listToString, ih]
    cases rest with
    | nil => simp [intercalate_singleton, tabs, List.intercalate]
    | cons c' rest' =>
      simp only [List.map_cons, intercalate_cons_cons, List.isEmpty_cons, Bool.false_eq_true,
        if_false, tabs, List.append_assoc]

theorem objectToString_eq (lib : StdLib) (members : List (Str × Node)) (d : Nat) :
    objectToString lib members d =
      List.intercalate [',', '\n']
        (members.map (fun kc => tabs (d + 1) ++ ['"'] ++ kc.1 ++ ['"', ':', ' '] ++
          toString lib kc.2 (d + 1))) ++ (if members.isEmpty then [] else ['\n']) := by
  induction members with
  | nil => simp [objectToString, List.intercalate]
  | cons kc rest ih =>
    obtain ⟨k, c⟩ := kc
    rw [objectToString, ih]
    cases rest with
    | nil => simp [intercalate_singleton, tabs, List.intercalate]
    | cons kc' rest' =>
      simp only [List.map_cons, intercalate_cons_cons, List.isEmpty_cons, Bool.false_eq_true,
        if_false, tabs, List.append_assoc, List.cons_append, List.nil_append,
        List.singleton_append]

end Node

/-! ### C19: the order and the indentation of the rendering -/

/-- C19. `toString` called with `indentation` on a List renders `[`, then its children in
the order of the vector, which is the order of the calls of `push_back`, each on a new line
after `2 * (indentation + 1)` blanks with a comma after every child but the last, then `]`
on a new line after `2 * indentation` blanks; on an Object it renders `{`, then the
entries of the map in its order, in the same way with the key before each, then `}`. The
order of a map is the ascending order of its keys, whatever the order of the calls of
`insert`; so are the maps of the Objects made by the parser. -/
theorem rendering_order (lib : StdLib) (indentation : Nat) :
    Node.tabs indentation = List.replicate (2 * indentation) ' ' ∧
    (∀ children : List Node,
      Node.toString lib (.of (.list children)) indentation =
        ['[', '\n'] ++
          List.intercalate [',', '\n'] (children.map (fun child =>
            Node.tabs (indentation + 1) ++ Node.toString lib child (indentation + 1))) ++
          ['\n'] ++ Node.tabs indentation ++ [']']) ∧
    (∀ members : List (Str × Node),
      Node.toString lib (.of (.object members)) indentation =
        ['\x7b', '\n'] ++
          (List.intercalate [',', '\n'] (members.map (fun entry =>
            Node.tabs (indentation + 1) ++ ['"'] ++ entry.1 ++ ['"', ':', ' '] ++
              Node.toString lib entry.2 (indentation + 1))) ++
            (if members.isEmpty then [] else ['\n'])) ++
          Node.tabs indentation ++ ['\x7d']) ∧
    (∀ (children : List Ptr) (child : Ptr),
      Cell.addChild (.of (.list children)) child = .ok (.of (.list (children ++ [child])))) ∧
    (∀ (members : List (Str × Ptr)) (key : Str) (child : Ptr),
      members.Pairwise (fun a b => a.1 < b.1) →
      (mapInsert key child members).Pairwise (fun a b => a.1 < b.1)) ∧
    (∀ l1 l2 : List (Str × Ptr), l1.Perm l2 → (l1.map Prod.fst).Nodup →
      l1.foldl (fun map entry => mapInsert entry.1 entry.2 map) [] =
        l2.foldl (fun map entry => mapInsert entry.1 entry.2 map) []) ∧
    (∀ (self : Parser) (tokens : List Token) (m : Machine),
      Parser.parseTokens lib (Parser.start self) tokens = .ok m →
      ∀ (p : Nat) (fuel : Nat),
        (∀ children, m.heap[p]? = some (.of (.list children)) →
          m.heap.readback (fuel + 1) p = .of (.list (children.map (m.heap.readback fuel)))) ∧
        (∀ members, m.heap[p]? = some (.of (.object members)) →
          members.Pairwise (fun a b => a.1 < b.1) ∧
          m.heap.readback (fuel + 1) p =
            .of (.object (members.map (fun entry => (entry.1, m.heap.readback fuel entry.2)))))) := by
  refine ⟨Node.tabs_eq indentation, ?_, ?_, fun _ _ => rfl,
    fun members key child h => mapInsert_pairwise key child members h,
    fun l1 l2 hperm hnodup => foldl_mapInsert_perm l1 l2 hperm hnodup, ?_⟩
  · intro children
    rw [Node.toString, Node.listToString_eq]
  · intro members
    rw [Node.toString, Node.objectToString_eq]
  · intro self tokens m hm p fuel
    constructor
    · intro children hp
      simp only [Heap.readback, hp]
    · intro members hp
      exact ⟨(Parser.sorted_parseTokens lib self tokens m hm).2 p members hp,
        by simp only [Heap.readback, hp]⟩


/-- The tree of `{"b":[true,"x"],"a":1}` is rendered with `a` before `b`. -/
theorem rendering_order_example :
    Parser.parse .new refLib "\x7b\"b\":[true,\"x\"],\"a\":1\x7d".toList =
      .ok (.of (.object [("a".toList, .of (.int 1)),
        ("b".toList, .of (.list [.of (.bool true), .of (.string "x".toList)]))])) ∧
    (Node.of (.object [("a".toList, .of (.int 1)),
        ("b".toList, .of (.list [.of (.bool true), .of (.string "x".toList)]))])).toString
        refLib 0 =
      "\x7b\n  \"a\": 1,\n  \"b\": [\n    true,\n    \"x\"\n  ]\n\x7d".toList :=
  ⟨rfl, by decide⟩

/-! ## `lastKey` is not read before a key is read -/

namespace Parser

theorem not_inAnObject_of_KeyUnread (m : Machine) (hk : KeyUnread m)
    (hs : m.state ≠ .ObjectOpen) : currentlyInAnObject m = false := by
  cases ho : currentlyInAnObject m with
  | false => rfl
  | true =>
    obtain ⟨p, members, hp, hc⟩ := (currentlyInAnObject_iff m).mp ho
    exact absurd hc (hk.2.2.2 hs p (List.mem_of_getLast?_eq_some hp) members)

/-- While no key has been read, a step that succeeds and does not read a key leaves no key
read. -/
theorem KeyUnread_step (lib : StdLib) (m m' : Machine) (t : Token)
    (h : step lib m t = .ok m') (hk : KeyUnread m) (hv : Valid m) (hs : m'.state ≠ .Key) :
    KeyUnread m' := by
  obtain ⟨hK, hC, hbelow, hall⟩ := hk
  rcases step_inv lib m m' t h with ⟨s, hcase, rfl⟩ | ⟨rfl, -⟩ | ⟨s, hs', hpop⟩ |
    ⟨v, ⟨hl, ho⟩, hst, ha⟩ | ⟨s, v, hv', hst, ho⟩
  · rcases hcase with ⟨-, hkey⟩ | ⟨hs', hO⟩
    · exact absurd hkey hK
    · refine ⟨hs, ?_, hbelow, fun _ => hall hO⟩
      rcases hs' with rfl | rfl <;> simp
  · exact absurd rfl hs
  · obtain ⟨rfl, -⟩ := popBack_frame _ _ hpop
    have hdrop : ∀ p ∈ m.hierarchy.dropLast.dropLast,
        ∀ members, m.heap[p]? ≠ some (.of (.object members)) :=
      fun p hp => hbelow p (List.dropLast_subset _ hp)
    refine ⟨hs, ?_, hdrop, fun _ => hbelow⟩
    rcases hs' with rfl | rfl <;> simp
  · have hO : m.state ≠ .ObjectOpen := by
      rcases hst with h1 | h1 | h1 <;> rw [h1] <;> simp
    obtain ⟨hf, -, -, -⟩ := addChildValue_frame _ _ _ ha
    obtain ⟨p, hp, hcase⟩ := addChildNode_ok _ _ _ ha
    have hheap : ∀ q ∈ m.hierarchy, ∀ members,
        m'.heap[q]? ≠ some (.of (.object members)) := by
      intro q hq members hcon
      have hq' := hall hO q hq
      have hlt : q < m.heap.length := hv.2 q hq
      have hold : (m.heap ++ [Cell.of v])[q]? = m.heap[q]? := List.getElem?_append_left hlt
      rcases hcase with ⟨children, hc, rfl⟩ | ⟨members', hc, rfl⟩
      · by_cases hpq : p = q
        · subst hpq
          simp only [makeShared] at hcon
          rw [List.getElem?_set_self
            (by rw [List.length_append]; exact Nat.lt_add_right _ hlt)] at hcon
          simp at hcon
        · simp only [makeShared] at hcon
          rw [List.getElem?_set_ne hpq, hold] at hcon
          exact hq' members hcon
      · simp only [makeShared] at hc
        have hp' : m.hierarchy.getLast? = some p := hp
        have hpl : p < m.heap.length := hv.2 p (List.mem_of_getLast?_eq_some hp')
        rw [List.getElem?_append_left hpl] at hc
        exact absurd hc (hall hO p (List.mem_of_getLast?_eq_some hp') members')
    have hh : m'.hierarchy = m.hierarchy := hf.1
    have hst' : m'.state = .Value := hf.2.2.1
    refine ⟨hs, by rw [hst']; simp, ?_, fun _ => ?_⟩
    · rw [hh]
      exact fun q hq => hheap q (List.dropLast_subset _ hq)
    · rw [hh]
      exact hheap
  · have hStart : m.state = .Start := by
      rcases hst with h1 | h1
      · exact h1
      · exact absurd h1 hC
    have hO : m.state ≠ .ObjectOpen := by rw [hStart]; simp
    unfold openContainer at ho
    rw [if_pos hStart] at ho
    simp only [Except.ok.injEq] at ho
    subst ho
    have hold : ∀ q ∈ m.hierarchy, ∀ members,
        (m.heap ++ [Cell.of v])[q]? ≠ some (.of (.object members)) := by
      intro q hq members
      rw [List.getElem?_append_left (hv.2 q hq)]
      exact hall hO q hq members
    refine ⟨?_, ?_, ?_, ?_⟩
    · rcases hv' with ⟨-, rfl⟩ | ⟨-, rfl⟩ <;> simp [makeShared]
    · rcases hv' with ⟨-, rfl⟩ | ⟨-, rfl⟩ <;> simp [makeShared]
    · intro q hq
      simp only [makeShared, List.dropLast_concat] at hq
      exact hold q hq
    · intro hne q hq members
      rcases hv' with ⟨-, rfl⟩ | ⟨rfl, rfl⟩
      · exact absurd rfl hne
      · simp only [makeShared, List.mem_append, List.mem_singleton] at hq
        rcases hq with hq | rfl
        · exact hold q hq members
        · simp [makeShared]

theorem KeyUnread_start (self : Parser) : KeyUnread (start self) := by
  refine ⟨by simp [start], by simp [start], ?_, ?_⟩
  · intro p hp
    simp [start] at hp
  · intro _ p hp members
    simp only [start, List.mem_singleton] at hp
    subst hp
    simp [start]

end Parser
namespace Parser

theorem addChildNode_withKey (m : Machine) (k : Str) (node : Ptr)
    (h : currentlyInAnObject m = false) :
    addChildNode { m with lastKey := k } node =
      (addChildNode m node).map (fun m' => { m' with lastKey := k }) := by
  have hO : currentlyInAnObject { m with lastKey := k } = false := h
  have hL : currentlyInAList { m with lastKey := k } = currentlyInAList m := rfl
  have hP : getParentNode { m with lastKey := k } = getParentNode m := rfl
  unfold addChildNode
  rw [hO, hL, hP, h]
  cases currentlyInAList m with
  | true =>
    simp only [if_true]
    rcases getParentNode m with _ | p
    · rfl
    · dsimp only
      rcases m.heap[p]? with _ | parent
      · rfl
      · dsimp only
        rcases parent.addChild node with e | parent'
        · rfl
        · rfl
  | false =>
    simp only [Bool.false_eq_true, if_false]
    rcases getParentNode m with _ | p
    · rfl
    · rfl

theorem not_inAnObject_makeShared (m : Machine) (v : Value Ptr)
    (h : currentlyInAnObject m = false) (hv : ∀ members, v ≠ .object members) :
    currentlyInAnObject (makeShared m (.of v)).1 = false := by
  cases ho : currentlyInAnObject (makeShared m (.of v)).1 with
  | false => rfl
  | true =>
    obtain ⟨p, members, hp, hc⟩ := (currentlyInAnObject_iff _).mp ho
    have hp' : m.hierarchy.getLast? = some p := hp
    have hc' : (m.heap ++ [Cell.of v])[p]? = some (.of (.object members)) := hc
    by_cases hlt : p < m.heap.length
    · rw [List.getElem?_append_left hlt] at hc'
      have : currentlyInAnObject m = true := (currentlyInAnObject_iff m).mpr ⟨p, members, hp', hc'⟩
      rw [h] at this
      cases this
    · rw [List.getElem?_append_right (Nat.le_of_not_lt hlt)] at hc'
      cases hsub : p - m.heap.length with
      | zero =>
        rw [hsub] at hc'
        simp only [List.getElem?_cons_zero, Option.some.injEq, Cell.of.injEq] at hc'
        exact absurd hc' (hv members)
      | succ n =>
        rw [hsub] at hc'
        simp at hc'

theorem addChildValue_withKey (m : Machine) (k : Str) (v : Value Ptr)
    (h : currentlyInAnObject m = false) (hv : ∀ members, v ≠ .object members) :
    addChildValue { m with lastKey := k } v =
      (addChildValue m v).map (fun m' => { m' with lastKey := k }) :=
  addChildNode_withKey (makeShared m (.of v)).1 k _ (not_inAnObject_makeShared m v h hv)

theorem popBack_withKey (m : Machine) (k : Str) :
    popBack { m with lastKey := k } = (popBack m).map (fun m' => { m' with lastKey := k }) := by
  unfold popBack
  by_cases hn : m.hierarchy = []
  · rw [if_pos hn, if_pos hn]
    rfl
  · rw [if_neg hn, if_neg hn]
    rfl

end Parser
namespace Parser

theorem requirePreviousState_lastKey (hierarchy : List Ptr) (lastState state : State)
    (k1 k2 : Str) (heap : Heap) (root : Ptr) (allowed : List State) :
    requirePreviousState ⟨⟨hierarchy, lastState, state, k1⟩, heap, root⟩ allowed =
      requirePreviousState ⟨⟨hierarchy, lastState, state, k2⟩, heap, root⟩ allowed := rfl

theorem checkPreviousState_lastKey (hierarchy : List Ptr) (lastState state : State)
    (k1 k2 : Str) (heap : Heap) (root : Ptr) (allowed : List State) :
    checkPreviousState ⟨⟨hierarchy, lastState, state, k1⟩, heap, root⟩ allowed =
      checkPreviousState ⟨⟨hierarchy, lastState, state, k2⟩, heap, root⟩ allowed := rfl

theorem currentlyInAList_lastKey (hierarchy : List Ptr) (lastState state : State)
    (k1 k2 : Str) (heap : Heap) (root : Ptr) :
    currentlyInAList ⟨⟨hierarchy, lastState, state, k1⟩, heap, root⟩ =
      currentlyInAList ⟨⟨hierarchy, lastState, state, k2⟩, heap, root⟩ := rfl

theorem currentlyInAnObject_lastKey (hierarchy : List Ptr) (lastState state : State)
    (k1 k2 : Str) (heap : Heap) (root : Ptr) :
    currentlyInAnObject ⟨⟨hierarchy, lastState, state, k1⟩, heap, root⟩ =
      currentlyInAnObject ⟨⟨hierarchy, lastState, state, k2⟩, heap, root⟩ := rfl

/-- While no key has been read, a step does not depend on `lastKey`: from a parser with
another `lastKey` it ends the same way, with that other `lastKey` in place of `lastKey`
unless the step reads a key. -/
theorem step_withKey (lib : StdLib) (m : Machine) (t : Token) (k : Str) (hk : KeyUnread m) :
    step lib { m with lastKey := k } t = step lib m t ∨
    (step lib { m with lastKey := k } t =
        (step lib m t).map (fun m' => { m' with lastKey := k }) ∧
      ∀ m', step lib m t = .ok m' → m'.state ≠ .Key) := by
  have hnot : ∀ s : State, m.state ≠ .ObjectOpen →
      currentlyInAnObject ⟨⟨m.hierarchy, m.state, s, m.lastKey⟩, m.heap, m.root⟩ = false :=
    fun s hs => not_inAnObject_of_KeyUnread m hk hs
  have hvalue : ∀ (v : Value Ptr) (u : Unit), (∀ members, v ≠ .object members) →
      requirePreviousState ⟨⟨m.hierarchy, m.state, .Value, m.lastKey⟩, m.heap, m.root⟩
        [.Colon, .Comma, .ListOpen] = .ok u →
      addChildValue ⟨⟨m.hierarchy, m.state, .Value, k⟩, m.heap, m.root⟩ v =
          (addChildValue ⟨⟨m.hierarchy, m.state, .Value, m.lastKey⟩, m.heap, m.root⟩ v).map
            (fun m' => { m' with lastKey := k }) ∧
        ∀ m', addChildValue ⟨⟨m.hierarchy, m.state, .Value, m.lastKey⟩, m.heap, m.root⟩ v =
          .ok m' → m'.state ≠ .Key := by
    intro v u hv hr
    have hs := requirePreviousState_ok _ _ u hr
    have hO : m.state ≠ .ObjectOpen := by
      intro hO
      change m.state ∈ _ at hs
      rw [hO] at hs
      simp at hs
    refine ⟨addChildValue_withKey ⟨⟨m.hierarchy, m.state, .Value, m.lastKey⟩, m.heap, m.root⟩
      k v (hnot _ hO) hv, ?_⟩
    intro m' ha
    obtain ⟨hf, -⟩ := addChildValue_frame _ _ _ ha
    rw [hf.2.2.1]
    simp
  obtain ⟨value, type⟩ := t
  cases type
  case Comma =>
    right
    simp only [step, switchCase]
    rw [requirePreviousState_lastKey _ _ _ k m.lastKey]
    rcases requirePreviousState ⟨⟨m.hierarchy, m.state, .Comma, m.lastKey⟩, m.heap, m.root⟩
      [.Value, .ListClose, .ObjectClose] with e | u
    · exact ⟨rfl, fun m' h => by cases h⟩
    · refine ⟨rfl, fun m' h => ?_⟩
      simp only [Except.ok.injEq] at h
      subst h
      simp
  case Colon =>
    right
    simp only [step, switchCase]
    rw [requirePreviousState_lastKey _ _ _ k m.lastKey]
    rcases requirePreviousState ⟨⟨m.hierarchy, m.state, .Colon, m.lastKey⟩, m.heap, m.root⟩
      [.Key] with e | u
    · exact ⟨rfl, fun m' h => by cases h⟩
    · refine ⟨rfl, fun m' h => ?_⟩
      simp only [Except.ok.injEq] at h
      subst h
      simp
  case End =>
    right
    simp only [step, switchCase]
    rw [requirePreviousState_lastKey _ _ _ k m.lastKey]
    rcases requirePreviousState ⟨⟨m.hierarchy, m.state, .End, m.lastKey⟩, m.heap, m.root⟩
      [.Start, .ListClose, .ObjectClose] with e | u
    · exact ⟨rfl, fun m' h => by cases h⟩
    · refine ⟨rfl, fun m' h => ?_⟩
      simp only [Except.ok.injEq] at h
      subst h
      simp
  case Null =>
    right
    simp only [step, switchCase]
    rw [requirePreviousState_lastKey _ _ _ k m.lastKey]
    rcases hr : requirePreviousState ⟨⟨m.hierarchy, m.state, .Value, m.lastKey⟩, m.heap, m.root⟩
      [.Colon, .Comma, .ListOpen] with e | u
    · exact ⟨rfl, fun m' h => by cases h⟩
    · exact hvalue _ u (by simp) hr
  case Boolean =>
    right
    simp only [step, switchCase]
    rw [requirePreviousState_lastKey _ _ _ k m.lastKey]
    rcases hr : requirePreviousState ⟨⟨m.hierarchy, m.state, .Value, m.lastKey⟩, m.heap, m.root⟩
      [.Colon, .Comma, .ListOpen] with e | u
    · exact ⟨rfl, fun m' h => by cases h⟩
    · dsimp only
      by_cases hv : value = "true".toList
      · rw [if_pos hv, if_pos hv]
        exact hvalue _ u (by simp) hr
      · rw [if_neg hv, if_neg hv]
        exact hvalue _ u (by simp) hr
  case Number =>
    right
    simp only [step, switchCase]
    rw [requirePreviousState_lastKey _ _ _ k m.lastKey]
    rcases hr : requirePreviousState ⟨⟨m.hierarchy, m.state, .Value, m.lastKey⟩, m.heap, m.root⟩
      [.Colon, .Comma, .ListOpen] with e | u
    · exact ⟨rfl, fun m' h => by cases h⟩
    · dsimp only
      rcases lib.stod value with _ | number
      · exact ⟨rfl, fun m' h => by cases h⟩
      · dsimp only
        by_cases hz : number.modfIsZero = true
        · rw [if_pos hz, if_pos hz]
          rcases number.toInt with _ | i
          · exact ⟨rfl, fun m' h => by cases h⟩
          · exact hvalue _ u (by simp) hr
        · rw [if_neg hz, if_neg hz]
          exact hvalue _ u (by simp) hr
  case ObjectClose =>
    right
    simp only [step, switchCase]
    rw [requirePreviousState_lastKey _ _ _ k m.lastKey,
      currentlyInAList_lastKey _ _ _ k m.lastKey]
    rcases requirePreviousState ⟨⟨m.hierarchy, m.state, .ObjectClose, m.lastKey⟩, m.heap,
      m.root⟩ [.Value, .ObjectOpen, .ObjectClose, .ListClose] with e | u
    · exact ⟨rfl, fun m' h => by cases h⟩
    · dsimp only
      by_cases hl : currentlyInAList ⟨⟨m.hierarchy, m.state, m.state, m.lastKey⟩, m.heap,
          m.root⟩ = true
      · rw [if_pos hl, if_pos hl]
        exact ⟨rfl, fun m' h => by cases h⟩
      · rw [if_neg hl, if_neg hl]
        refine ⟨popBack_withKey ⟨⟨m.hierarchy, m.state, .ObjectClose, m.lastKey⟩, m.heap,
          m.root⟩ k, fun m' h => ?_⟩
        obtain ⟨rfl, -⟩ := popBack_frame _ _ h
        simp
  case ListClose =>
    right
    simp only [step, switchCase]
    rw [requirePreviousState_lastKey _ _ _ k m.lastKey,
      currentlyInAnObject_lastKey _ _ _ k m.lastKey]
    rcases requirePreviousState ⟨⟨m.hierarchy, m.state, .ListClose, m.lastKey⟩, m.heap,
      m.root⟩ [.Value, .ListOpen, .ListClose, .ObjectClose] with e | u
    · exact ⟨rfl, fun m' h => by cases h⟩
    · dsimp only
      by_cases hl : currentlyInAnObject ⟨⟨m.hierarchy, m.state, m.state, m.lastKey⟩, m.heap,
          m.root⟩ = true
      · rw [if_pos hl, if_pos hl]
        exact ⟨rfl, fun m' h => by cases h⟩
      · rw [if_neg hl, if_neg hl]
        refine ⟨popBack_withKey ⟨⟨m.hierarchy, m.state, .ListClose, m.lastKey⟩, m.heap,
          m.root⟩ k, fun m' h => ?_⟩
        obtain ⟨rfl, -⟩ := popBack_frame _ _ h
        simp
  case ObjectOpen =>
    right
    simp only [step, switchCase]
    rw [requirePreviousState_lastKey _ _ _ k m.lastKey]
    rcases hr : requirePreviousState ⟨⟨m.hierarchy, m.state, .ObjectOpen, m.lastKey⟩, m.heap,
      m.root⟩ [.Start, .Colon] with e | u
    · exact ⟨rfl, fun m' h => by cases h⟩
    · dsimp only
      have hs := requirePreviousState_ok _ _ u hr
      have hStart : m.state = .Start := by
        change m.state ∈ _ at hs
        simp only [List.mem_cons, List.mem_singleton, List.not_mem_nil, or_false] at hs
        rcases hs with h1 | h1
        · exact h1
        · exact absurd h1 hk.2.1
      simp only [openContainer, hStart, if_true]
      refine ⟨rfl, fun m' h => ?_⟩
      simp only [Except.ok.injEq] at h
      subst h
      simp [makeShared]
  case ListOpen =>
    right
    simp only [step, switchCase]
    rw [requirePreviousState_lastKey _ _ _ k m.lastKey]
    rcases hr : requirePreviousState ⟨⟨m.hierarchy, m.state, .ListOpen, m.lastKey⟩, m.heap,
      m.root⟩ [.Start, .Colon] with e | u
    · exact ⟨rfl, fun m' h => by cases h⟩
    · dsimp only
      have hs := requirePreviousState_ok _ _ u hr
      have hStart : m.state = .Start := by
        change m.state ∈ _ at hs
        simp only [List.mem_cons, List.mem_singleton, List.not_mem_nil, or_false] at hs
        rcases hs with h1 | h1
        · exact h1
        · exact absurd h1 hk.2.1
      simp only [openContainer, hStart, if_true]
      refine ⟨rfl, fun m' h => ?_⟩
      simp only [Except.ok.injEq] at h
      subst h
      simp [makeShared]
  case String =>
    simp only [step, switchCase]
    rw [checkPreviousState_lastKey _ _ _ k m.lastKey, checkPreviousState_lastKey _ _ _ k m.lastKey,
      checkPreviousState_lastKey _ _ _ k m.lastKey, currentlyInAList_lastKey _ _ _ k m.lastKey,
      currentlyInAnObject_lastKey _ _ _ k m.lastKey]
    by_cases hkey : (checkPreviousState ⟨⟨m.hierarchy, m.state, m.state, m.lastKey⟩, m.heap,
        m.root⟩ [.ObjectOpen, .Comma] &&
        currentlyInAnObject ⟨⟨m.hierarchy, m.state, m.state, m.lastKey⟩, m.heap, m.root⟩) = true
    · left
      rw [if_pos hkey, if_pos hkey]
    · rw [if_neg hkey, if_neg hkey]
      right
      by_cases hval : ((checkPreviousState ⟨⟨m.hierarchy, m.state, m.state, m.lastKey⟩, m.heap,
          m.root⟩ [.ListOpen, .Comma] &&
          currentlyInAList ⟨⟨m.hierarchy, m.state, m.state, m.lastKey⟩, m.heap, m.root⟩) ||
          (checkPreviousState ⟨⟨m.hierarchy, m.state, m.state, m.lastKey⟩, m.heap,
            m.root⟩ [.Colon] &&
          currentlyInAnObject ⟨⟨m.hierarchy, m.state, m.state, m.lastKey⟩, m.heap, m.root⟩)) =
          true
      · rw [if_pos hval, if_pos hval]
        have hO : m.state ≠ .ObjectOpen := by
          intro hO
          simp [checkPreviousState, hO] at hval
        rw [addChildValue_withKey ⟨⟨m.hierarchy, m.state, .Value, m.lastKey⟩, m.heap, m.root⟩
          k (.string value) (hnot _ hO) (by simp)]
        rcases ha : addChildValue ⟨⟨m.hierarchy, m.state, .Value, m.lastKey⟩, m.heap, m.root⟩
          (.string value) with e | m1
        · exact ⟨rfl, fun m' h => by cases h⟩
        · simp only [Except.map]
          rw [requirePreviousState_lastKey _ _ _ k m1.lastKey]
          rcases requirePreviousState ⟨⟨m1.hierarchy, m1.lastState, m1.state, m1.lastKey⟩,
            m1.heap, m1.root⟩ [.ObjectOpen, .ListOpen, .Colon, .Comma] with e | u
          · exact ⟨rfl, fun m' h => by cases h⟩
          · refine ⟨rfl, fun m' h => ?_⟩
            simp only [Except.ok.injEq] at h
            subst h
            obtain ⟨hf, -⟩ := addChildValue_frame _ _ _ ha
            rw [hf.2.2.1]
            simp
      · rw [if_neg hval, if_neg hval]
        exact ⟨rfl, fun m' h => by cases h⟩

end Parser
namespace Parser

/-- While no key has been read, the tree that the rest of the tokens gives, or the failure,
is the same whatever `lastKey` is. -/
theorem parseTokens_withKey (lib : StdLib) (tokens : List Token) (m : Machine) (k : Str)
    (hk : KeyUnread m) (hv : Valid m) :
    (parseTokens lib { m with lastKey := k } tokens).map result =
      (parseTokens lib m tokens).map result := by
  induction tokens generalizing m with
  | nil => rfl
  | cons t tokens ih =>
    simp only [parseTokens]
    rcases step_withKey lib m t k hk with heq | ⟨heq, hstate⟩
    · rw [heq]
    · rw [heq]
      rcases hs : step lib m t with e | m1
      · rfl
      · exact ih m1 (KeyUnread_step lib m m1 t hs hk hv (hstate m1 hs))
          (Valid_step lib m m1 t hs hv)

end Parser

/-! ### C20: a parser used again -/

/-- C20. Whatever an earlier call of `parse` has left in `hierarchy`, `lastState`, `state`
and `lastKey`, `parse` returns the same tree, or ends with the same failure, on the same
file: the first three members are assigned at the start of `parse`, and `lastKey`, which is
not, is assigned when a key is read, before a value is inserted under it. -/
theorem parser_reuse (self1 self2 : Parser) (lib : StdLib) (file : List Char) :
    Parser.parse self1 lib file = Parser.parse self2 lib file := by
  unfold Parser.parse
  rcases Tokenizer.tokenize lib file with e | tokens
  · rfl
  · dsimp only
    have h := Parser.parseTokens_withKey lib tokens (Parser.start self1) self2.lastKey
      (Parser.KeyUnread_start self1) (Parser.Valid_start self1)
    have hstart : ({ Parser.start self1 with lastKey := self2.lastKey } : Machine) =
        Parser.start self2 := rfl
    rw [hstart] at h
    rcases h1 : Parser.parseTokens lib (Parser.start self1) tokens with e1 | m1 <;>
      rcases h2 : Parser.parseTokens lib (Parser.start self2) tokens with e2 | m2 <;>
      rw [h1, h2] at h <;> simp only [Except.map] at h
    · simp only [Except.error.injEq] at h
      subst h
      rfl
    · cases h
    · cases h
    · simp only [Except.ok.injEq] at h
      dsimp only
      rw [h]

/-- A parser that has parsed `{"k":1}` and one that has parsed nothing both insert `true`
under `a` when they parse `{"a":true}`. -/
theorem parser_reuse_example :
    Parser.parse ⟨[0, 2], .ObjectClose, .End, "k".toList⟩ refLib "\x7b\"a\":true\x7d".toList =
      .ok (.of (.object [("a".toList, .of (.bool true))])) ∧
    Parser.parse .new refLib "\x7b\"a\":true\x7d".toList =
      .ok (.of (.object [("a".toList, .of (.bool true))])) :=
  ⟨rfl, rfl⟩

/-! ### C21: how a value is attached -/

/-- C21 as amended. `addChildNode`, for every state of the parser with a node on
`hierarchy`: when the innermost node is a List the pointer to the new node is appended to
its children; when it is an Object, `map.insert` is called with `lastKey` and the pointer,
which puts the entry in the map when the map has none under `lastKey` and leaves the map as
it is otherwise; when it is neither, the call throws the `Parser::Exception` "Hierarchy
contains illegal node type". A call that returns leaves `lastKey`, `hierarchy` and the
states as they are: `lastKey` is not cleared, and a step of the parser assigns it only when
it reads a key. -/
theorem value_attachment (m : Machine) (node p : Ptr)
    (hp : m.hierarchy.getLast? = some p) :
    (∀ children, m.heap[p]? = some (.of (.list children)) →
      Parser.addChildNode m node =
        .ok { m with heap := m.heap.set p (.of (.list (children ++ [node]))) }) ∧
    (∀ members, m.heap[p]? = some (.of (.object members)) →
      Parser.addChildNode m node =
        .ok { m with heap := m.heap.set p (.of (.object (mapInsert m.lastKey node members))) } ∧
      (members.Pairwise (fun a b => a.1 < b.1) →
        (mapInsert m.lastKey node members).lookup m.lastKey =
          (members.lookup m.lastKey).or (some node) ∧
        (m.lastKey ∈ members.map Prod.fst → mapInsert m.lastKey node members = members))) ∧
    ((∀ children, m.heap[p]? ≠ some (.of (.list children))) →
      (∀ members, m.heap[p]? ≠ some (.of (.object members))) →
      Parser.addChildNode m node =
        .error (.syntaxError (.illegalNodeType (Parser.typeAsString m p)))) ∧
    (∀ m', Parser.addChildNode m node = .ok m' →
      m'.lastKey = m.lastKey ∧ m'.hierarchy = m.hierarchy ∧ m'.state = m.state ∧
        m'.lastState = m.lastState ∧ m'.root = m.root) ∧
    (∀ (lib : StdLib) (t : Token) (m' : Machine), Parser.step lib m t = .ok m' →
      m'.lastKey = m.lastKey ∨
        (t.type = .String ∧ m'.state = .Key ∧ m'.lastKey = t.value ∧ m'.heap = m.heap)) := by
  refine ⟨fun children hc => Parser.addChildNode_inAList m node p children hp hc, ?_, ?_, ?_,
    fun lib t m' h => Parser.step_lastKey lib m m' t h⟩
  · intro members hc
    refine ⟨Parser.addChildNode_inAnObject m node p members hp hc, fun hs => ⟨?_, ?_⟩⟩
    · rw [lookup_mapInsert _ _ _ hs, if_pos rfl]
    · exact mapInsert_of_mem_keys _ _ _ hs
  · intro hl ho
    apply Parser.addChildNode_elsewhere m node p hp
    · cases h : Parser.currentlyInAList m with
      | false => rfl
      | true =>
        obtain ⟨q, children, hq, hc⟩ := (Parser.currentlyInAList_iff m).mp h
        rw [hp] at hq
        cases hq
        exact absurd hc (hl children)
    · cases h : Parser.currentlyInAnObject m with
      | false => rfl
      | true =>
        obtain ⟨q, members, hq, hc⟩ := (Parser.currentlyInAnObject_iff m).mp h
        rw [hp] at hq
        cases hq
        exact absurd hc (ho members)
  · intro m' h
    obtain ⟨⟨h1, h2, h3, h4⟩, h5, -⟩ := Parser.addChildNode_frame m m' node h
    exact ⟨h4, h1, h3, h2, h5⟩

/-- The parser after the tokens `{`, `a`, `:` and the node made for `1`: the node is inserted
under `a`. -/
theorem value_attachment_witness :
    Parser.addChildNode
        ⟨⟨[0, 2], .Colon, .Value, "a".toList⟩,
          [.root, .root, .of (.object []), .of (.int 1)], 2⟩ 3 =
      .ok ⟨⟨[0, 2], .Colon, .Value, "a".toList⟩,
        [.root, .root, .of (.object [("a".toList, 3)]), .of (.int 1)], 2⟩ :=
  ((value_attachment
    ⟨⟨[0, 2], .Colon, .Value, "a".toList⟩, [.root, .root, .of (.object []), .of (.int 1)], 2⟩
    3 2 rfl).2.1 [] rfl).1

/-- C21 as stated fails: after the tokens `{`, `a`, `:`, `1` the value is inserted under `a`
and `lastKey` is still `a`, not empty. -/
theorem pending_key_not_cleared :
    Parser.parseTokens refLib (Parser.start .new)
        [⟨[], .ObjectOpen⟩, ⟨"a".toList, .String⟩, ⟨[], .Colon⟩, ⟨"1".toList, .Number⟩] =
      .ok ⟨⟨[0, 2], .Colon, .Value, "a".toList⟩,
        [.root, .root, .of (.object [("a".toList, 3)]), .of (.int 1)], 2⟩ ∧
    "a".toList ≠ ([] : Str) :=
  ⟨rfl, by decide⟩

/-! ## The children of a List are no containers -/

namespace Heap

/-- A node put at the end of the store and given to a List as a child, when the node is no
container. -/
theorem ListsHoldScalars_attach_list (heap : Heap) (h : heap.ListsHoldScalars) (p : Nat)
    (children : List Ptr) (v : Value Ptr) (hp : heap[p]? = some (.of (.list children)))
    (hl : ∀ grandchildren, v ≠ .list grandchildren) (ho : ∀ members, v ≠ .object members) :
    ListsHoldScalars ((heap ++ [Cell.of v]).set p (.of (.list (children ++ [heap.length])))) := by
  have hlt : p < heap.length := by
    by_contra hcon
    rw [List.getElem?_eq_none (Nat.le_of_not_lt hcon)] at hp
    cases hp
  have hplt : p < (heap ++ [Cell.of v]).length := by
    rw [List.length_append]
    exact Nat.lt_add_right _ hlt
  have hnew : ((heap ++ [Cell.of v]).set p (.of (.list (children ++ [heap.length]))))[heap.length]?
      = some (.of v) := by
    rw [List.getElem?_set_ne (Nat.ne_of_lt hlt)]
    simp
  have hold : ∀ (c : Nat) (w : Value Ptr), heap[c]? = some (.of w) →
      (∀ g, w ≠ .list g) →
      ((heap ++ [Cell.of v]).set p (.of (.list (children ++ [heap.length]))))[c]? =
        some (.of w) := by
    intro c w hc hw
    have hcp : p ≠ c := by
      rintro rfl
      rw [hp] at hc
      simp only [Option.some.injEq, Cell.of.injEq] at hc
      exact hw _ hc.symm
    have hclt : c < heap.length := by
      by_contra hcon
      rw [List.getElem?_eq_none (Nat.le_of_not_lt hcon)] at hc
      cases hc
    rw [List.getElem?_set_ne hcp, List.getElem?_append_left hclt]
    exact hc
  intro q children' hq c hc
  by_cases hqp : p = q
  · subst hqp
    rw [List.getElem?_set_self hplt] at hq
    simp only [Option.some.injEq, Cell.of.injEq, Value.list.injEq] at hq
    subst hq
    rcases List.mem_append.1 hc with hc | hc
    · obtain ⟨w, hw, hwl, hwo⟩ := h p children hp c hc
      exact ⟨w, hold c w hw hwl, hwl, hwo⟩
    · rw [List.mem_singleton] at hc
      subst hc
      exact ⟨v, hnew, hl, ho⟩
  · rw [List.getElem?_set_ne hqp] at hq
    by_cases hqlt : q < heap.length
    · rw [List.getElem?_append_left hqlt] at hq
      obtain ⟨w, hw, hwl, hwo⟩ := h q children' hq c hc
      exact ⟨w, hold c w hw hwl, hwl, hwo⟩
    · rw [List.getElem?_append_right (Nat.le_of_not_lt hqlt)] at hq
      cases hsub : q - heap.length with
      | zero =>
        rw [hsub] at hq
        simp only [List.getElem?_cons_zero, Option.some.injEq, Cell.of.injEq] at hq
        exact absurd hq (hl children')
      | succ n =>
        rw [hsub] at hq
        simp at hq

/-- A node put at the end of the store, no container or a container with nothing in it, and
the node at `p`, which is no List, replaced by a node that is no List. -/
theorem ListsHoldScalars_attach_other (heap : Heap) (h : heap.ListsHoldScalars) (p : Nat)
    (v : Value Ptr) (members : List (Str × Ptr)) (x : Value Ptr)
    (hp : heap[p]? = some (.of (.object members))) (hx : ∀ children, x ≠ .list children)
    (hl : ∀ children, v = .list children → children = []) :
    ListsHoldScalars ((heap ++ [Cell.of v]).set p (.of x)) := by
  have hlt : p < heap.length := by
    by_contra hcon
    rw [List.getElem?_eq_none (Nat.le_of_not_lt hcon)] at hp
    cases hp
  have hplt : p < (heap ++ [Cell.of v]).length := by
    rw [List.length_append]
    exact Nat.lt_add_right _ hlt
  intro q children' hq c hc
  by_cases hqp : p = q
  · subst hqp
    rw [List.getElem?_set_self hplt] at hq
    simp only [Option.some.injEq, Cell.of.injEq] at hq
    exact absurd hq (hx children')
  · rw [List.getElem?_set_ne hqp] at hq
    by_cases hqlt : q < heap.length
    · rw [List.getElem?_append_left hqlt] at hq
      obtain ⟨w, hw, hwl, hwo⟩ := h q children' hq c hc
      refine ⟨w, ?_, hwl, hwo⟩
      have hcp : p ≠ c := by
        rintro rfl
        rw [hp] at hw
        simp only [Option.some.injEq, Cell.of.injEq] at hw
        exact hwo _ hw.symm
      have hclt : c < heap.length := by
        by_contra hcon
        rw [List.getElem?_eq_none (Nat.le_of_not_lt hcon)] at hw
        cases hw
      rw [List.getElem?_set_ne hcp, List.getElem?_append_left hclt]
      exact hw
    · rw [List.getElem?_append_right (Nat.le_of_not_lt hqlt)] at hq
      cases hsub : q - heap.length with
      | zero =>
        rw [hsub] at hq
        simp only [List.getElem?_cons_zero, Option.some.injEq, Cell.of.injEq] at hq
        rw [hl children' hq] at hc
        cases hc
      | succ n =>
        rw [hsub] at hq
        simp at hq

/-- A container with nothing in it put at the end of the store. -/
theorem ListsHoldScalars_append (heap : Heap) (h : heap.ListsHoldScalars) (v : Value Ptr)
    (hl : ∀ children, v = .list children → children = []) :
    ListsHoldScalars (heap ++ [Cell.of v]) := by
  intro q children' hq c hc
  by_cases hqlt : q < heap.length
  · rw [List.getElem?_append_left hqlt] at hq
    obtain ⟨w, hw, hwl, hwo⟩ := h q children' hq c hc
    exact ⟨w, Parser.getElem?_append_of_some _ _ _ _ hw, hwl, hwo⟩
  · rw [List.getElem?_append_right (Nat.le_of_not_lt hqlt)] at hq
    cases hsub : q - heap.length with
    | zero =>
      rw [hsub] at hq
      simp only [List.getElem?_cons_zero, Option.some.injEq, Cell.of.injEq] at hq
      rw [hl children' hq] at hc
      cases hc
    | succ n =>
      rw [hsub] at hq
      simp at hq

end Heap

namespace Parser

/-- A step of the parser that succeeds keeps containers out of the Lists: a container is
attached after a colon only, and there the innermost node is an Object. -/
theorem ListsHoldScalars_step (lib : StdLib) (m m' : Machine) (t : Token)
    (h : step lib m t = .ok m') (hv : Valid m) (hk : KeyInObject m)
    (hs : m.heap.ListsHoldScalars) : KeyInObject m' ∧ m'.heap.ListsHoldScalars := by
  have attach : ∀ (s : State) (v : Value Ptr) (m1 : Machine),
      ((∀ children, v ≠ .list children) ∧ (∀ members, v ≠ .object members)) ∨
        (currentlyInAnObject m = true ∧ (v = .object [] ∨ v = .list [])) →
      addChildNode (makeShared { m with lastState := m.state, state := s } (.of v)).1
        (makeShared { m with lastState := m.state, state := s } (.of v)).2 = .ok m1 →
      m1.heap.ListsHoldScalars := by
    intro s v m1 hcase ha
    obtain ⟨p, hp, hnode⟩ := addChildNode_ok _ _ _ ha
    have hp' : m.hierarchy.getLast? = some p := hp
    have hlt : p < m.heap.length := hv.2 p (List.mem_of_getLast?_eq_some hp')
    have hget : ∀ c, (m.heap ++ [Cell.of v])[p]? = some c → m.heap[p]? = some c := by
      intro c hc
      rw [List.getElem?_append_left hlt] at hc
      exact hc
    have hfresh : ∀ children, v = .list children → children = [] := by
      intro children hc
      rcases hcase with ⟨hl, -⟩ | ⟨-, rfl | rfl⟩
      · exact absurd hc (hl children)
      · cases hc
      · simp only [Value.list.injEq] at hc
        exact hc.symm
    rcases hnode with ⟨children, hc, rfl⟩ | ⟨members, hc, rfl⟩
    · rcases hcase with ⟨hl, ho⟩ | ⟨hob, -⟩
      · exact Heap.ListsHoldScalars_attach_list m.heap hs p children v (hget _ hc) hl ho
      · obtain ⟨q, members, hq, hqc⟩ := (currentlyInAnObject_iff m).mp hob
        rw [hp'] at hq
        cases hq
        rw [hget _ hc] at hqc
        cases hqc
    · exact Heap.ListsHoldScalars_attach_other m.heap hs p v members _ (hget _ hc)
        (by simp) hfresh
  rcases step_inv lib m m' t h with ⟨s, hcase, rfl⟩ | ⟨rfl, hob⟩ | ⟨s, hs', hpop⟩ |
    ⟨v, ⟨hl, ho⟩, hst, ha⟩ | ⟨s, v, hv', hst, ho⟩
  · refine ⟨?_, hs⟩
    rcases hcase with ⟨rfl, hkey⟩ | ⟨hs', -⟩
    · exact fun _ => hk (Or.inl hkey)
    · intro hcon
      rcases hs' with rfl | rfl <;> simp at hcon
  · exact ⟨fun _ => hob, hs⟩
  · obtain ⟨rfl, -⟩ := popBack_frame _ _ hpop
    refine ⟨?_, hs⟩
    intro hcon
    rcases hs' with rfl | rfl <;> simp at hcon
  · obtain ⟨hf, -⟩ := addChildValue_frame _ _ _ ha
    refine ⟨?_, attach .Value v m' (Or.inl ⟨hl, ho⟩) ha⟩
    intro hcon
    have hst' : m'.state = .Value := hf.2.2.1
    rw [hst'] at hcon
    simp at hcon
  · have hstate : m'.state = s := (openContainer_frame _ _ _ ho).2.1
    have hv'' : v = Value.object [] ∨ v = Value.list [] := by
      rcases hv' with ⟨rfl, -⟩ | ⟨rfl, -⟩
      · exact Or.inl rfl
      · exact Or.inr rfl
    constructor
    · intro hcon
      rw [hstate] at hcon
      rcases hv' with ⟨-, rfl⟩ | ⟨-, rfl⟩ <;> simp at hcon
    · unfold openContainer at ho
      by_cases hstart : m.state = .Start
      · rw [if_pos hstart] at ho
        simp only [Except.ok.injEq] at ho
        subst ho
        refine Heap.ListsHoldScalars_append m.heap hs v ?_
        rintro children rfl
        rcases hv'' with hc | hc
        · cases hc
        · simp only [Value.list.injEq] at hc
          exact hc
      · rw [if_neg hstart] at ho
        have hcolon : m.state = .Colon := by
          rcases hst with h1 | h1
          · exact absurd h1 hstart
          · exact h1
        rcases ha : addChildNode
          (makeShared { m with lastState := m.state, state := s } (.of v)).1
          (makeShared { m with lastState := m.state, state := s } (.of v)).2 with e | m1
        · rw [ha] at ho
          cases ho
        · rw [ha] at ho
          simp only [Except.ok.injEq] at ho
          subst ho
          exact attach s v m1 (Or.inr ⟨hk (Or.inr hcolon), hv''⟩) ha

theorem ListsHoldScalars_parseTokens (lib : StdLib) (self : Parser) (tokens : List Token)
    (m : Machine) (h : parseTokens lib (start self) tokens = .ok m) :
    Valid m ∧ KeyInObject m ∧ m.heap.ListsHoldScalars := by
  have general : ∀ (tokens : List Token) (m0 m : Machine), parseTokens lib m0 tokens = .ok m →
      Valid m0 → KeyInObject m0 → m0.heap.ListsHoldScalars →
      Valid m ∧ KeyInObject m ∧ m.heap.ListsHoldScalars := by
    intro tokens
    induction tokens with
    | nil =>
      intro m0 m h hv hk hs
      simp only [parseTokens, Except.ok.injEq] at h
      subst h
      exact ⟨hv, hk, hs⟩
    | cons t tokens ih =>
      intro m0 m h hv hk hs
      obtain ⟨m1, hst, hrest⟩ := parseTokens_cons_ok lib m0 m t tokens h
      obtain ⟨hk1, hs1⟩ := ListsHoldScalars_step lib m0 m1 t hst hv hk hs
      exact ih m1 m hrest (Valid_step lib m0 m1 t hst hv) hk1 hs1
  refine general tokens (start self) m h (Valid_start self) ?_ ?_
  · intro hcon
    simp [start] at hcon
  · intro p children hp
    match p, hp with
    | 0, hp => cases hp
    | 1, hp => cases hp
    | p + 2, hp => cases hp

end Parser
namespace Node

theorem membersHoldScalars_iff (members : List (Str × Node)) :
    membersHoldScalars members = true ↔ ∀ kc ∈ members, kc.2.listsHoldScalars = true := by
  induction members with
  | nil => simp [membersHoldScalars]
  | cons kc rest ih =>
    obtain ⟨k, node⟩ := kc
    simp only [membersHoldScalars, Bool.and_eq_true, ih, List.mem_cons, forall_eq_or_imp]

end Node

namespace Heap

/-- The tree read from a store whose Lists hold no containers has no container in a List. -/
theorem readback_listsHoldScalars (heap : Heap) (ho : heap.Ordered)
    (hs : heap.ListsHoldScalars) (fuel p : Nat) (hf : heap.length - p ≤ fuel) :
    (heap.readback fuel p).listsHoldScalars = true := by
  induction fuel generalizing p with
  | zero => rfl
  | succ fuel ih =>
    rcases hc : heap[p]? with _ | cell
    · simp only [readback, hc]
      rfl
    · rcases cell with _ | v
      · simp only [readback, hc]
        rfl
      · cases v with
        | list children =>
          simp only [readback, hc, Node.listsHoldScalars, List.all_eq_true, List.mem_map]
          rintro x ⟨c, hcmem, rfl⟩
          obtain ⟨w, hw, hwl, hwo⟩ := hs p children hc c hcmem
          have hlt : p < c := (ho p).1 children hc c hcmem
          have hclt : c < heap.length := by
            by_contra hcon
            rw [List.getElem?_eq_none (Nat.le_of_not_lt hcon)] at hw
            cases hw
          have hp1 : p + 1 < heap.length := Nat.lt_of_le_of_lt hlt hclt
          obtain ⟨f, rfl⟩ : ∃ f, fuel = f + 1 := ⟨fuel - 1, by omega⟩
          cases w with
          | list g => exact absurd rfl (hwl g)
          | object ms => exact absurd rfl (hwo ms)
          | _ =>
            simp only [readback, hw]
            rfl
        | object members =>
          simp only [readback, hc, Node.listsHoldScalars, Node.membersHoldScalars_iff,
            List.mem_map]
          rintro x ⟨kc, hmem, rfl⟩
          have hlt : p < kc.2 := (ho p).2 members hc kc hmem
          exact ih kc.2 (by omega)
        | _ =>
          simp only [readback, hc]
          rfl

end Heap

/-! ### C22: the Lists hold no containers -/

/-- C22. In the tree that a call of `parse` returns the children of every List are Boolean,
Number, Null and String nodes, never a List or an Object. The loop of `parse` accepts a `[`
or a `{` only where the state is `Start` or `Colon`, and in every state that it reaches
from its start the state is `Colon` only while the innermost node of `hierarchy` is an
Object; so the node made for a `[` or a `{` becomes the root or a member of an Object, and
every child of a List in the store is a node that is no container. -/
theorem lists_hold_scalars (self : Parser) (lib : StdLib) :
    (∀ (file : List Char) (tree : Node),
      Parser.parse self lib file = .ok tree → tree.listsHoldScalars = true) ∧
    (∀ (tokens : List Token) (m : Machine),
      Parser.parseTokens lib (Parser.start self) tokens = .ok m →
      (m.state = .Colon → Parser.currentlyInAnObject m = true) ∧
      (∀ (t : Token) (m' : Machine), Parser.step lib m t = .ok m' →
        t.type = .ListOpen ∨ t.type = .ObjectOpen → m.state = .Start ∨ m.state = .Colon) ∧
      (∀ (p : Nat) (children : List Ptr), m.heap[p]? = some (.of (.list children)) →
        ∀ c ∈ children, ∃ v, m.heap[c]? = some (.of v) ∧
          (∀ grandchildren, v ≠ .list grandchildren) ∧ (∀ members, v ≠ .object members))) := by
  constructor
  · intro file tree h
    rcases ht : Tokenizer.tokenize lib file with e | tokens
    · simp only [Parser.parse, ht] at h
      cases h
    · rcases hm : Parser.parseTokens lib (Parser.start self) tokens with e | m
      · simp only [Parser.parse, ht, hm] at h
        cases h
      · simp only [Parser.parse, ht, hm, Except.ok.injEq] at h
        subst h
        obtain ⟨hv, -, hs⟩ := Parser.ListsHoldScalars_parseTokens lib self tokens m hm
        exact Heap.readback_listsHoldScalars m.heap hv.1 hs m.heap.length m.root
          (Nat.sub_le _ _)
  · intro tokens m hm
    obtain ⟨-, hk, hs⟩ := Parser.ListsHoldScalars_parseTokens lib self tokens m hm
    refine ⟨fun hc => hk (Or.inr hc), ?_, hs⟩
    intro t m' hstep htype
    have hmem := (Parser.step_frame lib m m' t hstep).1
    rcases htype with ht | ht <;> rw [ht] at hmem <;>
      simpa [Parser.allowedStates] using hmem

/-- The tree of `{"a":[true,"x"],"b":{"c":[]}}` has a List of two scalars and an empty
List; a List with a List in it is not such a tree. -/
theorem lists_hold_scalars_example :
    Parser.parse .new refLib
        "\x7b\"a\":[true,\"x\"],\"b\":\x7b\"c\":[]\x7d\x7d".toList =
      .ok (.of (.object [("a".toList, .of (.list [.of (.bool true), .of (.string "x".toList)])),
        ("b".toList, .of (.object [("c".toList, .of (.list []))]))])) ∧
    (Node.of (.object [("a".toList, .of (.list [.of (.bool true), .of (.string "x".toList)])),
        ("b".toList, .of (.object [("c".toList, .of (.list []))]))])).listsHoldScalars = true ∧
    (Node.of (.list [.of (.list [])])).listsHoldScalars = false :=
  ⟨rfl, rfl, rfl⟩

/-! ## The pointers that the containers hold -/

namespace Parser

theorem step_heap_length (lib : StdLib) (m m' : Machine) (t : Token)
    (h : step lib m t = .ok m') (hv : Valid m) : m.heap.length ≤ m'.heap.length := by
  rcases step_heap lib m m' t h hv with heq | ⟨v, -, -, heq⟩ | ⟨v, p, -, -, hcase⟩
  · rw [heq]
  · rw [heq, List.length_append]
    exact Nat.le_add_right _ _
  · rcases hcase with ⟨children, -, heq⟩ | ⟨members, -, heq⟩ <;>
    · rw [heq, List.length_set, List.length_append]
      exact Nat.le_add_right _ _

/-- A step of the parser gives a container no pointer but the one to the node it has made,
and that one only when the innermost container is a List or an Object with no entry under
`lastKey`. -/
theorem step_refers (lib : StdLib) (m m' : Machine) (t : Token) (h : step lib m t = .ok m')
    (hv : Valid m)
    (hs : ∀ (p : Nat) (members : List (Str × Ptr)), m.heap[p]? = some (.of (.object members)) →
      members.Pairwise (fun a b => a.1 < b.1))
    (q : Nat) (hq : m'.heap.Refers q) :
    m.heap.Refers q ∨
      (q = m.heap.length ∧ m'.heap.length = m.heap.length + 1 ∧
        ∃ p, m.hierarchy.getLast? = some p ∧
          ((∃ children, m.heap[p]? = some (.of (.list children))) ∨
            (∃ members, m.heap[p]? = some (.of (.object members)) ∧
              m.lastKey ∉ members.map Prod.fst))) := by
  have happ : ∀ (v : Value Ptr) (r : Nat) (c : Cell),
      ((∀ children, v = Value.list children → children = []) ∧
        (∀ members, v = Value.object members → members = [])) →
      (m.heap ++ [Cell.of v])[r]? = some c →
      ((∃ children, c = .of (.list children) ∧ q ∈ children) ∨
        (∃ members, c = .of (.object members) ∧ q ∈ members.map Prod.snd)) →
      m.heap.Refers q := by
    intro v r c hfresh hr hc
    by_cases hlt : r < m.heap.length
    · rw [List.getElem?_append_left hlt] at hr
      rcases hc with ⟨children, rfl, hmem⟩ | ⟨members, rfl, hmem⟩
      · exact ⟨r, Or.inl ⟨children, hr, hmem⟩⟩
      · exact ⟨r, Or.inr ⟨members, hr, hmem⟩⟩
    · rw [List.getElem?_append_right (Nat.le_of_not_lt hlt)] at hr
      cases hsub : r - m.heap.length with
      | zero =>
        rw [hsub] at hr
        simp only [List.getElem?_cons_zero, Option.some.injEq] at hr
        subst hr
        rcases hc with ⟨children, hc, hmem⟩ | ⟨members, hc, hmem⟩
        · simp only [Cell.of.injEq] at hc
          rw [hfresh.1 children hc] at hmem
          cases hmem
        · simp only [Cell.of.injEq] at hc
          rw [hfresh.2 members hc] at hmem
          simp at hmem
      | succ n =>
        rw [hsub] at hr
        simp at hr
  obtain ⟨r, hr⟩ := hq
  rcases step_heap lib m m' t h hv with heq | ⟨v, hv', -, heq⟩ | ⟨v, p, hfresh, hp, hcase⟩
  · rw [heq] at hr
    exact Or.inl ⟨r, hr⟩
  · rw [heq] at hr
    have hfresh : (∀ children, v = Value.list children → children = []) ∧
        (∀ members, v = Value.object members → members = []) := by
      rcases hv' with rfl | rfl <;> simp
    rcases hr with ⟨children, hc, hmem⟩ | ⟨members, hc, hmem⟩
    · exact Or.inl (happ v r _ hfresh hc (Or.inl ⟨children, rfl, hmem⟩))
    · exact Or.inl (happ v r _ hfresh hc (Or.inr ⟨members, rfl, hmem⟩))
  · have hplt : p < (m.heap ++ [Cell.of v]).length := by
      rw [List.length_append]
      exact Nat.lt_add_right _ (hv.2 p (List.mem_of_getLast?_eq_some hp))
    by_cases hpr : p = r
    · subst hpr
      rcases hcase with ⟨children, hc, heq⟩ | ⟨members, hc, heq⟩
      · rw [heq, List.getElem?_set_self hplt] at hr
        have hlen : m'.heap.length = m.heap.length + 1 := by
          rw [heq, List.length_set, List.length_append]
          rfl
        rcases hr with ⟨children', hc', hmem⟩ | ⟨members', hc', -⟩
        · simp only [Option.some.injEq, Cell.of.injEq, Value.list.injEq] at hc'
          subst hc'
          rcases List.mem_append.mp hmem with hmem | hmem
          · exact Or.inl ⟨p, Or.inl ⟨children, hc, hmem⟩⟩
          · rw [List.mem_singleton] at hmem
            exact Or.inr ⟨hmem, hlen, p, hp, Or.inl ⟨children, hc⟩⟩
        · simp at hc'
      · rw [heq, List.getElem?_set_self hplt] at hr
        have hlen : m'.heap.length = m.heap.length + 1 := by
          rw [heq, List.length_set, List.length_append]
          rfl
        rcases hr with ⟨children', hc', -⟩ | ⟨members', hc', hmem⟩
        · simp at hc'
        · simp only [Option.some.injEq, Cell.of.injEq, Value.object.injEq] at hc'
          subst hc'
          by_cases hkey : m.lastKey ∈ members.map Prod.fst
          · rw [mapInsert_of_mem_keys _ _ _ (hs p members hc) hkey] at hmem
            exact Or.inl ⟨p, Or.inr ⟨members, hc, hmem⟩⟩
          · obtain ⟨kc, hkc, rfl⟩ := List.mem_map.mp hmem
            rcases mem_mapInsert _ _ _ _ hkc with hkc | rfl
            · exact Or.inl ⟨p, Or.inr ⟨members, hc, List.mem_map.mpr ⟨kc, hkc, rfl⟩⟩⟩
            · exact Or.inr ⟨rfl, hlen, p, hp, Or.inr ⟨members, hc, hkey⟩⟩
    · have hset : ∀ c : Cell, m'.heap = (m.heap ++ [Cell.of v]).set p c →
          m.heap.Refers q := by
        intro c heq
        rw [heq, List.getElem?_set_ne hpr] at hr
        rcases hr with ⟨children, hc, hmem⟩ | ⟨members, hc, hmem⟩
        · exact happ v r _ hfresh hc (Or.inl ⟨children, rfl, hmem⟩)
        · exact happ v r _ hfresh hc (Or.inr ⟨members, rfl, hmem⟩)
      rcases hcase with ⟨children, -, heq⟩ | ⟨members, -, heq⟩
      · exact Or.inl (hset _ heq)
      · exact Or.inl (hset _ heq)

end Parser
namespace Parser

/-- The pointers that the containers hold, and `root`, point into the store. -/
theorem refers_lt_step (lib : StdLib) (m m' : Machine) (t : Token)
    (h : step lib m t = .ok m') (hv : Valid m)
    (hs : ∀ (p : Nat) (members : List (Str × Ptr)), m.heap[p]? = some (.of (.object members)) →
      members.Pairwise (fun a b => a.1 < b.1))
    (hb : ∀ q : Nat, m.heap.Refers q → q < m.heap.length) :
    ∀ q : Nat, m'.heap.Refers q → q < m'.heap.length := by
  intro q hq
  rcases step_refers lib m m' t h hv hs q hq with hq | ⟨rfl, hlen, -⟩
  · exact Nat.lt_of_lt_of_le (hb q hq) (step_heap_length lib m m' t h hv)
  · rw [hlen]
    exact Nat.lt_succ_self _

/-- A step of the parser assigns `root` only where the state is `Start`, and then the
pointer to the node it has made. -/
theorem step_root (lib : StdLib) (m m' : Machine) (t : Token) (h : step lib m t = .ok m') :
    m'.root = m.root ∨
      (m.state = .Start ∧ m'.root = m.heap.length ∧ m'.heap.length = m.heap.length + 1) := by
  rcases step_inv lib m m' t h with ⟨s, -, rfl⟩ | ⟨rfl, -⟩ | ⟨s, -, hpop⟩ |
    ⟨v, -, -, ha⟩ | ⟨s, v, -, -, ho⟩
  · exact Or.inl rfl
  · exact Or.inl rfl
  · obtain ⟨rfl, -⟩ := popBack_frame _ _ hpop
    exact Or.inl rfl
  · exact Or.inl (addChildValue_frame _ _ _ ha).2.1
  · unfold openContainer at ho
    by_cases hstart : m.state = .Start
    · rw [if_pos hstart] at ho
      simp only [Except.ok.injEq] at ho
      subst ho
      refine Or.inr ⟨hstart, rfl, ?_⟩
      simp [makeShared]
    · rw [if_neg hstart] at ho
      rcases ha : addChildNode
        (makeShared { m with lastState := m.state, state := s } (.of v)).1
        (makeShared { m with lastState := m.state, state := s } (.of v)).2 with e | m1
      · rw [ha] at ho
        cases ho
      · rw [ha] at ho
        simp only [Except.ok.injEq] at ho
        subst ho
        exact Or.inl (addChildNode_frame _ _ _ ha).2.1

theorem bounded_parseTokens (lib : StdLib) (self : Parser) (tokens : List Token) (m : Machine)
    (h : parseTokens lib (start self) tokens = .ok m) :
    (∀ q : Nat, m.heap.Refers q → q < m.heap.length) ∧ m.root < m.heap.length := by
  have general : ∀ (tokens : List Token) (m0 m : Machine), parseTokens lib m0 tokens = .ok m →
      Valid m0 →
      (∀ (p : Nat) (members : List (Str × Ptr)), m0.heap[p]? = some (.of (.object members)) →
        members.Pairwise (fun a b => a.1 < b.1)) →
      (∀ q : Nat, m0.heap.Refers q → q < m0.heap.length) → m0.root < m0.heap.length →
      (∀ q : Nat, m.heap.Refers q → q < m.heap.length) ∧ m.root < m.heap.length := by
    intro tokens
    induction tokens with
    | nil =>
      intro m0 m h hv hs hb hr
      simp only [parseTokens, Except.ok.injEq] at h
      subst h
      exact ⟨hb, hr⟩
    | cons t tokens ih =>
      intro m0 m h hv hs hb hr
      obtain ⟨m1, hst, hrest⟩ := parseTokens_cons_ok lib m0 m t tokens h
      refine ih m1 m hrest (Valid_step lib m0 m1 t hst hv) (sorted_step lib m0 m1 t hst hv hs)
        (refers_lt_step lib m0 m1 t hst hv hs hb) ?_
      rcases step_root lib m0 m1 t hst with hroot | ⟨-, hroot, hlen⟩
      · rw [hroot]
        exact Nat.lt_of_lt_of_le hr (step_heap_length lib m0 m1 t hst hv)
      · rw [hroot, hlen]
        exact Nat.lt_succ_self _
  refine general tokens (start self) m h (Valid_start self) ?_ ?_ (by simp [start])
  · intro p members hp
    match p, hp with
    | 0, hp => cases hp
    | 1, hp => cases hp
    | p + 2, hp => cases hp
  · rintro q ⟨p, ⟨children, hp, -⟩ | ⟨members, hp, -⟩⟩
    · match p, hp with
      | 0, hp => cases hp
      | 1, hp => cases hp
      | p + 2, hp => cases hp
    · match p, hp with
      | 0, hp => cases hp
      | 1, hp => cases hp
      | p + 2, hp => cases hp

/-- A node of the store that no container holds and `root` does not point to stays so. -/
theorem unreferenced_parseTokens (lib : StdLib) (tokens : List Token) (m m' : Machine)
    (h : parseTokens lib m tokens = .ok m') (hv : Valid m)
    (hs : ∀ (p : Nat) (members : List (Str × Ptr)), m.heap[p]? = some (.of (.object members)) →
      members.Pairwise (fun a b => a.1 < b.1))
    (q : Nat) (hq : q < m.heap.length) (href : ¬ m.heap.Refers q) (hroot : m.root ≠ q) :
    ¬ m'.heap.Refers q ∧ m'.root ≠ q := by
  induction tokens generalizing m with
  | nil =>
    simp only [parseTokens, Except.ok.injEq] at h
    subst h
    exact ⟨href, hroot⟩
  | cons t tokens ih =>
    obtain ⟨m1, hst, hrest⟩ := parseTokens_cons_ok lib m m' t tokens h
    refine ih m1 hrest (Valid_step lib m m1 t hst hv) (sorted_step lib m m1 t hst hv hs)
      (Nat.lt_of_lt_of_le hq (step_heap_length lib m m1 t hst hv)) ?_ ?_
    · intro hq1
      rcases step_refers lib m m1 t hst hv hs q hq1 with hq0 | ⟨rfl, -⟩
      · exact href hq0
      · exact Nat.lt_irrefl _ hq
    · rcases step_root lib m m1 t hst with hr | ⟨-, hr, -⟩
      · rw [hr]
        exact hroot
      · rw [hr]
        exact fun heq => Nat.lt_irrefl _ (heq ▸ hq)

/-- An entry of the map of an Object stays in the map. -/
theorem lookup_step (lib : StdLib) (m m' : Machine) (t : Token) (h : step lib m t = .ok m')
    (hv : Valid m)
    (hs : ∀ (p : Nat) (members : List (Str × Ptr)), m.heap[p]? = some (.of (.object members)) →
      members.Pairwise (fun a b => a.1 < b.1))
    (p : Nat) (members : List (Str × Ptr)) (hp : m.heap[p]? = some (.of (.object members))) :
    ∃ members', m'.heap[p]? = some (.of (.object members')) ∧
      ∀ (k : Str) (c : Ptr), members.lookup k = some c → members'.lookup k = some c := by
  rcases step_object lib m m' t h hv p members hp with hsame | ⟨-, hins⟩
  · exact ⟨members, hsame, fun _ _ hk => hk⟩
  · refine ⟨_, hins, ?_⟩
    intro k c hk
    rw [lookup_mapInsert _ _ _ (hs p members hp), hk]
    rfl

theorem lookup_parseTokens (lib : StdLib) (tokens : List Token) (m m' : Machine)
    (h : parseTokens lib m tokens = .ok m') (hv : Valid m)
    (hs : ∀ (p : Nat) (members : List (Str × Ptr)), m.heap[p]? = some (.of (.object members)) →
      members.Pairwise (fun a b => a.1 < b.1))
    (p : Nat) (members : List (Str × Ptr)) (hp : m.heap[p]? = some (.of (.object members))) :
    ∃ members', m'.heap[p]? = some (.of (.object members')) ∧
      ∀ (k : Str) (c : Ptr), members.lookup k = some c → members'.lookup k = some c := by
  induction tokens generalizing m members with
  | nil =>
    simp only [parseTokens, Except.ok.injEq] at h
    subst h
    exact ⟨members, hp, fun _ _ hk => hk⟩
  | cons t tokens ih =>
    obtain ⟨m1, hst, hrest⟩ := parseTokens_cons_ok lib m m' t tokens h
    obtain ⟨members1, hp1, hl1⟩ := lookup_step lib m m1 t hst hv hs p members hp
    obtain ⟨members', hp', hl'⟩ := ih m1 hrest (Valid_step lib m m1 t hst hv)
      (sorted_step lib m m1 t hst hv hs) members1 hp1
    exact ⟨members', hp', fun k c hk => hl' k c (hl1 k c hk)⟩

/-- A step of the parser that makes a node while the innermost container is an Object: the
call of `map.insert` with `lastKey` and the pointer to the node. -/
theorem step_insert (lib : StdLib) (m m' : Machine) (t : Token) (h : step lib m t = .ok m')
    (hv : Valid m) (hsent : Sentinel m) (p : Nat) (members : List (Str × Ptr))
    (hlast : m.hierarchy.getLast? = some p)
    (hp : m.heap[p]? = some (.of (.object members)))
    (hmade : m.heap.length < m'.heap.length) :
    m'.heap[p]? = some (Cell.of (.object (mapInsert m.lastKey m.heap.length members))) ∧
      m'.root = m.root := by
  have hstart : m.state ≠ .Start := by
    intro hS
    have hh := hsent.2.2 hS
    rw [hh] at hlast
    simp only [List.getLast?_singleton, Option.some.injEq] at hlast
    subst hlast
    rw [hsent.1] at hp
    cases hp
  constructor
  · rcases step_heap lib m m' t h hv with heq | ⟨v, -, hS, -⟩ | ⟨v, q, -, hq, hcase⟩
    · rw [heq] at hmade
      exact absurd hmade (Nat.lt_irrefl _)
    · exact absurd hS hstart
    · rw [hlast] at hq
      simp only [Option.some.injEq] at hq
      subst hq
      have hplt : p < (m.heap ++ [Cell.of v]).length := by
        rw [List.length_append]
        exact Nat.lt_add_right _ (hv.2 p (List.mem_of_getLast?_eq_some hlast))
      rcases hcase with ⟨children, hc, -⟩ | ⟨members', hc, heq⟩
      · rw [hp] at hc
        cases hc
      · rw [hp] at hc
        simp only [Option.some.injEq, Cell.of.injEq, Value.object.injEq] at hc
        subst hc
        rw [heq, List.getElem?_set_self hplt]
  · rcases step_root lib m m' t h with hr | ⟨hS, -⟩
    · exact hr
    · exact absurd hS hstart

end Parser

/-! ### C23: a key that occurs more than once -/

theorem lookup_eq_none_of_not_mem {ptr : Type} (k : Str) (members : List (Str × ptr))
    (h : k ∉ members.map Prod.fst) : members.lookup k = none := by
  induction members with
  | nil => rfl
  | cons a members ih =>
    obtain ⟨k', p⟩ := a
    simp only [List.map_cons, List.mem_cons, not_or] at h
    rw [lookup_cons_ne k k' p members h.1]
    exact ih h.2

/-- C23 as amended. In every state that the loop of `parse` reaches from its start: the map
of an Object has one entry for a key at most, and an entry that it has stays in it to the
end of the loop, whatever tokens follow. Where a step makes a node while the innermost
container is an Object, `map.insert` is called with `lastKey` and the pointer to the node:
when the map has no entry under `lastKey`, the node becomes the entry; when it has one,
the map is left as it is, and the node that was made, a scalar or a container, is held by
no container and is not the root, then and after every further token. So the entry under
a key is the node that was inserted first under it; `lastKey` is the key read last, in
this Object or in one that was closed before. -/
theorem duplicate_keys (self : Parser) (lib : StdLib) (tokens : List Token) (m : Machine)
    (hm : Parser.parseTokens lib (Parser.start self) tokens = .ok m) :
    (∀ (p : Nat) (members : List (Str × Ptr)), m.heap[p]? = some (.of (.object members)) →
      members.Pairwise (fun a b => a.1 < b.1) ∧ (members.map Prod.fst).Nodup ∧
      ∀ (rest : List Token) (m'' : Machine), Parser.parseTokens lib m rest = .ok m'' →
        ∃ members'', m''.heap[p]? = some (.of (.object members'')) ∧
          ∀ (k : Str) (c : Ptr), members.lookup k = some c → members''.lookup k = some c) ∧
    (∀ (t : Token) (m' : Machine) (p : Nat) (members : List (Str × Ptr)),
      Parser.step lib m t = .ok m' → m.hierarchy.getLast? = some p →
      m.heap[p]? = some (.of (.object members)) → m.heap.length < m'.heap.length →
      (m.lastKey ∉ members.map Prod.fst →
        ∃ members', m'.heap[p]? = some (.of (.object members')) ∧
          members'.lookup m.lastKey = some m.heap.length) ∧
      (m.lastKey ∈ members.map Prod.fst →
        m'.heap[p]? = some (.of (.object members)) ∧
        ∀ (rest : List Token) (m'' : Machine), Parser.parseTokens lib m' rest = .ok m'' →
          ¬ m''.heap.Refers m.heap.length ∧ m''.root ≠ m.heap.length)) := by
  obtain ⟨hv, hs⟩ := Parser.sorted_parseTokens lib self tokens m hm
  obtain ⟨hb, hroot⟩ := Parser.bounded_parseTokens lib self tokens m hm
  have hsent := Parser.Sentinel_parseTokens lib _ _ _ hm (Parser.Sentinel_start self)
  constructor
  · intro p members hp
    refine ⟨hs p members hp, ?_, fun rest m'' hrest =>
      Parser.lookup_parseTokens lib rest m m'' hrest hv hs p members hp⟩
    rw [List.Nodup, List.pairwise_map]
    exact (hs p members hp).imp (fun hlt => ne_of_lt hlt)
  · intro t m' p members hstep hlast hp hmade
    obtain ⟨hins, hr⟩ := Parser.step_insert lib m m' t hstep hv hsent p members hlast hp hmade
    constructor
    · intro hkey
      refine ⟨_, hins, ?_⟩
      rw [lookup_mapInsert _ _ _ (hs p members hp), lookup_eq_none_of_not_mem _ _ hkey,
        if_pos rfl]
      rfl
    · intro hkey
      rw [mapInsert_of_mem_keys _ _ _ (hs p members hp) hkey] at hins
      refine ⟨hins, fun rest m'' hrest => ?_⟩
      refine Parser.unreferenced_parseTokens lib rest m' m'' hrest
        (Parser.Valid_step lib m m' t hstep hv) (Parser.sorted_step lib m m' t hstep hv hs)
        m.heap.length hmade ?_ ?_
      · intro href
        rcases Parser.step_refers lib m m' t hstep hv hs _ href with h0 | ⟨-, -, q, hq, hcase⟩
        · exact Nat.lt_irrefl _ (hb _ h0)
        · rw [hlast] at hq
          simp only [Option.some.injEq] at hq
          subst hq
          rcases hcase with ⟨children, hc⟩ | ⟨members', hc, hnot⟩
          · rw [hp] at hc
            cases hc
          · rw [hp] at hc
            simp only [Option.some.injEq, Cell.of.injEq, Value.object.injEq] at hc
            subst hc
            exact hnot hkey
      · rw [hr]
        exact Nat.ne_of_lt hroot

/-- After the tokens `{`, `a`, `:`, `1`, `,`, `a`, `:` the token `2` makes the node 4 and
leaves the map of the Object as it is; after the tokens `}` and End no container holds
the node 4, and the root is the node 2. -/
theorem duplicate_keys_witness :
    (Parser.step refLib
        ⟨⟨[0, 2], .Key, .Colon, "a".toList⟩,
          [.root, .root, .of (.object [("a".toList, 3)]), .of (.int 1)], 2⟩
        ⟨"2".toList, .Number⟩).map (fun m' => m'.heap) =
      .ok [.root, .root, .of (.object [("a".toList, 3)]), .of (.int 1), .of (.int 2)] ∧
    ¬ Heap.Refers
        [.root, .root, .of (.object [("a".toList, 3)]), .of (.int 1), .of (.int 2)] 4 ∧
    (2 : Nat) ≠ 4 :=
  ⟨rfl, (((duplicate_keys .new refLib
    [⟨[], .ObjectOpen⟩, ⟨"a".toList, .String⟩, ⟨[], .Colon⟩, ⟨"1".toList, .Number⟩,
      ⟨[], .Comma⟩, ⟨"a".toList, .String⟩, ⟨[], .Colon⟩]
    ⟨⟨[0, 2], .Key, .Colon, "a".toList⟩,
      [.root, .root, .of (.object [("a".toList, 3)]), .of (.int 1)], 2⟩
    rfl).2 ⟨"2".toList, .Number⟩
    ⟨⟨[0, 2], .Colon, .Value, "a".toList⟩,
      [.root, .root, .of (.object [("a".toList, 3)]), .of (.int 1), .of (.int 2)], 2⟩
    2 [("a".toList, 3)] rfl rfl rfl (by decide)).2 (by simp)).2
    [⟨[], .ObjectClose⟩, ⟨[], .End⟩]
    ⟨⟨[0], .ObjectClose, .End, "a".toList⟩,
      [.root, .root, .of (.object [("a".toList, 3)]), .of (.int 1), .of (.int 2)], 2⟩ rfl⟩

/-- C23 as stated fails. In `{"a":{"b":1},true,"b":2,"b":3}` the outer object has two
members with the key `b`, with the values 2 and 3; the Object that `parse` returns has
under `b` the value `true`, inserted under the key that was read last when `true` was
read, and neither 2 nor 3. -/
theorem duplicate_key_after_stale_key :
    Parser.parse .new refLib
        "\x7b\"a\":\x7b\"b\":1\x7d,true,\"b\":2,\"b\":3\x7d".toList =
      .ok (.of (.object [("a".toList, .of (.object [("b".toList, .of (.int 1))])),
        ("b".toList, .of (.bool true))])) ∧
    Node.of (.bool true) ≠ .of (.int 2) :=
  ⟨rfl, by simp⟩

/-- In `{"a":1,"a":2}` and in `{"a":1,"a":{"b":2},"c":3}` the first value of `a` is
kept; the Object made for the second `a` receives `b` and is not in the tree. -/
theorem duplicate_keys_example :
    Parser.parse .new refLib "\x7b\"a\":1,\"a\":2\x7d".toList =
      .ok (.of (.object [("a".toList, .of (.int 1))])) ∧
    Parser.parse .new refLib "\x7b\"a\":1,\"a\":\x7b\"b\":2\x7d,\"c\":3\x7d".toList =
      .ok (.of (.object [("a".toList, .of (.int 1)), ("c".toList, .of (.int 3))])) :=
  ⟨rfl, rfl⟩

end Json
